import Mathlib

/-!
Skiplist (howoii/skiplist-go): shallow embedding of `skiplist.go`

The Go heap is an arena `List Node`; a `*Node` is an `Option Nat` (`none` is
`nil`, `some a` the node stored at index `a`).  Every operation returns an
`Option`: `none` stands for a Go panic (nil dereference, index out of range) or
for a forward walk that does not end (the walks carry as fuel the number of
allocated nodes: a walk that needs more steps revisits a node and never ends).
`uint64` arithmetic is arithmetic on `Nat` modulo `2^64`.  `float64` scores are
only compared by the code (`<`, `==`); NaN excluded, that is a total order and
scores are modelled by `Int`.  The namespace `F64` holds the same translation
over scores that can be NaN; `Insert_ofList`, `Delete_ofList`, `GetRank_ofList`,
`GetElementByRank_ofList` and `reachable_ofList` show that the two translations
take the same steps when no score is NaN; the properties that fail with a NaN
score are stated there for scores that are not NaN, and refuted there with a NaN
score.  The draw of `randomLevel()` inside `Insert` is the
argument `level` of `Insert`.
-/

namespace skiplist

/-! ## Constants and machine arithmetic -/

/-- Source constant `MaxLevel = 32`. -/
def MaxLevel : Nat := 32

/-- Modulus of `uint64`, `2^64`. -/
def U64 : Nat := 18446744073709551616

/-- Addition of `uint64`. -/
def u64add (a b : Nat) : Nat := (a + b) % U64

/-- Subtraction of `uint64` (wraps around below zero). -/
def u64sub (a b : Nat) : Nat := (a % U64 + (U64 - b % U64)) % U64

/-- Go `strings.Compare(a, b)`: `0` if `a == b`, `-1` if `a < b`, `+1` otherwise
(lexicographic order; `a.toList < b.toList` is the order `a < b` of strings). -/
def stringsCompare (a b : String) : Int :=
  if a = b then 0 else if a.toList < b.toList then -1 else 1

/-! ## Data model (`Level`, `Node`, `List` of the source) -/

/-- Source `type Level struct { forward *Node; span uint64 }`. -/
structure Level where
  forward : Option Nat
  span : Nat
deriving DecidableEq

/-- Source `type Node struct { Obj string; Score float64; backward *Node; level []Level }`. -/
structure Node where
  Obj : String
  Score : Int
  backward : Option Nat
  level : List Level
deriving DecidableEq

/-- Source `type List struct { Length uint64; header, tail *Node; level uint32 }`,
together with the arena `heap` that holds the nodes its pointers refer to. -/
structure SkipList where
  heap : List Node
  Length : Nat
  header : Option Nat
  tail : Option Nat
  level : Nat
deriving DecidableEq

/-- The error values of `Delete`: `nil` and `ErrNodeNotFound`. -/
inductive DeleteResult where
  | ok
  | ErrNodeNotFound
deriving DecidableEq

/-! ## Heap and slice access -/

/-- Read of `p.level[j]` for a non-nil `p`. -/
def getLevel (h : List Node) (a j : Nat) : Option Level :=
  match h[a]? with
  | none => none
  | some n => n.level[j]?

/-- Assignment `p.level[j].forward = f`. -/
def setForward (h : List Node) (a j : Nat) (f : Option Nat) : Option (List Node) :=
  match h[a]? with
  | none => none
  | some n =>
    match n.level[j]? with
    | none => none
    | some lv => some (h.set a { n with level := n.level.set j { lv with forward := f } })

/-- Assignment `p.level[j].span = s`. -/
def setSpan (h : List Node) (a j : Nat) (s : Nat) : Option (List Node) :=
  match h[a]? with
  | none => none
  | some n =>
    match n.level[j]? with
    | none => none
    | some lv => some (h.set a { n with level := n.level.set j { lv with span := s } })

/-- Assignment `p.backward = b`. -/
def setBackward (h : List Node) (a : Nat) (b : Option Nat) : Option (List Node) :=
  match h[a]? with
  | none => none
  | some n => some (h.set a { n with backward := b })

/-- Assignment `xs[i] = v` into a slice (panics out of range). -/
def setArr {α : Type} (xs : List α) (i : Nat) (v : α) : Option (List α) :=
  if i < xs.length then some (xs.set i v) else none

/-! ## `Create` -/

/-- Source `Create` (lines 33-43). -/
def Create : SkipList :=
  { heap := [{ Obj := "", Score := 0, backward := none,
               level := List.replicate MaxLevel { forward := none, span := 0 } }]
    Length := 0
    header := some 0
    tail := none
    level := 1 }

/-! ## `Insert` -/

/-- Inner loop of `Insert` (lines 70-77) at level `j`: the cursor `x` moves
forward while the next node is smaller than `(score, obj)`; `rank[j]`
accumulates the spans. -/
def insertAdvance (h : List Node) (score : Int) (obj : String) (j : Nat) :
    Nat → Nat → List Nat → Option (Nat × List Nat)
  | 0, _, _ => none
  | fuel + 1, x, rank =>
    match getLevel h x j with
    | none => none
    | some lv =>
      match lv.forward with
      | none => some (x, rank)
      | some f =>
        match h[f]? with
        | none => none
        | some nf =>
          if nf.Score < score ∨ (nf.Score = score ∧ stringsCompare nf.Obj obj < 0) then
            match rank[j]? with
            | none => none
            | some r =>
              match setArr rank j (u64add r lv.span) with
              | none => none
              | some rank1 => insertAdvance h score obj j fuel f rank1
          else some (x, rank)

/-- Lines 67-69: `if j < l.level-1 { rank[j] = rank[j+1] }`; `lvl` is `l.level`. -/
def insertCopyRank (lvl j : Nat) (rank : List Nat) : Option (List Nat) :=
  if j < lvl - 1 then
    match rank[j + 1]? with
    | none => none
    | some r => setArr rank j r
  else some rank

/-- Outer loop of `Insert` (lines 60-80), `i` counting down from `l.level`
(`j = i - 1`); `lvl` is `l.level`. -/
def insertSearch (h : List Node) (score : Int) (obj : String) (lvl : Nat) :
    Nat → Nat → List (Option Nat) → List Nat → Option (List (Option Nat) × List Nat)
  | 0, _, update, rank => some (update, rank)
  | j + 1, x, update, rank =>
    match insertCopyRank lvl j rank with
    | none => none
    | some rank1 =>
      match insertAdvance h score obj j h.length x rank1 with
      | none => none
      | some (x1, rank2) =>
        match setArr update j (some x1) with
        | none => none
        | some update1 => insertSearch h score obj lvl j x1 update1 rank2

/-- Loop of lines 89-93, `for i := l.level; i < level; i++`, with `n` iterations left. -/
def insertRaise (len : Nat) (hd : Option Nat) :
    Nat → Nat → List Node → List (Option Nat) → List Nat →
      Option (List Node × List (Option Nat) × List Nat)
  | 0, _, h, update, rank => some (h, update, rank)
  | n + 1, i, h, update, rank =>
    match setArr rank i 0 with
    | none => none
    | some rank1 =>
      match setArr update i hd with
      | none => none
      | some update1 =>
        match hd with
        | none => none
        | some a =>
          match setSpan h a i len with
          | none => none
          | some h1 => insertRaise len hd n (i + 1) h1 update1 rank1

/-- Loop of lines 107-117, `for i := 0; i < int(level); i++`, with `n` iterations left. -/
def insertSplice (x : Nat) (update : List (Option Nat)) (rank : List Nat) :
    Nat → Nat → List Node → Option (List Node)
  | 0, _, h => some h
  | n + 1, i, h =>
    match update[i]? with
    | none => none
    | some none => none
    | some (some u) =>
      match getLevel h u i with
      | none => none
      | some lu =>
        -- x.level[i].forward = update[i].level[i].forward
        match setForward h x i lu.forward with
        | none => none
        | some h1 =>
          -- update[i].level[i].forward = x
          match setForward h1 u i (some x) with
          | none => none
          | some h2 =>
            match getLevel h2 u i, rank[0]?, rank[i]? with
            | some lu2, some r0, some ri =>
              -- x.level[i].span = update[i].level[i].span - (rank[0] - rank[i])
              match setSpan h2 x i (u64sub lu2.span (u64sub r0 ri)) with
              | none => none
              | some h3 =>
                -- update[i].level[i].span = rank[0] - rank[i] + 1
                match setSpan h3 u i (u64add (u64sub r0 ri) 1) with
                | none => none
                | some h4 => insertSplice x update rank n (i + 1) h4
            | _, _, _ => none

/-- Loop of lines 120-122, `for i := level; i < l.level; i++`, with `n` iterations left. -/
def insertBump (update : List (Option Nat)) : Nat → Nat → List Node → Option (List Node)
  | 0, _, h => some h
  | n + 1, i, h =>
    match update[i]? with
    | none => none
    | some none => none
    | some (some u) =>
      match getLevel h u i with
      | none => none
      | some lu =>
        match setSpan h u i (u64add lu.span 1) with
        | none => none
        | some h1 => insertBump update n (i + 1) h1

/-- The node allocated by `Insert` (lines 100-104):
`&Node{Obj: obj, Score: score, level: make([]Level, level)}`. -/
def newNode (score : Int) (obj : String) (level : Nat) : Node :=
  { Obj := obj, Score := score, backward := none,
    level := List.replicate level { forward := none, span := 0 } }

/-- Source `Insert` (lines 54-138); `level` is the value drawn by
`randomLevel()`.  Returns the new list and the pointer to the new node. -/
def Insert (l : SkipList) (score : Int) (obj : String) (level : Nat) :
    Option (SkipList × Nat) :=
  match l.header with
  | none => none
  | some hd =>
    match insertSearch l.heap score obj l.level l.level hd
        (List.replicate MaxLevel none) (List.replicate MaxLevel 0) with
    | none => none
    | some (update0, rank0) =>
      match (if level > l.level then
               insertRaise l.Length l.header (level - l.level) l.level l.heap update0 rank0
             else some (l.heap, update0, rank0)) with
      | none => none
      | some (h1, update, rank) =>
        let lvl := if level > l.level then level else l.level
        -- x = &Node{Obj: obj, Score: score, level: make([]Level, level)}
        let x := h1.length
        let h2 := h1 ++ [newNode score obj level]
        match insertSplice x update rank level 0 h2 with
        | none => none
        | some h3 =>
          match insertBump update (lvl - level) level h3 with
          | none => none
          | some h4 =>
            match update[0]? with
            | none => none
            | some u0 =>
              match (if u0 ≠ l.header then setBackward h4 x u0 else some h4) with
              | none => none
              | some h5 =>
                match getLevel h5 x 0 with
                | none => none
                | some lx =>
                  match lx.forward with
                  | some f =>
                    match setBackward h5 f (some x) with
                    | none => none
                    | some h6 =>
                      some ({ heap := h6, Length := u64add l.Length 1, header := l.header,
                              tail := l.tail, level := lvl }, x)
                  | none =>
                    some ({ heap := h5, Length := u64add l.Length 1, header := l.header,
                            tail := some x, level := lvl }, x)

/-! ## `deleteNode` and `Delete` -/

/-- Body of the loop of lines 142-149 at level `i`. -/
def deleteUnlinkStep (x : Nat) (update : List (Option Nat)) (i : Nat) (h : List Node) :
    Option (List Node) :=
  match update[i]? with
  | none => none
  | some none => none
  | some (some u) =>
    match getLevel h u i with
    | none => none
    | some lu =>
      if lu.forward = some x then
        -- update[i].level[i].forward = x.level[i].forward
        match getLevel h x i with
        | none => none
        | some lx =>
          match setForward h u i lx.forward with
          | none => none
          | some h1 =>
            -- update[i].level[i].span += x.level[i].span - 1
            match getLevel h1 u i, getLevel h1 x i with
            | some lu1, some lx1 => setSpan h1 u i (u64add lu1.span (u64sub lx1.span 1))
            | _, _ => none
      else
        -- update[i].level[i].span -= 1
        setSpan h u i (u64sub lu.span 1)

/-- Loop of lines 142-149, `for i := 0; i < int(l.level); i++`, with `n` iterations left. -/
def deleteUnlink (x : Nat) (update : List (Option Nat)) :
    Nat → Nat → List Node → Option (List Node)
  | 0, _, h => some h
  | n + 1, i, h =>
    match deleteUnlinkStep x update i h with
    | none => none
    | some h1 => deleteUnlink x update n (i + 1) h1

/-- Loop of lines 159-161: `for l.level > 1 && l.header.level[l.level-1].forward == nil`. -/
def deleteShrink (h : List Node) (hd : Option Nat) : Nat → Option Nat
  | 0 => some 0
  | k + 1 =>
    if k + 1 > 1 then
      match hd with
      | none => none
      | some a =>
        match getLevel h a k with
        | none => none
        | some lv => if lv.forward = none then deleteShrink h hd k else some (k + 1)
    else some (k + 1)

/-- Lines 152-156 of `deleteNode`: the backward pointer of the successor of `x`,
or the tail, takes `x.backward`.  Returns the heap and the tail. -/
def deleteRelink (h : List Node) (tail : Option Nat) (x : Nat) :
    Option (List Node × Option Nat) :=
  match h[x]? with
  | none => none
  | some nx =>
    match nx.level[0]? with
    | none => none
    | some lx =>
      match lx.forward with
      | some f =>
        match setBackward h f nx.backward with
        | none => none
        | some h1 => some (h1, tail)
      | none => some (h, nx.backward)

/-- Source `deleteNode` (lines 140-165). -/
def deleteNode (l : SkipList) (x : Nat) (update : List (Option Nat)) : Option SkipList :=
  match deleteUnlink x update l.level 0 l.heap with
  | none => none
  | some h1 =>
    match deleteRelink h1 l.tail x with
    | none => none
    | some (h2, tl) =>
      match deleteShrink h2 l.header l.level with
      | none => none
      | some lvl =>
        some { heap := h2, Length := u64sub l.Length 1, header := l.header,
               tail := tl, level := lvl }

/-- Inner loop of `Delete` (lines 174-179) at level `j`. -/
def deleteAdvance (h : List Node) (score : Int) (obj : String) (j : Nat) :
    Nat → Nat → Option Nat
  | 0, _ => none
  | fuel + 1, x =>
    match getLevel h x j with
    | none => none
    | some lv =>
      match lv.forward with
      | none => some x
      | some f =>
        match h[f]? with
        | none => none
        | some nf =>
          if nf.Score < score ∨ (nf.Score = score ∧ stringsCompare nf.Obj obj < 0) then
            deleteAdvance h score obj j fuel f
          else some x

/-- Outer loop of `Delete` (lines 172-182), `i` counting down from `l.level`. -/
def deleteSearch (h : List Node) (score : Int) (obj : String) :
    Nat → Nat → List (Option Nat) → Option (Nat × List (Option Nat))
  | 0, x, update => some (x, update)
  | j + 1, x, update =>
    match deleteAdvance h score obj j h.length x with
    | none => none
    | some x1 =>
      match setArr update j (some x1) with
      | none => none
      | some update1 => deleteSearch h score obj j x1 update1

/-- Source `Delete` (lines 167-192): the list after the call and the error returned. -/
def Delete (l : SkipList) (score : Int) (obj : String) : Option (SkipList × DeleteResult) :=
  match l.header with
  | none => none
  | some hd =>
    match deleteSearch l.heap score obj l.level hd (List.replicate MaxLevel none) with
    | none => none
    | some (x0, update) =>
      -- x = x.level[0].forward
      match getLevel l.heap x0 0 with
      | none => none
      | some lv =>
        match lv.forward with
        | none => some (l, DeleteResult.ErrNodeNotFound)
        | some x =>
          match l.heap[x]? with
          | none => none
          | some nx =>
            if nx.Score = score ∧ stringsCompare nx.Obj obj = 0 then
              match deleteNode l x update with
              | none => none
              | some l1 => some (l1, DeleteResult.ok)
            else some (l, DeleteResult.ErrNodeNotFound)

/-! ## `GetRank` -/

/-- Inner loop of `GetRank` (lines 201-208) at level `j`. -/
def getRankAdvance (h : List Node) (score : Int) (obj : String) (j : Nat) :
    Nat → Nat → Nat → Option (Nat × Nat)
  | 0, _, _ => none
  | fuel + 1, x, rank =>
    match getLevel h x j with
    | none => none
    | some lv =>
      match lv.forward with
      | none => some (x, rank)
      | some f =>
        match h[f]? with
        | none => none
        | some nf =>
          if nf.Score < score ∨ (nf.Score = score ∧ stringsCompare nf.Obj obj ≤ 0) then
            getRankAdvance h score obj j fuel f (u64add rank lv.span)
          else some (x, rank)

/-- Outer loop of `GetRank` (lines 199-213), `i` counting down from `l.level`. -/
def getRankLoop (h : List Node) (score : Int) (obj : String) :
    Nat → Option Nat → Nat → Option Nat
  | 0, _, _ => some 0
  | j + 1, x, rank =>
    match x with
    | none => none
    | some a =>
      match getRankAdvance h score obj j h.length a rank with
      | none => none
      | some (x1, rank1) =>
        -- if x != nil && strings.Compare(x.Obj, obj) == 0
        match h[x1]? with
        | none => none
        | some n =>
          if stringsCompare n.Obj obj = 0 then some rank1
          else getRankLoop h score obj j (some x1) rank1

/-- Source `GetRank` (lines 194-217). -/
def GetRank (l : SkipList) (score : Int) (obj : String) : Option Nat :=
  getRankLoop l.heap score obj l.level l.header 0

/-! ## `GetElementByRank` -/

/-- Inner loop of `GetElementByRank` (lines 227-231) at level `j`. -/
def getElementAdvance (h : List Node) (j : Nat) : Nat → Nat → Nat → Option (Nat × Nat)
  | 0, _, _ => none
  | fuel + 1, x, rank =>
    match getLevel h x j with
    | none => none
    | some lv =>
      match lv.forward with
      | none => some (x, rank)
      | some f =>
        if rank ≥ lv.span then getElementAdvance h j fuel f (u64sub rank lv.span)
        else some (x, rank)

/-- Outer loop of `GetElementByRank` (lines 225-235), `i` counting down from `l.level`. -/
def getElementLoop (h : List Node) : Nat → Option Nat → Nat → Option (Option Nat)
  | 0, _, _ => some none
  | j + 1, x, rank =>
    match x with
    | none => none
    | some a =>
      match getElementAdvance h j h.length a rank with
      | none => none
      | some (x1, rank1) =>
        if rank1 = 0 then some (some x1) else getElementLoop h j (some x1) rank1

/-- Source `GetElementByRank` (lines 219-238): `some none` is the `nil` result. -/
def GetElementByRank (l : SkipList) (rank : Nat) : Option (Option Nat) :=
  if rank > l.Length ∧ rank = 0 then some none
  else getElementLoop l.heap l.level l.header rank

/-! ## Observations on the heap -/

/-- The fields of the node at `a` that no assignment of the code changes:
`Obj`, `Score` and the length of its tower. -/
def nodeInfo (h : List Node) (a : Nat) : Option (String × Int × Nat) :=
  match h[a]? with
  | none => none
  | some n => some (n.Obj, n.Score, n.level.length)

/-- The `backward` pointer of the node at `a`. -/
def backwardAt (h : List Node) (a : Nat) : Option (Option Nat) :=
  match h[a]? with
  | none => none
  | some n => some n.backward

/-- The `(Score, Obj)` pairs met along the level-0 forward chain that starts at `p`. -/
def chainPairs (h : List Node) : Nat → Option Nat → Option (List (Int × String))
  | _, none => some []
  | 0, some _ => none
  | fuel + 1, some a =>
    match h[a]? with
    | none => none
    | some n =>
      match n.level[0]? with
      | none => none
      | some lv =>
        match chainPairs h fuel lv.forward with
        | none => none
        | some r => some ((n.Score, n.Obj) :: r)

/-- The level-0 sequence of `(Score, Obj)` pairs of a list: the real nodes
reached from the header by `level[0].forward`, in order. -/
def level0Pairs (l : SkipList) : Option (List (Int × String)) :=
  match l.header with
  | none => none
  | some hd =>
    match getLevel l.heap hd 0 with
    | none => none
    | some lv => chainPairs l.heap l.heap.length lv.forward

/-! ## The order on `(score, member)` pairs -/

/-- Strict order of the list: score ascending, then member ascending. -/
def pairLt (p q : Int × String) : Prop :=
  p.1 < q.1 ∨ (p.1 = q.1 ∧ p.2.toList < q.2.toList)

instance pairLtDecidable : DecidableRel pairLt :=
  fun p q => inferInstanceAs (Decidable (p.1 < q.1 ∨ (p.1 = q.1 ∧ p.2.toList < q.2.toList)))

/-- Non-strict order: `p ≤ q` when `q` is not strictly smaller than `p`. -/
def pairLe (p q : Int × String) : Prop := ¬ pairLt q p

instance pairLeDecidable : DecidableRel pairLe :=
  fun p q => inferInstanceAs (Decidable (¬ pairLt q p))

/-- The pairs sorted ascending by score and then by member. -/
def sortPairs (ps : List (Int × String)) : List (Int × String) :=
  List.insertionSort pairLe ps

/-- The 1-based position of the first occurrence of the pair `p` in `ps`, 0 when
`p` does not occur. -/
def rankIn (p : Int × String) : List (Int × String) → Nat
  | [] => 0
  | q :: qs => if q = p then 1 else if rankIn p qs = 0 then 0 else rankIn p qs + 1

/-! ## Lists reachable from `Create` -/

/-- Lists reachable from `Create` by `Insert` (tower heights in `[1, MaxLevel]`,
as `randomLevel` draws them) and `Delete`.  An `Insert` needs room for one more
node below `2^64`, the range of the `uint64` field `Length`. -/
inductive Reachable : SkipList → Prop
  | create : Reachable Create
  | insert {l l1 : SkipList} {x : Nat} (score : Int) (obj : String) (level : Nat) :
      Reachable l → 1 ≤ level → level ≤ MaxLevel → l.Length + 1 < U64 →
      Insert l score obj level = some (l1, x) → Reachable l1
  | delete {l l1 : SkipList} {e : DeleteResult} (score : Int) (obj : String) :
      Reachable l → Delete l score obj = some (l1, e) → Reachable l1

/-- Successive `Insert`s of the pairs `ps`, the i-th with tower height `hs[i]`. -/
def insertAll : SkipList → List (Int × String) → List Nat → Option SkipList
  | l, [], _ => some l
  | _, _ :: _, [] => none
  | l, p :: ps, h :: hs =>
    match Insert l p.1 p.2 h with
    | none => none
    | some (l1, _) => insertAll l1 ps hs

/-- The pairs inserted by the test `TestCreate` (`skiplist_test.go`, lines 9-15). -/
def testPairs : List (Int × String) :=
  [(100, "a"), (200, "b"), (300, "c"), (400, "e"), (500, "f"), (600, "g"), (700, "h")]

/-- The list of the test `TestCreate`, for the draws 1, 3, 1, 2, 1, 4, 1 of
`randomLevel`. -/
def testList : SkipList :=
  match insertAll Create testPairs [1, 3, 1, 2, 1, 4, 1] with
  | some l => l
  | none => Create

/-! ## Representation invariant -/

/-- A real node of the list as the invariant sees it: its address, its pair
and the height of its tower. -/
structure Cell where
  addr : Nat
  score : Int
  obj : String
  height : Nat

/-- The `(score, member)` pair of a cell. -/
def Cell.key (c : Cell) : Int × String := (c.score, c.obj)

/-- The header seen as a cell: address 0, a tower of `MaxLevel` levels. -/
def hdrCell : Cell := { addr := 0, score := 0, obj := "", height := MaxLevel }

/-- The first cell of `cs` whose tower reaches level `j`: its address and its
1-based distance. -/
def firstAbove (j : Nat) : List Cell → Option (Nat × Nat)
  | [] => none
  | c :: cs =>
    if j < c.height then some (c.addr, 1)
    else
      match firstAbove j cs with
      | none => none
      | some (a, d) => some (a, d + 1)

/-- The level-`j` link a node must carry when `rest` are the cells after it:
forward to the first cell reaching level `j`, span its distance; with no such
cell, no forward and the number of cells after the node as span. -/
def expLink (j : Nat) (rest : List Cell) : Level :=
  match firstAbove j rest with
  | some (a, d) => { forward := some a, span := d }
  | none => { forward := none, span := rest.length }

/-- Entry `j` of the arrays `update` and `rank` filled by the search loop, for
the cells `A` (header first) that precede the searched pair: `update[j]` is the
last cell of `A` whose tower reaches level `j`, `rank[j]` the number of cells
before it. -/
def SearchAt (A : List Cell) (update : List (Option Nat)) (rank : List Nat) (j : Nat) : Prop :=
  ∃ A1 u mid, A = A1 ++ u :: mid ∧ j < u.height ∧ (∀ c ∈ mid, c.height ≤ j) ∧
    update[j]? = some (some u.addr) ∧ rank[j]? = some A1.length

/-- The heap `h`, read up to level `L`, holds the header at address 0 followed
by the real nodes `cells` in level-0 order: every link below `L` is the
expected one, every backward pointer leads to the previous real node. -/
structure Shape (h : List Node) (L : Nat) (cells : List Cell) : Prop where
  heap_gt : cells.length < h.length
  addr_nodup : (cells.map Cell.addr).Nodup
  addr_ok : ∀ c ∈ cells, 0 < c.addr ∧ c.addr < h.length
  hdr_info : nodeInfo h 0 = some ("", 0, MaxLevel)
  hdr_link : ∀ j, j < L → getLevel h 0 j = some (expLink j cells)
  hdr_top : ∀ j, L ≤ j → j < MaxLevel → ∃ s, getLevel h 0 j = some ⟨none, s⟩
  info : ∀ c ∈ cells, nodeInfo h c.addr = some (c.obj, c.score, c.height)
  link : ∀ pre c post, cells = pre ++ c :: post →
    ∀ j, j < c.height → getLevel h c.addr j = some (expLink j post)
  back : ∀ pre c post, cells = pre ++ c :: post →
    backwardAt h c.addr = some (pre.getLast?.map Cell.addr)

/-- The list `l` represents the sequence `cells` of real nodes (level-0 order). -/
structure Rep (l : SkipList) (cells : List Cell) : Prop where
  shape : Shape l.heap l.level cells
  header : l.header = some 0
  level_pos : 1 ≤ l.level
  level_le : l.level ≤ MaxLevel
  length_eq : l.Length = cells.length
  length_lt : cells.length < U64
  height_ok : ∀ c ∈ cells, 1 ≤ c.height ∧ c.height ≤ l.level
  tail_eq : l.tail = cells.getLast?.map Cell.addr
  sorted : (cells.map Cell.key).Pairwise pairLe
  top : 1 < l.level → ∃ c ∈ cells, c.height = l.level

/-! ## `randomLevel` -/

/-- Source constant `P = 0.25`. -/
def P : ℚ := 1 / 4

/-- The loop of `randomLevel` (lines 47-49): `draws i` is the value of the
`i`-th call of `rand.Float64()`.  The call is made before `level < MaxLevel` is
tested, as `&&` evaluates its left operand first. -/
def randomLevelLoop (draws : Nat → ℚ) : Nat → Nat → Nat → Option Nat
  | 0, _, _ => none
  | fuel + 1, i, level =>
    if draws i < P ∧ level < MaxLevel then randomLevelLoop draws fuel (i + 1) (level + 1)
    else some level

/-- Source `randomLevel` (lines 45-52), on the source of draws `draws`; the loop
is given `MaxLevel` rounds. -/
def randomLevel (draws : Nat → ℚ) : Option Nat :=
  randomLevelLoop draws MaxLevel 0 1

/-! ## Walks that observe a list -/

/-- The addresses of the nodes met along the level-`j` forward chain that
starts at `p`. -/
def chainAddrs (h : List Node) (j : Nat) : Nat → Option Nat → Option (List Nat)
  | _, none => some []
  | 0, some _ => none
  | fuel + 1, some a =>
    match getLevel h a j with
    | none => none
    | some lv =>
      match chainAddrs h j fuel lv.forward with
      | none => none
      | some r => some (a :: r)

/-- The nodes of the level-`j` forward chain of a list, the header left out; at
level 0 these are the real nodes, in order. -/
def levelAddrs (l : SkipList) (j : Nat) : Option (List Nat) :=
  match l.header with
  | none => none
  | some hd =>
    match getLevel l.heap hd j with
    | none => none
    | some lv => chainAddrs l.heap j l.heap.length lv.forward

/-- The level-`j` forward chain from the node `x`, reached with the span sum
`acc`: every node met, with the sum of the spans of the links followed to it. -/
def chainSums (h : List Node) (j : Nat) : Nat → Nat → Nat → Option (List (Nat × Nat))
  | 0, _, _ => none
  | fuel + 1, x, acc =>
    match getLevel h x j with
    | none => none
    | some lv =>
      match lv.forward with
      | none => some []
      | some f =>
        match chainSums h j fuel f (acc + lv.span) with
        | none => none
        | some r => some ((f, acc + lv.span) :: r)

/-- The nodes of the level-`j` forward chain of a list, each with the sum of the
spans of the links followed from the header to it. -/
def levelSums (l : SkipList) (j : Nat) : Option (List (Nat × Nat)) :=
  match l.header with
  | none => none
  | some hd => chainSums l.heap j l.heap.length hd 0

/-- The addresses of the nodes met by following `backward` from `p`. -/
def backwardChain (h : List Node) : Nat → Option Nat → Option (List Nat)
  | _, none => some []
  | 0, some _ => none
  | fuel + 1, some a =>
    match backwardAt h a with
    | none => none
    | some b =>
      match backwardChain h fuel b with
      | none => none
      | some r => some (a :: r)

/-! ## Lists kept free of duplicates by the caller -/

/-- Lists reachable from `Create` by `Insert` and `Delete` when no pair is
inserted while an equal pair is stored. -/
inductive ReachableUnique : SkipList → Prop
  | create : ReachableUnique Create
  | insert {l l1 : SkipList} {x : Nat} {pairs : List (Int × String)}
      (score : Int) (obj : String) (level : Nat) :
      ReachableUnique l → 1 ≤ level → level ≤ MaxLevel → l.Length + 1 < U64 →
      level0Pairs l = some pairs → (score, obj) ∉ pairs →
      Insert l score obj level = some (l1, x) → ReachableUnique l1
  | delete {l l1 : SkipList} {e : DeleteResult} (score : Int) (obj : String) :
      ReachableUnique l → Delete l score obj = some (l1, e) → ReachableUnique l1

/-! ## Exactness of the span arithmetic

The checks below follow the loops of `Insert` and `deleteNode` iteration by
iteration, the heap moving by the code of the loop itself, and compare every
span an iteration stores with the value of the source expression computed in
the integers from the operands the iteration reads. -/

/-- Iteration `i` of the loop of lines 107-117, from the heap `h` to the heap
`h1`: the span stored in `x.level[i]` is `update[i].level[i].span - (rank[0] -
rank[i])` and the span stored in `update[i].level[i]` is `(rank[0] - rank[i]) + 1`,
both as integers. -/
def spliceExactAt (x : Nat) (update : List (Option Nat)) (rank : List Nat) (i : Nat)
    (h h1 : List Node) : Bool :=
  match update[i]?, (rank[0]? : Option Nat), (rank[i]? : Option Nat) with
  | some (some u), some r0, some ri =>
    match getLevel h u i, getLevel h1 x i, getLevel h1 u i with
    | some lu, some lx1, some lu1 =>
      decide ((lx1.span : Int) = (lu.span : Int) - ((r0 : Int) - (ri : Int)) ∧
        (lu1.span : Int) = ((r0 : Int) - (ri : Int)) + 1)
    | _, _, _ => false
  | _, _, _ => false

/-- The check `spliceExactAt` along the loop of lines 107-117, with `n`
iterations left. -/
def insertSpliceExact (x : Nat) (update : List (Option Nat)) (rank : List Nat) :
    Nat → Nat → List Node → Bool
  | 0, _, _ => true
  | n + 1, i, h =>
    match insertSplice x update rank 1 i h with
    | none => false
    | some h1 =>
      spliceExactAt x update rank i h h1 && insertSpliceExact x update rank n (i + 1) h1

/-- Iteration `i` of the loop of lines 120-122, from `h` to `h1`: the span
stored is `update[i].level[i].span + 1` as an integer. -/
def bumpExactAt (update : List (Option Nat)) (i : Nat) (h h1 : List Node) : Bool :=
  match update[i]? with
  | some (some u) =>
    match getLevel h u i, getLevel h1 u i with
    | some lu, some lu1 => decide ((lu1.span : Int) = (lu.span : Int) + 1)
    | _, _ => false
  | _ => false

/-- The check `bumpExactAt` along the loop of lines 120-122, with `n` iterations
left. -/
def insertBumpExact (update : List (Option Nat)) : Nat → Nat → List Node → Bool
  | 0, _, _ => true
  | n + 1, i, h =>
    match insertBump update 1 i h with
    | none => false
    | some h1 => bumpExactAt update i h h1 && insertBumpExact update n (i + 1) h1

/-- Iteration `i` of the loop of lines 142-149, from `h` to `h1`: in the branch
of line 144 the span stored is `update[i].level[i].span + (x.level[i].span - 1)`
as an integer; in the branch of line 147 the span read is not 0 and the span
stored is `update[i].level[i].span - 1` as an integer. -/
def unlinkExactAt (x : Nat) (update : List (Option Nat)) (i : Nat) (h h1 : List Node) : Bool :=
  match update[i]? with
  | some (some u) =>
    match getLevel h u i, getLevel h1 u i with
    | some lu, some lu1 =>
      if lu.forward = some x then
        match getLevel h x i with
        | some lx => decide ((lu1.span : Int) = (lu.span : Int) + ((lx.span : Int) - 1))
        | none => false
      else decide (lu.span ≠ 0 ∧ (lu1.span : Int) = (lu.span : Int) - 1)
    | _, _ => false
  | _ => false

/-- The check `unlinkExactAt` along the loop of lines 142-149, with `n`
iterations left. -/
def deleteUnlinkExact (x : Nat) (update : List (Option Nat)) : Nat → Nat → List Node → Bool
  | 0, _, _ => true
  | n + 1, i, h =>
    match deleteUnlinkStep x update i h with
    | none => false
    | some h1 => unlinkExactAt x update i h h1 && deleteUnlinkExact x update n (i + 1) h1

/-- The run of `Insert` up to its two span loops, with the checks of both. -/
def InsertExact (l : SkipList) (score : Int) (obj : String) (level : Nat) : Bool :=
  match l.header with
  | none => false
  | some hd =>
    match insertSearch l.heap score obj l.level l.level hd
        (List.replicate MaxLevel none) (List.replicate MaxLevel 0) with
    | none => false
    | some (update0, rank0) =>
      match (if level > l.level then
               insertRaise l.Length l.header (level - l.level) l.level l.heap update0 rank0
             else some (l.heap, update0, rank0)) with
      | none => false
      | some (h1, update, rank) =>
        match insertSplice h1.length update rank level 0 (h1 ++ [newNode score obj level]) with
        | none => false
        | some h3 =>
          insertSpliceExact h1.length update rank level 0 (h1 ++ [newNode score obj level]) &&
            insertBumpExact update ((if level > l.level then level else l.level) - level)
              level h3

/-- The run of `Delete` up to the call of `deleteNode`, with the check of its
loop and of `l.Length -= 1` (line 162), which must not meet `Length = 0`.  A
call that does not reach `deleteNode` stores nothing. -/
def DeleteExact (l : SkipList) (score : Int) (obj : String) : Bool :=
  match l.header with
  | none => false
  | some hd =>
    match deleteSearch l.heap score obj l.level hd (List.replicate MaxLevel none) with
    | none => false
    | some (x0, update) =>
      match getLevel l.heap x0 0 with
      | none => false
      | some lv =>
        match lv.forward with
        | none => true
        | some x =>
          match l.heap[x]? with
          | none => false
          | some nx =>
            if nx.Score = score ∧ stringsCompare nx.Obj obj = 0 then
              deleteUnlinkExact x update l.level 0 l.heap && decide (l.Length ≠ 0)
            else true

/-! ## The model with `float64` scores

`Score` is a `float64` in the source.  The code only compares scores (`<` and
`==`, lines 71-72, 175-176, 186, 202-203); apart from NaN the values of
`float64` are totally ordered by `<`, with `==` the equality of that order, and
the definitions above take them from `Int`.  Every comparison with NaN is
false.  The definitions of the namespace `F64` are the same translation of the
source over scores that can be NaN; translated along `F64.ofList` the two
models take the same steps on scores that are not NaN. -/

/-- A `float64` as the comparisons of the code see it: `none` is NaN, `some z` a
value of the total order. -/
abbrev float64 : Type := Option Int

/-- The comparison `a < b` of `float64`: false when an operand is NaN. -/
def scoreLt (a b : float64) : Prop :=
  match a, b with
  | some x, some y => x < y
  | some _, none => False
  | none, some _ => False
  | none, none => False

instance scoreLtDecidable (a b : float64) : Decidable (scoreLt a b) :=
  match a, b with
  | some x, some y => inferInstanceAs (Decidable (x < y))
  | some _, none => isFalse (fun h => h)
  | none, some _ => isFalse (fun h => h)
  | none, none => isFalse (fun h => h)

/-- The comparison `a == b` of `float64`: false when an operand is NaN. -/
def scoreEq (a b : float64) : Prop :=
  match a, b with
  | some x, some y => x = y
  | some _, none => False
  | none, some _ => False
  | none, none => False

instance scoreEqDecidable (a b : float64) : Decidable (scoreEq a b) :=
  match a, b with
  | some x, some y => inferInstanceAs (Decidable (x = y))
  | some _, none => isFalse (fun h => h)
  | none, some _ => isFalse (fun h => h)
  | none, none => isFalse (fun h => h)

namespace F64

/-! ## Data model (`Level`, `Node`, `List` of the source) -/

/-- Source `type Node struct { Obj string; Score float64; backward *Node; level []Level }`. -/
structure Node where
  Obj : String
  Score : float64
  backward : Option Nat
  level : List Level
deriving DecidableEq

/-- Source `type List struct { Length uint64; header, tail *Node; level uint32 }`,
together with the arena `heap` that holds the nodes its pointers refer to. -/
structure SkipList where
  heap : List Node
  Length : Nat
  header : Option Nat
  tail : Option Nat
  level : Nat
deriving DecidableEq

/-! ## Heap and slice access -/

/-- Read of `p.level[j]` for a non-nil `p`. -/
def getLevel (h : List Node) (a j : Nat) : Option Level :=
  match h[a]? with
  | none => none
  | some n => n.level[j]?

/-- Assignment `p.level[j].forward = f`. -/
def setForward (h : List Node) (a j : Nat) (f : Option Nat) : Option (List Node) :=
  match h[a]? with
  | none => none
  | some n =>
    match n.level[j]? with
    | none => none
    | some lv => some (h.set a { n with level := n.level.set j { lv with forward := f } })

/-- Assignment `p.level[j].span = s`. -/
def setSpan (h : List Node) (a j : Nat) (s : Nat) : Option (List Node) :=
  match h[a]? with
  | none => none
  | some n =>
    match n.level[j]? with
    | none => none
    | some lv => some (h.set a { n with level := n.level.set j { lv with span := s } })

/-- Assignment `p.backward = b`. -/
def setBackward (h : List Node) (a : Nat) (b : Option Nat) : Option (List Node) :=
  match h[a]? with
  | none => none
  | some n => some (h.set a { n with backward := b })

/-! ## `Create` -/

/-- Source `Create` (lines 33-43). -/
def Create : SkipList :=
  { heap := [{ Obj := "", Score := some 0, backward := none,
               level := List.replicate MaxLevel { forward := none, span := 0 } }]
    Length := 0
    header := some 0
    tail := none
    level := 1 }

/-! ## `Insert` -/

/-- Inner loop of `Insert` (lines 70-77) at level `j`: the cursor `x` moves
forward while the next node is smaller than `(score, obj)`; `rank[j]`
accumulates the spans. -/
def insertAdvance (h : List Node) (score : float64) (obj : String) (j : Nat) :
    Nat → Nat → List Nat → Option (Nat × List Nat)
  | 0, _, _ => none
  | fuel + 1, x, rank =>
    match getLevel h x j with
    | none => none
    | some lv =>
      match lv.forward with
      | none => some (x, rank)
      | some f =>
        match h[f]? with
        | none => none
        | some nf =>
          if scoreLt nf.Score score ∨ (scoreEq nf.Score score ∧ stringsCompare nf.Obj obj < 0) then
            match rank[j]? with
            | none => none
            | some r =>
              match setArr rank j (u64add r lv.span) with
              | none => none
              | some rank1 => insertAdvance h score obj j fuel f rank1
          else some (x, rank)

/-- Outer loop of `Insert` (lines 60-80), `i` counting down from `l.level`
(`j = i - 1`); `lvl` is `l.level`. -/
def insertSearch (h : List Node) (score : float64) (obj : String) (lvl : Nat) :
    Nat → Nat → List (Option Nat) → List Nat → Option (List (Option Nat) × List Nat)
  | 0, _, update, rank => some (update, rank)
  | j + 1, x, update, rank =>
    match insertCopyRank lvl j rank with
    | none => none
    | some rank1 =>
      match insertAdvance h score obj j h.length x rank1 with
      | none => none
      | some (x1, rank2) =>
        match setArr update j (some x1) with
        | none => none
        | some update1 => insertSearch h score obj lvl j x1 update1 rank2

/-- Loop of lines 89-93, `for i := l.level; i < level; i++`, with `n` iterations left. -/
def insertRaise (len : Nat) (hd : Option Nat) :
    Nat → Nat → List Node → List (Option Nat) → List Nat →
      Option (List Node × List (Option Nat) × List Nat)
  | 0, _, h, update, rank => some (h, update, rank)
  | n + 1, i, h, update, rank =>
    match setArr rank i 0 with
    | none => none
    | some rank1 =>
      match setArr update i hd with
      | none => none
      | some update1 =>
        match hd with
        | none => none
        | some a =>
          match setSpan h a i len with
          | none => none
          | some h1 => insertRaise len hd n (i + 1) h1 update1 rank1

/-- Loop of lines 107-117, `for i := 0; i < int(level); i++`, with `n` iterations left. -/
def insertSplice (x : Nat) (update : List (Option Nat)) (rank : List Nat) :
    Nat → Nat → List Node → Option (List Node)
  | 0, _, h => some h
  | n + 1, i, h =>
    match update[i]? with
    | none => none
    | some none => none
    | some (some u) =>
      match getLevel h u i with
      | none => none
      | some lu =>
        -- x.level[i].forward = update[i].level[i].forward
        match setForward h x i lu.forward with
        | none => none
        | some h1 =>
          -- update[i].level[i].forward = x
          match setForward h1 u i (some x) with
          | none => none
          | some h2 =>
            match getLevel h2 u i, rank[0]?, rank[i]? with
            | some lu2, some r0, some ri =>
              -- x.level[i].span = update[i].level[i].span - (rank[0] - rank[i])
              match setSpan h2 x i (u64sub lu2.span (u64sub r0 ri)) with
              | none => none
              | some h3 =>
                -- update[i].level[i].span = rank[0] - rank[i] + 1
                match setSpan h3 u i (u64add (u64sub r0 ri) 1) with
                | none => none
                | some h4 => insertSplice x update rank n (i + 1) h4
            | _, _, _ => none

/-- Loop of lines 120-122, `for i := level; i < l.level; i++`, with `n` iterations left. -/
def insertBump (update : List (Option Nat)) : Nat → Nat → List Node → Option (List Node)
  | 0, _, h => some h
  | n + 1, i, h =>
    match update[i]? with
    | none => none
    | some none => none
    | some (some u) =>
      match getLevel h u i with
      | none => none
      | some lu =>
        match setSpan h u i (u64add lu.span 1) with
        | none => none
        | some h1 => insertBump update n (i + 1) h1

/-- The node allocated by `Insert` (lines 100-104):
`&Node{Obj: obj, Score: score, level: make([]Level, level)}`. -/
def newNode (score : float64) (obj : String) (level : Nat) : Node :=
  { Obj := obj, Score := score, backward := none,
    level := List.replicate level { forward := none, span := 0 } }

/-- Source `Insert` (lines 54-138); `level` is the value drawn by
`randomLevel()`.  Returns the new list and the pointer to the new node. -/
def Insert (l : SkipList) (score : float64) (obj : String) (level : Nat) :
    Option (SkipList × Nat) :=
  match l.header with
  | none => none
  | some hd =>
    match insertSearch l.heap score obj l.level l.level hd
        (List.replicate MaxLevel none) (List.replicate MaxLevel 0) with
    | none => none
    | some (update0, rank0) =>
      match (if level > l.level then
               insertRaise l.Length l.header (level - l.level) l.level l.heap update0 rank0
             else some (l.heap, update0, rank0)) with
      | none => none
      | some (h1, update, rank) =>
        let lvl := if level > l.level then level else l.level
        -- x = &Node{Obj: obj, Score: score, level: make([]Level, level)}
        let x := h1.length
        let h2 := h1 ++ [newNode score obj level]
        match insertSplice x update rank level 0 h2 with
        | none => none
        | some h3 =>
          match insertBump update (lvl - level) level h3 with
          | none => none
          | some h4 =>
            match update[0]? with
            | none => none
            | some u0 =>
              match (if u0 ≠ l.header then setBackward h4 x u0 else some h4) with
              | none => none
              | some h5 =>
                match getLevel h5 x 0 with
                | none => none
                | some lx =>
                  match lx.forward with
                  | some f =>
                    match setBackward h5 f (some x) with
                    | none => none
                    | some h6 =>
                      some ({ heap := h6, Length := u64add l.Length 1, header := l.header,
                              tail := l.tail, level := lvl }, x)
                  | none =>
                    some ({ heap := h5, Length := u64add l.Length 1, header := l.header,
                            tail := some x, level := lvl }, x)

/-! ## `deleteNode` and `Delete` -/

/-- Body of the loop of lines 142-149 at level `i`. -/
def deleteUnlinkStep (x : Nat) (update : List (Option Nat)) (i : Nat) (h : List Node) :
    Option (List Node) :=
  match update[i]? with
  | none => none
  | some none => none
  | some (some u) =>
    match getLevel h u i with
    | none => none
    | some lu =>
      if lu.forward = some x then
        -- update[i].level[i].forward = x.level[i].forward
        match getLevel h x i with
        | none => none
        | some lx =>
          match setForward h u i lx.forward with
          | none => none
          | some h1 =>
            -- update[i].level[i].span += x.level[i].span - 1
            match getLevel h1 u i, getLevel h1 x i with
            | some lu1, some lx1 => setSpan h1 u i (u64add lu1.span (u64sub lx1.span 1))
            | _, _ => none
      else
        -- update[i].level[i].span -= 1
        setSpan h u i (u64sub lu.span 1)

/-- Loop of lines 142-149, `for i := 0; i < int(l.level); i++`, with `n` iterations left. -/
def deleteUnlink (x : Nat) (update : List (Option Nat)) :
    Nat → Nat → List Node → Option (List Node)
  | 0, _, h => some h
  | n + 1, i, h =>
    match deleteUnlinkStep x update i h with
    | none => none
    | some h1 => deleteUnlink x update n (i + 1) h1

/-- Loop of lines 159-161: `for l.level > 1 && l.header.level[l.level-1].forward == nil`. -/
def deleteShrink (h : List Node) (hd : Option Nat) : Nat → Option Nat
  | 0 => some 0
  | k + 1 =>
    if k + 1 > 1 then
      match hd with
      | none => none
      | some a =>
        match getLevel h a k with
        | none => none
        | some lv => if lv.forward = none then deleteShrink h hd k else some (k + 1)
    else some (k + 1)

/-- Lines 152-156 of `deleteNode`: the backward pointer of the successor of `x`,
or the tail, takes `x.backward`.  Returns the heap and the tail. -/
def deleteRelink (h : List Node) (tail : Option Nat) (x : Nat) :
    Option (List Node × Option Nat) :=
  match h[x]? with
  | none => none
  | some nx =>
    match nx.level[0]? with
    | none => none
    | some lx =>
      match lx.forward with
      | some f =>
        match setBackward h f nx.backward with
        | none => none
        | some h1 => some (h1, tail)
      | none => some (h, nx.backward)

/-- Source `deleteNode` (lines 140-165). -/
def deleteNode (l : SkipList) (x : Nat) (update : List (Option Nat)) : Option SkipList :=
  match deleteUnlink x update l.level 0 l.heap with
  | none => none
  | some h1 =>
    match deleteRelink h1 l.tail x with
    | none => none
    | some (h2, tl) =>
      match deleteShrink h2 l.header l.level with
      | none => none
      | some lvl =>
        some { heap := h2, Length := u64sub l.Length 1, header := l.header,
               tail := tl, level := lvl }

/-- Inner loop of `Delete` (lines 174-179) at level `j`. -/
def deleteAdvance (h : List Node) (score : float64) (obj : String) (j : Nat) :
    Nat → Nat → Option Nat
  | 0, _ => none
  | fuel + 1, x =>
    match getLevel h x j with
    | none => none
    | some lv =>
      match lv.forward with
      | none => some x
      | some f =>
        match h[f]? with
        | none => none
        | some nf =>
          if scoreLt nf.Score score ∨ (scoreEq nf.Score score ∧ stringsCompare nf.Obj obj < 0) then
            deleteAdvance h score obj j fuel f
          else some x

/-- Outer loop of `Delete` (lines 172-182), `i` counting down from `l.level`. -/
def deleteSearch (h : List Node) (score : float64) (obj : String) :
    Nat → Nat → List (Option Nat) → Option (Nat × List (Option Nat))
  | 0, x, update => some (x, update)
  | j + 1, x, update =>
    match deleteAdvance h score obj j h.length x with
    | none => none
    | some x1 =>
      match setArr update j (some x1) with
      | none => none
      | some update1 => deleteSearch h score obj j x1 update1

/-- Source `Delete` (lines 167-192): the list after the call and the error returned. -/
def Delete (l : SkipList) (score : float64) (obj : String) : Option (SkipList × DeleteResult) :=
  match l.header with
  | none => none
  | some hd =>
    match deleteSearch l.heap score obj l.level hd (List.replicate MaxLevel none) with
    | none => none
    | some (x0, update) =>
      -- x = x.level[0].forward
      match getLevel l.heap x0 0 with
      | none => none
      | some lv =>
        match lv.forward with
        | none => some (l, DeleteResult.ErrNodeNotFound)
        | some x =>
          match l.heap[x]? with
          | none => none
          | some nx =>
            if scoreEq nx.Score score ∧ stringsCompare nx.Obj obj = 0 then
              match deleteNode l x update with
              | none => none
              | some l1 => some (l1, DeleteResult.ok)
            else some (l, DeleteResult.ErrNodeNotFound)

/-! ## `GetRank` -/

/-- Inner loop of `GetRank` (lines 201-208) at level `j`. -/
def getRankAdvance (h : List Node) (score : float64) (obj : String) (j : Nat) :
    Nat → Nat → Nat → Option (Nat × Nat)
  | 0, _, _ => none
  | fuel + 1, x, rank =>
    match getLevel h x j with
    | none => none
    | some lv =>
      match lv.forward with
      | none => some (x, rank)
      | some f =>
        match h[f]? with
        | none => none
        | some nf =>
          if scoreLt nf.Score score ∨ (scoreEq nf.Score score ∧ stringsCompare nf.Obj obj ≤ 0) then
            getRankAdvance h score obj j fuel f (u64add rank lv.span)
          else some (x, rank)

/-- Outer loop of `GetRank` (lines 199-213), `i` counting down from `l.level`. -/
def getRankLoop (h : List Node) (score : float64) (obj : String) :
    Nat → Option Nat → Nat → Option Nat
  | 0, _, _ => some 0
  | j + 1, x, rank =>
    match x with
    | none => none
    | some a =>
      match getRankAdvance h score obj j h.length a rank with
      | none => none
      | some (x1, rank1) =>
        -- if x != nil && strings.Compare(x.Obj, obj) == 0
        match h[x1]? with
        | none => none
        | some n =>
          if stringsCompare n.Obj obj = 0 then some rank1
          else getRankLoop h score obj j (some x1) rank1

/-- Source `GetRank` (lines 194-217). -/
def GetRank (l : SkipList) (score : float64) (obj : String) : Option Nat :=
  getRankLoop l.heap score obj l.level l.header 0

/-! ## `GetElementByRank` -/

/-- Inner loop of `GetElementByRank` (lines 227-231) at level `j`. -/
def getElementAdvance (h : List Node) (j : Nat) : Nat → Nat → Nat → Option (Nat × Nat)
  | 0, _, _ => none
  | fuel + 1, x, rank =>
    match getLevel h x j with
    | none => none
    | some lv =>
      match lv.forward with
      | none => some (x, rank)
      | some f =>
        if rank ≥ lv.span then getElementAdvance h j fuel f (u64sub rank lv.span)
        else some (x, rank)

/-- Outer loop of `GetElementByRank` (lines 225-235), `i` counting down from `l.level`. -/
def getElementLoop (h : List Node) : Nat → Option Nat → Nat → Option (Option Nat)
  | 0, _, _ => some none
  | j + 1, x, rank =>
    match x with
    | none => none
    | some a =>
      match getElementAdvance h j h.length a rank with
      | none => none
      | some (x1, rank1) =>
        if rank1 = 0 then some (some x1) else getElementLoop h j (some x1) rank1

/-- Source `GetElementByRank` (lines 219-238): `some none` is the `nil` result. -/
def GetElementByRank (l : SkipList) (rank : Nat) : Option (Option Nat) :=
  if rank > l.Length ∧ rank = 0 then some none
  else getElementLoop l.heap l.level l.header rank

/-! ## Observations on the heap -/

/-- The `(Score, Obj)` pairs met along the level-0 forward chain that starts at `p`. -/
def chainPairs (h : List Node) : Nat → Option Nat → Option (List (float64 × String))
  | _, none => some []
  | 0, some _ => none
  | fuel + 1, some a =>
    match h[a]? with
    | none => none
    | some n =>
      match n.level[0]? with
      | none => none
      | some lv =>
        match chainPairs h fuel lv.forward with
        | none => none
        | some r => some ((n.Score, n.Obj) :: r)

/-- The level-0 sequence of `(Score, Obj)` pairs of a list: the real nodes
reached from the header by `level[0].forward`, in order. -/
def level0Pairs (l : SkipList) : Option (List (float64 × String)) :=
  match l.header with
  | none => none
  | some hd =>
    match getLevel l.heap hd 0 with
    | none => none
    | some lv => chainPairs l.heap l.heap.length lv.forward

/-- Successive `Insert`s of the pairs `ps`, the i-th with tower height `hs[i]`. -/
def insertAll : SkipList → List (float64 × String) → List Nat → Option SkipList
  | l, [], _ => some l
  | _, _ :: _, [] => none
  | l, p :: ps, h :: hs =>
    match Insert l p.1 p.2 h with
    | none => none
    | some (l1, _) => insertAll l1 ps hs

/-- Lists reachable from `Create` by `Insert` (tower heights in `[1, MaxLevel]`,
room for one more node below `2^64`) and `Delete` when no score passed to them is
NaN. -/
inductive Reachable : SkipList → Prop
  | create : Reachable Create
  | insert {l l1 : SkipList} {x : Nat} (score : Int) (obj : String) (level : Nat) :
      Reachable l → 1 ≤ level → level ≤ MaxLevel → l.Length + 1 < U64 →
      Insert l (some score) obj level = some (l1, x) → Reachable l1
  | delete {l l1 : SkipList} {e : DeleteResult} (score : Int) (obj : String) :
      Reachable l → Delete l (some score) obj = some (l1, e) → Reachable l1

/-- Lists reachable from `Create` by `Insert` and `Delete` when no score passed to
them is NaN and no pair is inserted while an equal pair is stored. -/
inductive ReachableUnique : SkipList → Prop
  | create : ReachableUnique Create
  | insert {l l1 : SkipList} {x : Nat} {pairs : List (float64 × String)}
      (score : Int) (obj : String) (level : Nat) :
      ReachableUnique l → 1 ≤ level → level ≤ MaxLevel → l.Length + 1 < U64 →
      level0Pairs l = some pairs → ((some score : float64), obj) ∉ pairs →
      Insert l (some score) obj level = some (l1, x) → ReachableUnique l1
  | delete {l l1 : SkipList} {e : DeleteResult} (score : Int) (obj : String) :
      ReachableUnique l → Delete l (some score) obj = some (l1, e) → ReachableUnique l1

/-- The addresses of the nodes met along the level-`j` forward chain that
starts at `p`. -/
def chainAddrs (h : List Node) (j : Nat) : Nat → Option Nat → Option (List Nat)
  | _, none => some []
  | 0, some _ => none
  | fuel + 1, some a =>
    match getLevel h a j with
    | none => none
    | some lv =>
      match chainAddrs h j fuel lv.forward with
      | none => none
      | some r => some (a :: r)

/-- The nodes of the level-`j` forward chain of a list, the header left out; at
level 0 these are the real nodes, in order. -/
def levelAddrs (l : SkipList) (j : Nat) : Option (List Nat) :=
  match l.header with
  | none => none
  | some hd =>
    match getLevel l.heap hd j with
    | none => none
    | some lv => chainAddrs l.heap j l.heap.length lv.forward

/-- A pair whose score is not NaN, as a pair with a `float64` score. -/
def ofPair (q : Int × String) : float64 × String := (some q.1, q.2)

/-- Three pairs, the second with a NaN score. -/
def nanPairs : List (float64 × String) := [(some 1, "a"), (none, "n"), (some 2, "b")]

/-- The list after `Create` and the `Insert` of `nanPairs`, each with a tower of
height 1. -/
def nanList : SkipList :=
  match insertAll Create nanPairs [1, 1, 1] with
  | some l => l
  | none => Create

/-- Strict order of the list on pairs with a `float64` score: score ascending,
then member ascending. -/
def pairLt (p q : float64 × String) : Prop :=
  scoreLt p.1 q.1 ∨ (scoreEq p.1 q.1 ∧ p.2.toList < q.2.toList)

instance pairLtDecidable (p q : float64 × String) : Decidable (pairLt p q) :=
  inferInstanceAs (Decidable (scoreLt p.1 q.1 ∨ (scoreEq p.1 q.1 ∧ p.2.toList < q.2.toList)))

/-- The node of the model with `Int` scores, seen with a `float64` score. -/
def ofNode (n : skiplist.Node) : Node :=
  { Obj := n.Obj, Score := some n.Score, backward := n.backward, level := n.level }

/-- The list of the model with `Int` scores, seen with `float64` scores. -/
def ofList (l : skiplist.SkipList) : SkipList :=
  { heap := l.heap.map ofNode, Length := l.Length, header := l.header, tail := l.tail,
    level := l.level }

end F64

/-! ## Machine arithmetic -/

theorem u64add_eq {a b : Nat} (h : a + b < U64) : u64add a b = a + b := by
  unfold u64add; exact Nat.mod_eq_of_lt h

theorem u64sub_eq {a b : Nat} (ha : a < U64) (hb : b ≤ a) : u64sub a b = a - b := by
  unfold u64sub
  have hb1 : b % U64 = b := Nat.mod_eq_of_lt (by omega)
  have ha1 : a % U64 = a := Nat.mod_eq_of_lt ha
  rw [hb1, ha1]
  have : a + (U64 - b) = (a - b) + U64 := by omega
  rw [this, Nat.add_mod_right]
  exact Nat.mod_eq_of_lt (by omega)

/-- The wrap of `s - 1` at `s = 0` is undone by the addition that follows it. -/
theorem u64add_u64sub_one {a s : Nat} (h : 1 ≤ a + s)
    (hlt : a + s - 1 < U64) : u64add a (u64sub s 1) = a + s - 1 := by
  unfold u64add u64sub U64 at *
  omega

/-! ## `strings.Compare` -/

theorem stringsCompare_lt_zero {a b : String} : stringsCompare a b < 0 ↔ a < b := by
  unfold stringsCompare
  rw [String.lt_iff_toList_lt]
  by_cases h : a = b
  · subst h; simp
  · rw [if_neg h]
    by_cases h2 : a.toList < b.toList
    · rw [if_pos h2]; exact ⟨fun _ => h2, fun _ => by decide⟩
    · rw [if_neg h2]; exact ⟨fun h3 => absurd h3 (by decide), fun h3 => absurd h3 h2⟩

theorem stringsCompare_eq_zero {a b : String} : stringsCompare a b = 0 ↔ a = b := by
  unfold stringsCompare
  by_cases h : a = b
  · simp [h]
  · rw [if_neg h]
    by_cases h2 : a.toList < b.toList
    · rw [if_pos h2]; simp [h]
    · rw [if_neg h2]; simp [h]

theorem stringsCompare_le_zero {a b : String} : stringsCompare a b ≤ 0 ↔ a ≤ b := by
  rw [le_iff_lt_or_eq, le_iff_lt_or_eq, stringsCompare_lt_zero, stringsCompare_eq_zero]

/-! ## The order on pairs -/

theorem pairLt_iff {p q : Int × String} : pairLt p q ↔ toLex p < toLex q := by
  unfold pairLt
  rw [Prod.Lex.lt_iff, ← String.lt_iff_toList_lt]

theorem pairLe_iff {p q : Int × String} : pairLe p q ↔ toLex p ≤ toLex q := by
  unfold pairLe
  rw [pairLt_iff, not_lt]

/-! ## Reads after writes -/

theorem getLevel_isSome_of_info {h : List Node} {a j : Nat} {o : String} {s : Int} {t : Nat}
    (hi : nodeInfo h a = some (o, s, t)) (hj : j < t) : ∃ lv, getLevel h a j = some lv := by
  unfold nodeInfo at hi
  unfold getLevel
  cases hn : h[a]? with
  | none => simp [hn] at hi
  | some n =>
    simp only [hn, Option.some.injEq, Prod.mk.injEq] at hi
    obtain ⟨_, _, ht⟩ := hi
    have : j < n.level.length := by omega
    exact ⟨n.level[j], by simp [List.getElem?_eq_getElem this]⟩

theorem info_of_getLevel {h : List Node} {a j : Nat} {lv : Level}
    (hg : getLevel h a j = some lv) : ∃ o s t, nodeInfo h a = some (o, s, t) ∧ j < t := by
  unfold getLevel at hg
  unfold nodeInfo
  cases hn : h[a]? with
  | none => simp [hn] at hg
  | some n =>
    simp only [hn] at hg
    refine ⟨n.Obj, n.Score, n.level.length, rfl, ?_⟩
    exact (List.getElem?_eq_some_iff.mp hg).1

theorem setForward_some {h : List Node} {a j : Nat} {lv : Level} (f : Option Nat)
    (hg : getLevel h a j = some lv) : ∃ h1, setForward h a j f = some h1 := by
  unfold getLevel at hg
  unfold setForward
  cases hn : h[a]? with
  | none => simp [hn] at hg
  | some n =>
    simp only [hn] at hg
    simp [hg]

theorem setSpan_some {h : List Node} {a j : Nat} {lv : Level} (s : Nat)
    (hg : getLevel h a j = some lv) : ∃ h1, setSpan h a j s = some h1 := by
  unfold getLevel at hg
  unfold setSpan
  cases hn : h[a]? with
  | none => simp [hn] at hg
  | some n =>
    simp only [hn] at hg
    simp [hg]

theorem setBackward_some {h : List Node} {a : Nat} (b : Option Nat)
    (ha : a < h.length) : ∃ h1, setBackward h a b = some h1 := by
  unfold setBackward
  simp [List.getElem?_eq_getElem ha]

theorem setForward_spec {h h1 : List Node} {a j : Nat} {f : Option Nat}
    (hs : setForward h a j f = some h1) :
    h1.length = h.length ∧ (∀ b, nodeInfo h1 b = nodeInfo h b) ∧
    (∀ b, backwardAt h1 b = backwardAt h b) ∧
    (∀ b k, getLevel h1 b k =
      if b = a ∧ k = j then (getLevel h a j).map (fun lv => { lv with forward := f })
      else getLevel h b k) := by
  unfold setForward at hs
  cases hn : h[a]? with
  | none => simp [hn] at hs
  | some n =>
    simp only [hn] at hs
    cases hl : n.level[j]? with
    | none => simp [hl] at hs
    | some lv =>
      simp only [hl, Option.some.injEq] at hs
      subst hs
      have ha : a < h.length := (List.getElem?_eq_some_iff.mp hn).1
      have hj : j < n.level.length := (List.getElem?_eq_some_iff.mp hl).1
      refine ⟨by simp, ?_, ?_, ?_⟩
      · intro b
        unfold nodeInfo
        by_cases hb : b = a
        · subst hb; simp [List.getElem?_set_self ha, hn]
        · simp [List.getElem?_set_ne (Ne.symm hb)]
      · intro b
        unfold backwardAt
        by_cases hb : b = a
        · subst hb; simp [List.getElem?_set_self ha, hn]
        · simp [List.getElem?_set_ne (Ne.symm hb)]
      · intro b k
        unfold getLevel
        by_cases hb : b = a
        · subst hb
          simp only [List.getElem?_set_self ha, hn, true_and]
          by_cases hk : k = j
          · subst hk; simp [List.getElem?_set_self hj, hl]
          · simp [List.getElem?_set_ne (Ne.symm hk), hk]
        · simp [List.getElem?_set_ne (Ne.symm hb), hb]

theorem setSpan_spec {h h1 : List Node} {a j : Nat} {s : Nat}
    (hs : setSpan h a j s = some h1) :
    h1.length = h.length ∧ (∀ b, nodeInfo h1 b = nodeInfo h b) ∧
    (∀ b, backwardAt h1 b = backwardAt h b) ∧
    (∀ b k, getLevel h1 b k =
      if b = a ∧ k = j then (getLevel h a j).map (fun lv => { lv with span := s })
      else getLevel h b k) := by
  unfold setSpan at hs
  cases hn : h[a]? with
  | none => simp [hn] at hs
  | some n =>
    simp only [hn] at hs
    cases hl : n.level[j]? with
    | none => simp [hl] at hs
    | some lv =>
      simp only [hl, Option.some.injEq] at hs
      subst hs
      have ha : a < h.length := (List.getElem?_eq_some_iff.mp hn).1
      have hj : j < n.level.length := (List.getElem?_eq_some_iff.mp hl).1
      refine ⟨by simp, ?_, ?_, ?_⟩
      · intro b
        unfold nodeInfo
        by_cases hb : b = a
        · subst hb; simp [List.getElem?_set_self ha, hn]
        · simp [List.getElem?_set_ne (Ne.symm hb)]
      · intro b
        unfold backwardAt
        by_cases hb : b = a
        · subst hb; simp [List.getElem?_set_self ha, hn]
        · simp [List.getElem?_set_ne (Ne.symm hb)]
      · intro b k
        unfold getLevel
        by_cases hb : b = a
        · subst hb
          simp only [List.getElem?_set_self ha, hn, true_and]
          by_cases hk : k = j
          · subst hk; simp [List.getElem?_set_self hj, hl]
          · simp [List.getElem?_set_ne (Ne.symm hk), hk]
        · simp [List.getElem?_set_ne (Ne.symm hb), hb]

theorem setBackward_spec {h h1 : List Node} {a : Nat} {v : Option Nat}
    (hs : setBackward h a v = some h1) :
    h1.length = h.length ∧ (∀ b, nodeInfo h1 b = nodeInfo h b) ∧
    (∀ b, backwardAt h1 b = if b = a then some v else backwardAt h b) ∧
    (∀ b k, getLevel h1 b k = getLevel h b k) := by
  unfold setBackward at hs
  cases hn : h[a]? with
  | none => simp [hn] at hs
  | some n =>
    simp only [hn, Option.some.injEq] at hs
    subst hs
    have ha : a < h.length := (List.getElem?_eq_some_iff.mp hn).1
    refine ⟨by simp, ?_, ?_, ?_⟩
    · intro b
      unfold nodeInfo
      by_cases hb : b = a
      · subst hb; simp [List.getElem?_set_self ha, hn]
      · simp [List.getElem?_set_ne (Ne.symm hb)]
    · intro b
      unfold backwardAt
      by_cases hb : b = a
      · subst hb; simp [List.getElem?_set_self ha]
      · simp [List.getElem?_set_ne (Ne.symm hb), hb]
    · intro b k
      unfold getLevel
      by_cases hb : b = a
      · subst hb; simp [List.getElem?_set_self ha, hn]
      · simp [List.getElem?_set_ne (Ne.symm hb)]

/-- Allocation of a fresh node at the end of the arena. -/
theorem alloc_spec (h : List Node) (n : Node) :
    (∀ b, b < h.length → nodeInfo (h ++ [n]) b = nodeInfo h b) ∧
    (∀ b, b < h.length → backwardAt (h ++ [n]) b = backwardAt h b) ∧
    (∀ b k, b < h.length → getLevel (h ++ [n]) b k = getLevel h b k) ∧
    nodeInfo (h ++ [n]) h.length = some (n.Obj, n.Score, n.level.length) ∧
    backwardAt (h ++ [n]) h.length = some n.backward ∧
    (∀ k, getLevel (h ++ [n]) h.length k = n.level[k]?) := by
  refine ⟨?_, ?_, ?_, ?_, ?_, ?_⟩
  · intro b hb; unfold nodeInfo; rw [List.getElem?_append_left hb]
  · intro b hb; unfold backwardAt; rw [List.getElem?_append_left hb]
  · intro b k hb; unfold getLevel; rw [List.getElem?_append_left hb]
  · unfold nodeInfo; simp
  · unfold backwardAt; simp
  · intro k; unfold getLevel; simp

theorem nodeInfo_lt {h : List Node} {a : Nat} {v : String × Int × Nat}
    (hi : nodeInfo h a = some v) : a < h.length := by
  unfold nodeInfo at hi
  cases hn : h[a]? with
  | none => simp [hn] at hi
  | some n => exact (List.getElem?_eq_some_iff.mp hn).1

theorem nodeInfo_read {h : List Node} {a : Nat} {o : String} {s : Int} {t : Nat}
    (hi : nodeInfo h a = some (o, s, t)) :
    ∃ n, h[a]? = some n ∧ n.Obj = o ∧ n.Score = s ∧ n.level.length = t := by
  unfold nodeInfo at hi
  cases hn : h[a]? with
  | none => simp [hn] at hi
  | some n =>
    simp only [hn, Option.some.injEq, Prod.mk.injEq] at hi
    exact ⟨n, rfl, hi.1, hi.2.1, hi.2.2⟩

/-! ## Slices -/

theorem setArr_some {α : Type} {xs : List α} {i : Nat} (v : α) (hi : i < xs.length) :
    setArr xs i v = some (xs.set i v) := by
  unfold setArr; simp [hi]

theorem setArr_spec {α : Type} {xs ys : List α} {i : Nat} {v : α}
    (hs : setArr xs i v = some ys) :
    i < xs.length ∧ ys = xs.set i v := by
  unfold setArr at hs
  by_cases hi : i < xs.length
  · simp [hi] at hs; exact ⟨hi, hs.symm⟩
  · simp [hi] at hs

/-! ## `firstAbove` and `expLink` -/

theorem firstAbove_eq_none {j : Nat} {cs : List Cell} :
    firstAbove j cs = none ↔ ∀ c ∈ cs, c.height ≤ j := by
  induction cs with
  | nil => simp [firstAbove]
  | cons c cs ih =>
    unfold firstAbove
    by_cases hc : j < c.height
    · simp only [hc, if_true]
      constructor
      · intro h; cases h
      · intro h; have := h c (List.mem_cons_self _ _); omega
    · simp only [hc, if_false]
      cases hf : firstAbove j cs with
      | none =>
        simp only [true_iff]
        intro c1 hc1
        rcases List.mem_cons.mp hc1 with rfl | h1
        · omega
        · exact (ih.mp hf) c1 h1
      | some p =>
        constructor
        · intro h; cases h
        · intro h
          have : firstAbove j cs = none :=
            ih.mpr (fun c1 hc1 => h c1 (List.mem_cons_of_mem _ hc1))
          rw [hf] at this; cases this

theorem firstAbove_eq_some {j : Nat} {cs : List Cell} {a d : Nat}
    (h : firstAbove j cs = some (a, d)) :
    ∃ m1 c m2, cs = m1 ++ c :: m2 ∧ c.addr = a ∧ d = m1.length + 1 ∧ j < c.height ∧
      ∀ c1 ∈ m1, c1.height ≤ j := by
  induction cs generalizing a d with
  | nil => simp [firstAbove] at h
  | cons c cs ih =>
    unfold firstAbove at h
    by_cases hc : j < c.height
    · simp only [hc, if_true, Option.some.injEq, Prod.mk.injEq] at h
      exact ⟨[], c, cs, rfl, h.1, by simp [h.2], hc, by simp⟩
    · simp only [hc, if_false] at h
      cases hf : firstAbove j cs with
      | none => simp [hf] at h
      | some p =>
        obtain ⟨a1, d1⟩ := p
        simp only [hf, Option.some.injEq, Prod.mk.injEq] at h
        obtain ⟨m1, c1, m2, hcs, ha, hd, hh, hm⟩ := ih hf
        refine ⟨c :: m1, c1, m2, by simp [hcs], by rw [ha]; exact h.1, ?_, hh, ?_⟩
        · simp; omega
        · intro c2 hc2
          rcases List.mem_cons.mp hc2 with rfl | h2
          · omega
          · exact hm c2 h2

theorem firstAbove_append_low {j : Nat} {m : List Cell} (rest : List Cell)
    (hm : ∀ c ∈ m, c.height ≤ j) :
    firstAbove j (m ++ rest) =
      match firstAbove j rest with
      | none => none
      | some (a, d) => some (a, d + m.length) := by
  induction m with
  | nil =>
    rw [List.nil_append]
    cases firstAbove j rest with
    | none => rfl
    | some p => rfl
  | cons c m ih =>
    have hc : ¬ j < c.height := by have := hm c (List.mem_cons_self _ _); omega
    have ih1 := ih (fun c1 hc1 => hm c1 (List.mem_cons_of_mem _ hc1))
    rw [List.cons_append, firstAbove, if_neg hc, ih1]
    cases firstAbove j rest with
    | none => rfl
    | some p => simp [Nat.add_assoc]

theorem firstAbove_append_hit {j : Nat} {m : List Cell} {c : Cell} (rest : List Cell)
    (hm : ∀ c1 ∈ m, c1.height ≤ j) (hc : j < c.height) :
    firstAbove j (m ++ c :: rest) = some (c.addr, m.length + 1) := by
  rw [firstAbove_append_low _ hm]
  simp [firstAbove, hc, Nat.add_comm]

theorem expLink_append_low {j : Nat} {m : List Cell} (rest : List Cell)
    (hm : ∀ c ∈ m, c.height ≤ j) :
    expLink j (m ++ rest) =
      { forward := (expLink j rest).forward, span := (expLink j rest).span + m.length } := by
  unfold expLink
  rw [firstAbove_append_low rest hm]
  cases firstAbove j rest with
  | none => simp [Nat.add_comm]
  | some p => rfl

theorem expLink_append_hit {j : Nat} {m : List Cell} {c : Cell} (rest : List Cell)
    (hm : ∀ c1 ∈ m, c1.height ≤ j) (hc : j < c.height) :
    expLink j (m ++ c :: rest) = { forward := some c.addr, span := m.length + 1 } := by
  unfold expLink
  rw [firstAbove_append_hit rest hm hc]

theorem expLink_cons_low {j : Nat} {c : Cell} (rest : List Cell) (hc : c.height ≤ j) :
    expLink j (c :: rest) =
      { forward := (expLink j rest).forward, span := (expLink j rest).span + 1 } := by
  have := expLink_append_low (j := j) (m := [c]) rest (by simpa using hc)
  simpa using this

theorem expLink_cons_hit {j : Nat} {c : Cell} (rest : List Cell) (hc : j < c.height) :
    expLink j (c :: rest) = { forward := some c.addr, span := 1 } := by
  have := expLink_append_hit (j := j) (m := []) (c := c) rest (by simp) hc
  simpa using this

/-- The forward of an expected link is a cell of the list, and its span counts
the cells up to it; with no forward the span counts all of them. -/
theorem expLink_cases (j : Nat) (cs : List Cell) :
    (expLink j cs = { forward := none, span := cs.length } ∧ ∀ c ∈ cs, c.height ≤ j) ∨
    ∃ m1 c m2, cs = m1 ++ c :: m2 ∧ j < c.height ∧ (∀ c1 ∈ m1, c1.height ≤ j) ∧
      expLink j cs = { forward := some c.addr, span := m1.length + 1 } := by
  cases hf : firstAbove j cs with
  | none =>
    left
    exact ⟨by unfold expLink; rw [hf], firstAbove_eq_none.mp hf⟩
  | some p =>
    right
    obtain ⟨a, d⟩ := p
    obtain ⟨m1, c, m2, hcs, ha, hd, hh, hm⟩ := firstAbove_eq_some hf
    exact ⟨m1, c, m2, hcs, hh, hm, by unfold expLink; rw [hf, ha, hd]⟩

theorem expLink_span_le (j : Nat) (cs : List Cell) : (expLink j cs).span ≤ cs.length := by
  rcases expLink_cases j cs with ⟨h, _⟩ | ⟨m1, c, m2, hcs, _, _, h⟩
  · rw [h]
  · rw [h, hcs]; simp

theorem expLink_span_pos {j : Nat} {cs : List Cell} {a : Nat}
    (h : (expLink j cs).forward = some a) : 1 ≤ (expLink j cs).span := by
  rcases expLink_cases j cs with ⟨h1, _⟩ | ⟨m1, c, m2, hcs, _, _, h1⟩
  · rw [h1] at h; cases h
  · rw [h1]; simp

/-! ## Consequences of the representation invariant -/

theorem stringsCompare_lt_zero_toList {a b : String} :
    stringsCompare a b < 0 ↔ a.toList < b.toList := by
  rw [stringsCompare_lt_zero, String.lt_iff_toList_lt]

theorem mem_of_full_split {cells A1 rest : List Cell} {c : Cell}
    (h : hdrCell :: cells = A1 ++ c :: rest) : ∀ c1 ∈ rest, c1 ∈ cells := by
  intro c1 hc1
  cases A1 with
  | nil =>
    simp only [List.nil_append, List.cons.injEq] at h
    rw [h.2]; exact hc1
  | cons a A1 =>
    simp only [List.cons_append, List.cons.injEq] at h
    rw [h.2]; simp [hc1]

theorem full_split_length {cells A1 rest : List Cell} {c : Cell}
    (h : hdrCell :: cells = A1 ++ c :: rest) : cells.length = A1.length + rest.length := by
  have := congrArg List.length h
  simp at this
  omega

theorem Shape.full_link {h : List Node} {L : Nat} {cells : List Cell} (hS : Shape h L cells)
    {A1 rest : List Cell} {c : Cell} (hs : hdrCell :: cells = A1 ++ c :: rest)
    {j : Nat} (hj : j < L) (hc : j < c.height) :
    getLevel h c.addr j = some (expLink j rest) := by
  cases A1 with
  | nil =>
    simp only [List.nil_append, List.cons.injEq] at hs
    rw [← hs.1, ← hs.2]
    exact hS.hdr_link j hj
  | cons a A1 =>
    simp only [List.cons_append, List.cons.injEq] at hs
    exact hS.link A1 c rest hs.2 j hc

theorem Rep.fullLink {l : SkipList} {cells : List Cell} (hR : Rep l cells)
    {A1 rest : List Cell} {c : Cell} (h : hdrCell :: cells = A1 ++ c :: rest)
    {j : Nat} (hj : j < l.level) (hc : j < c.height) :
    getLevel l.heap c.addr j = some (expLink j rest) :=
  hR.shape.full_link h hj hc

theorem Shape.read {h : List Node} {L : Nat} {cells : List Cell} (hS : Shape h L cells)
    {c : Cell} (hc : c ∈ cells) : ∃ n, h[c.addr]? = some n ∧ n.Obj = c.obj ∧
      n.Score = c.score ∧ n.level.length = c.height :=
  nodeInfo_read (hS.info c hc)

theorem Rep.readCell {l : SkipList} {cells : List Cell} (hR : Rep l cells) {c : Cell}
    (hc : c ∈ cells) : ∃ n, l.heap[c.addr]? = some n ∧ n.Obj = c.obj ∧ n.Score = c.score ∧
      n.level.length = c.height :=
  hR.shape.read hc

theorem set_self_of_getElem? {α : Type} :
    ∀ {xs : List α} {i : Nat} {v : α}, xs[i]? = some v → xs.set i v = xs
  | [], _, _, h => by simp at h
  | x :: xs, 0, v, h => by simp at h; simp [h]
  | x :: xs, i + 1, v, h => by
    simp at h
    simp [set_self_of_getElem? h]

/-! ## The search loop of `Insert` -/

theorem insertAdvance_spec {l : SkipList} {cells : List Cell} (hR : Rep l cells)
    {score : Int} {obj : String} {j : Nat} (hj : j < l.level) :
    ∀ (fuel : Nat) (A1 : List Cell) (c : Cell) (mid post : List Cell) (rank : List Nat),
      hdrCell :: cells = A1 ++ c :: (mid ++ post) → j < c.height →
      (∀ c1 ∈ mid, pairLt c1.key (score, obj)) →
      (∀ c1 ∈ post, ¬ pairLt c1.key (score, obj)) →
      mid.length < fuel → rank[j]? = some A1.length →
      ∃ A2 u mid2, A1 ++ c :: mid = A2 ++ u :: mid2 ∧ j < u.height ∧
        (∀ c1 ∈ mid2, c1.height ≤ j) ∧
        insertAdvance l.heap score obj j fuel c.addr rank =
          some (u.addr, rank.set j A2.length) := by
  intro fuel
  induction fuel with
  | zero => intro A1 c mid post rank _ _ _ _ hf; omega
  | succ fuel ih =>
    intro A1 c mid post rank hsplit hc hmid hpost hfuel hrank
    have hlink := hR.fullLink hsplit hj hc
    unfold insertAdvance
    rw [hlink]
    simp only
    rcases expLink_cases j mid with ⟨_, hlow⟩ | ⟨m1, c1, m2, hm, hc1, hm1, _⟩
    · -- no cell of `mid` reaches level `j`: the walk stops at `c`
      refine ⟨A1, c, mid, rfl, hc, hlow, ?_⟩
      rw [set_self_of_getElem? hrank, expLink_append_low post hlow]
      simp only
      rcases expLink_cases j post with ⟨hp, _⟩ | ⟨p1, c2, p2, hp, _, _, hl2⟩
      · rw [hp]
      · rw [hl2]
        simp only
        have hc2 : c2 ∈ post := by rw [hp]; simp
        have hc2c : c2 ∈ cells := mem_of_full_split hsplit c2 (by simp [hc2])
        obtain ⟨n, hn, hobj, hsc, _⟩ := hR.readCell hc2c
        rw [hn]
        simp only
        have hnot := hpost c2 hc2
        unfold pairLt Cell.key at hnot
        simp only at hnot
        have hcond : ¬ (n.Score < score ∨ (n.Score = score ∧ stringsCompare n.Obj obj < 0)) := by
          rw [hobj, hsc, stringsCompare_lt_zero_toList]; exact hnot
        rw [if_neg hcond]
    · -- the next cell at level `j` is in `mid`: the walk moves on
      have hc1m : c1 ∈ mid := by rw [hm]; simp
      have hc1c : c1 ∈ cells := mem_of_full_split hsplit c1 (by simp [hc1m])
      obtain ⟨n, hn, hobj, hsc, _⟩ := hR.readCell hc1c
      have hadv := hmid c1 hc1m
      unfold pairLt Cell.key at hadv
      simp only at hadv
      have hlen := full_split_length hsplit
      have hrl : j < rank.length := (List.getElem?_eq_some_iff.mp hrank).1
      have hsplit2 : hdrCell :: cells = (A1 ++ c :: m1) ++ c1 :: (m2 ++ post) := by
        rw [hsplit, hm]; simp
      obtain ⟨A2, u, mid2, hA, hu, hlow, hres⟩ :=
        ih (A1 ++ c :: m1) c1 m2 post (rank.set j (A1.length + (m1.length + 1)))
          hsplit2 hc1
          (fun c2 h2 => hmid c2 (by rw [hm]; simp [h2])) hpost
          (by rw [hm] at hfuel; simp at hfuel; omega)
          (by rw [List.getElem?_set_self hrl]; simp)
      refine ⟨A2, u, mid2, by rw [← hA, hm]; simp, hu, hlow, ?_⟩
      have hexp : expLink j (mid ++ post) = { forward := some c1.addr, span := m1.length + 1 } := by
        rw [hm, List.append_assoc, List.cons_append]
        exact expLink_append_hit _ hm1 hc1
      rw [hexp]
      simp only
      rw [hn]
      simp only
      have hcond : n.Score < score ∨ (n.Score = score ∧ stringsCompare n.Obj obj < 0) := by
        rw [hobj, hsc, stringsCompare_lt_zero_toList]; exact hadv
      rw [if_pos hcond, hrank]
      simp only
      have hadd : u64add A1.length (m1.length + 1) = A1.length + (m1.length + 1) := by
        apply u64add_eq
        have := hR.length_lt
        rw [hm] at hlen
        simp at hlen
        omega
      rw [hadd, setArr_some _ hrl]
      simp only
      rw [hres, List.set_set]

theorem insertSearch_spec {l : SkipList} {cells : List Cell} (hR : Rep l cells)
    {score : Int} {obj : String} {pre post : List Cell} (hcells : cells = pre ++ post)
    (hpre : ∀ c ∈ pre, pairLt c.key (score, obj))
    (hpost : ∀ c ∈ post, ¬ pairLt c.key (score, obj)) :
    ∀ (i x : Nat) (update : List (Option Nat)) (rank : List Nat) (A1 : List Cell) (u : Cell)
      (mid : List Cell),
      i ≤ l.level → hdrCell :: pre = A1 ++ u :: mid → x = u.addr → i ≤ u.height →
      (∀ c ∈ mid, c.height ≤ i) → update.length = MaxLevel → rank.length = MaxLevel →
      (i < l.level → rank[i]? = some A1.length) →
      (i = l.level → A1 = [] ∧ ∀ k, k < MaxLevel → rank[k]? = some 0) →
      (∀ j, i ≤ j → j < l.level → SearchAt (hdrCell :: pre) update rank j) →
      ∃ update1 rank1, insertSearch l.heap score obj l.level i x update rank =
          some (update1, rank1) ∧ update1.length = MaxLevel ∧ rank1.length = MaxLevel ∧
        ∀ j, j < l.level → SearchAt (hdrCell :: pre) update1 rank1 j := by
  intro i
  induction i with
  | zero =>
    intro x update rank A1 u mid _ _ _ _ _ hul hrl _ _ hdone
    exact ⟨update, rank, rfl, hul, hrl, fun j hj => hdone j (Nat.zero_le _) hj⟩
  | succ j ih =>
    intro x update rank A1 u mid hi hsplit hx hu hmid hul hrl hr hr0 hdone
    have hjl : j < l.level := by omega
    have hjM : j < MaxLevel := by have := hR.level_le; omega
    -- the copy `rank[j] = rank[j+1]` below the top level
    have hrank1 : ∃ rank1, insertCopyRank l.level j rank = some rank1 ∧
        rank1.length = MaxLevel ∧
        rank1[j]? = some A1.length ∧ ∀ k, k ≠ j → rank1[k]? = rank[k]? := by
      unfold insertCopyRank
      by_cases hlt : j < l.level - 1
      · rw [if_pos hlt, hr (by omega)]
        simp only
        rw [setArr_some _ (by omega)]
        refine ⟨_, rfl, by simp [hrl], ?_, ?_⟩
        · rw [List.getElem?_set_self (by omega)]
        · intro k hk; rw [List.getElem?_set_ne (Ne.symm hk)]
      · rw [if_neg hlt]
        obtain ⟨hA, hz⟩ := hr0 (by omega)
        refine ⟨rank, rfl, hrl, ?_, fun _ _ => rfl⟩
        rw [hz j hjM, hA]; rfl
    obtain ⟨rank1, hrk1, hrl1, hrj1, hrne1⟩ := hrank1
    have hsplit2 : hdrCell :: cells = A1 ++ u :: (mid ++ post) := by
      rw [hcells, ← List.cons_append, hsplit]; simp
    have hmidpre : ∀ c1 ∈ mid, c1 ∈ pre := by
      intro c1 hc1
      cases A1 with
      | nil =>
        simp only [List.nil_append, List.cons.injEq] at hsplit
        rw [hsplit.2]; exact hc1
      | cons a A1 =>
        simp only [List.cons_append, List.cons.injEq] at hsplit
        rw [hsplit.2]; simp [hc1]
    have hfuel : mid.length < l.heap.length := by
      have h1 := full_split_length hsplit2
      have h2 := hR.shape.heap_gt
      simp at h1
      omega
    obtain ⟨A2, u2, mid2, hA2, hu2, hlow2, hadv⟩ :=
      insertAdvance_spec hR hjl l.heap.length A1 u mid post rank1 hsplit2 (by omega)
        (fun c1 hc1 => hpre c1 (hmidpre c1 hc1)) hpost hfuel hrj1
    have hres := ih u2.addr (update.set j (some u2.addr)) (rank1.set j A2.length) A2 u2 mid2
      (by omega) (by rw [hsplit, hA2]) rfl (by omega) hlow2 (by simp [hul]) (by simp [hrl1])
      (fun _ => by rw [List.getElem?_set_self (by omega)])
      (fun h => by omega)
      (by
        intro k hjk hk
        by_cases hkj : k = j
        · subst hkj
          refine ⟨A2, u2, mid2, by rw [hsplit, hA2], hu2, hlow2, ?_, ?_⟩
          · rw [List.getElem?_set_self (by omega)]
          · rw [List.getElem?_set_self (by omega)]
        · obtain ⟨B1, v, m, hB, hv, hm, hup, hrk⟩ := hdone k (by omega) hk
          refine ⟨B1, v, m, hB, hv, hm, ?_, ?_⟩
          · rw [List.getElem?_set_ne (Ne.symm hkj)]; exact hup
          · rw [List.getElem?_set_ne (Ne.symm hkj), hrne1 k hkj]; exact hrk)
    obtain ⟨update1, rank2, hs, hl1, hl2, hall⟩ := hres
    refine ⟨update1, rank2, ?_, hl1, hl2, hall⟩
    unfold insertSearch
    rw [hrk1]
    simp only
    rw [hx, hadv]
    simp only
    rw [setArr_some _ (by omega)]
    exact hs

/-! ## Splitting a sorted list at a pair -/

theorem pairLe_trans_lt {a b k : Int × String} (hab : pairLe a b) (hb : pairLt b k) :
    pairLt a k := by
  rw [pairLe_iff] at hab
  rw [pairLt_iff] at hb ⊢
  exact lt_of_le_of_lt hab hb

theorem sorted_split (cells : List Cell) (hs : (cells.map Cell.key).Pairwise pairLe)
    (k : Int × String) :
    ∃ pre post, cells = pre ++ post ∧ (∀ c ∈ pre, pairLt c.key k) ∧
      (∀ c ∈ post, ¬ pairLt c.key k) := by
  induction cells with
  | nil => exact ⟨[], [], rfl, by simp, by simp⟩
  | cons c cs ih =>
    rw [List.map_cons, List.pairwise_cons] at hs
    by_cases hc : pairLt c.key k
    · obtain ⟨pre, post, hcs, hpre, hpost⟩ := ih hs.2
      refine ⟨c :: pre, post, by rw [hcs]; rfl, ?_, hpost⟩
      intro c1 hc1
      rcases List.mem_cons.mp hc1 with rfl | h1
      · exact hc
      · exact hpre c1 h1
    · refine ⟨[], c :: cs, rfl, by simp, ?_⟩
      intro c1 hc1
      rcases List.mem_cons.mp hc1 with rfl | h1
      · exact hc
      · intro hlt
        exact hc (pairLe_trans_lt (hs.1 c1.key (List.mem_map_of_mem _ h1)) hlt)

/-! ## Positions in a list without repeated addresses -/

theorem split_cases {α : Type} {P Q A M : List α} {c u : α}
    (h : P ++ c :: Q = A ++ u :: M) :
    (P = A ∧ c = u ∧ Q = M) ∨ (∃ R, A = P ++ c :: R ∧ Q = R ++ u :: M) ∨
      (∃ R, P = A ++ u :: R ∧ M = R ++ c :: Q) := by
  rcases List.append_eq_append_iff.mp h with ⟨R, hA, hQ⟩ | ⟨R, hP, hM⟩
  · -- A = P ++ R, c :: Q = R ++ u :: M
    cases R with
    | nil =>
      simp only [List.nil_append, List.cons.injEq] at hQ
      left; exact ⟨by simp [hA], hQ.1, hQ.2⟩
    | cons r R =>
      simp only [List.cons_append, List.cons.injEq] at hQ
      right; left
      exact ⟨R, by rw [hA, hQ.1], hQ.2⟩
  · -- P = A ++ R, u :: M = R ++ c :: Q
    cases R with
    | nil =>
      simp only [List.nil_append, List.cons.injEq] at hM
      left; exact ⟨by simp [hP], hM.1.symm, hM.2.symm⟩
    | cons r R =>
      simp only [List.cons_append, List.cons.injEq] at hM
      right; right
      exact ⟨R, by rw [hP, hM.1], hM.2⟩

theorem addr_ne_of_split {F P Q : List Cell} {c : Cell} (hnd : (F.map Cell.addr).Nodup)
    (h : F = P ++ c :: Q) : (∀ d ∈ P, d.addr ≠ c.addr) ∧ (∀ d ∈ Q, d.addr ≠ c.addr) := by
  rw [h, List.map_append, List.map_cons, List.nodup_append] at hnd
  obtain ⟨_, hcq, hdis⟩ := hnd
  rw [List.nodup_cons] at hcq
  constructor
  · intro d hd heq
    exact hdis (List.mem_map_of_mem _ hd) (by rw [heq]; simp)
  · intro d hd heq
    exact hcq.1 (by rw [← heq]; exact List.mem_map_of_mem _ hd)

theorem Shape.full_nodup {h : List Node} {L : Nat} {cells : List Cell} (hS : Shape h L cells) :
    ((hdrCell :: cells).map Cell.addr).Nodup := by
  rw [List.map_cons, List.nodup_cons]
  refine ⟨?_, hS.addr_nodup⟩
  intro hmem
  obtain ⟨c, hc, hca⟩ := List.mem_map.mp hmem
  have := (hS.addr_ok c hc).1
  have h0 : hdrCell.addr = 0 := rfl
  omega

/-! ## The search of `Insert` on a represented list -/

theorem Rep.insertSearch {l : SkipList} {cells : List Cell} (hR : Rep l cells)
    (score : Int) (obj : String) {pre post : List Cell} (hcells : cells = pre ++ post)
    (hpre : ∀ c ∈ pre, pairLt c.key (score, obj))
    (hpost : ∀ c ∈ post, ¬ pairLt c.key (score, obj)) :
    ∃ update rank, insertSearch l.heap score obj l.level l.level 0
        (List.replicate MaxLevel none) (List.replicate MaxLevel 0) = some (update, rank) ∧
      update.length = MaxLevel ∧ rank.length = MaxLevel ∧
      ∀ j, j < l.level → SearchAt (hdrCell :: pre) update rank j := by
  refine insertSearch_spec hR hcells hpre hpost l.level 0 _ _ [] hdrCell pre
    (Nat.le_refl _) rfl rfl hR.level_le ?_ (by simp) (by simp) (fun h => by omega) ?_
    (fun j h1 h2 => by omega)
  · intro c hc
    exact (hR.height_ok c (by rw [hcells]; simp [hc])).2
  · intro _
    refine ⟨rfl, ?_⟩
    intro k hk
    rw [List.getElem?_replicate, if_pos hk]

/-! ## The loop that raises the list level -/

theorem insertRaise_spec (len : Nat) :
    ∀ (n i : Nat) (h : List Node) (update : List (Option Nat)) (rank : List Nat),
      update.length = MaxLevel → rank.length = MaxLevel → i + n ≤ MaxLevel →
      nodeInfo h 0 = some ("", 0, MaxLevel) →
      ∃ h1 update1 rank1, insertRaise len (some 0) n i h update rank =
          some (h1, update1, rank1) ∧
        update1.length = MaxLevel ∧ rank1.length = MaxLevel ∧ h1.length = h.length ∧
        (∀ b, nodeInfo h1 b = nodeInfo h b) ∧ (∀ b, backwardAt h1 b = backwardAt h b) ∧
        (∀ b k, getLevel h1 b k =
          if b = 0 ∧ i ≤ k ∧ k < i + n then
            (getLevel h 0 k).map (fun lv => { lv with span := len })
          else getLevel h b k) ∧
        (∀ k, update1[k]? = if i ≤ k ∧ k < i + n then some (some 0) else update[k]?) ∧
        (∀ k, rank1[k]? = if i ≤ k ∧ k < i + n then some 0 else rank[k]?) := by
  intro n
  induction n with
  | zero =>
    intro i h update rank hul hrl _ _
    refine ⟨h, update, rank, rfl, hul, hrl, rfl, fun _ => rfl, fun _ => rfl, ?_, ?_, ?_⟩
    · intro b k; rw [if_neg (by omega)]
    · intro k; rw [if_neg (by omega)]
    · intro k; rw [if_neg (by omega)]
  | succ n ih =>
    intro i h update rank hul hrl hin hinfo
    obtain ⟨lv, hlv⟩ := getLevel_isSome_of_info hinfo (j := i) (by omega)
    obtain ⟨h1, hset⟩ := setSpan_some len hlv
    obtain ⟨hlen1, hinfo1, hback1, hlink1⟩ := setSpan_spec hset
    obtain ⟨h2, update2, rank2, hrun, hul2, hrl2, hlen2, hinfo2, hback2, hlink2, hup2, hrk2⟩ :=
      ih (i + 1) h1 (update.set i (some 0)) (rank.set i 0) (by simp [hul]) (by simp [hrl])
        (by omega) (by rw [hinfo1]; exact hinfo)
    refine ⟨h2, update2, rank2, ?_, hul2, hrl2, by rw [hlen2, hlen1], ?_, ?_, ?_, ?_, ?_⟩
    · unfold insertRaise
      rw [setArr_some _ (by omega)]
      simp only
      rw [setArr_some _ (by omega)]
      simp only
      rw [hset]
      exact hrun
    · intro b; rw [hinfo2, hinfo1]
    · intro b; rw [hback2, hback1]
    · intro b k
      rw [hlink2, hlink1, hlink1]
      by_cases hb : b = 0
      · subst hb
        by_cases hk : k = i
        · subst hk
          rw [if_neg (by omega), if_pos ⟨rfl, rfl⟩, if_pos (by omega)]
        · by_cases hk2 : i + 1 ≤ k ∧ k < i + 1 + n
          · rw [if_pos ⟨rfl, hk2⟩, if_neg (by omega), if_pos (by omega)]
          · rw [if_neg (by omega), if_neg (by omega), if_neg (by omega)]
      · rw [if_neg (by simp [hb]), if_neg (by simp [hb]), if_neg (by simp [hb])]
    · intro k
      rw [hup2]
      by_cases hk : k = i
      · subst hk
        rw [if_neg (by omega), if_pos (by omega), List.getElem?_set_self (by omega)]
      · rw [List.getElem?_set_ne (Ne.symm hk)]
        by_cases hk2 : i + 1 ≤ k ∧ k < i + 1 + n
        · rw [if_pos hk2, if_pos (by omega)]
        · rw [if_neg hk2, if_neg (by omega)]
    · intro k
      rw [hrk2]
      by_cases hk : k = i
      · subst hk
        rw [if_neg (by omega), if_pos (by omega), List.getElem?_set_self (by omega)]
      · rw [List.getElem?_set_ne (Ne.symm hk)]
        by_cases hk2 : i + 1 ≤ k ∧ k < i + 1 + n
        · rw [if_pos hk2, if_pos (by omega)]
        · rw [if_neg hk2, if_neg (by omega)]

/-! ## The loop that links the new node -/

theorem insertSplice_spec (x : Nat) (update : List (Option Nat)) (rank : List Nat) :
    ∀ (n i : Nat) (h : List Node),
      (∀ k, i ≤ k → k < i + n → ∃ u lu lx r0 rk, update[k]? = some (some u) ∧ u ≠ x ∧
        getLevel h u k = some lu ∧ getLevel h x k = some lx ∧
        rank[0]? = some r0 ∧ rank[k]? = some rk) →
      ∃ h1, insertSplice x update rank n i h = some h1 ∧ h1.length = h.length ∧
        (∀ b, nodeInfo h1 b = nodeInfo h b) ∧ (∀ b, backwardAt h1 b = backwardAt h b) ∧
        (∀ b k, ¬ (i ≤ k ∧ k < i + n) → getLevel h1 b k = getLevel h b k) ∧
        (∀ k, i ≤ k → k < i + n → ∀ u lu r0 rk, update[k]? = some (some u) →
          getLevel h u k = some lu → rank[0]? = some r0 → rank[k]? = some rk →
          getLevel h1 x k = some ⟨lu.forward, u64sub lu.span (u64sub r0 rk)⟩ ∧
          getLevel h1 u k = some ⟨some x, u64add (u64sub r0 rk) 1⟩ ∧
          ∀ b, b ≠ x → b ≠ u → getLevel h1 b k = getLevel h b k) := by
  intro n
  induction n with
  | zero =>
    intro i h _
    exact ⟨h, rfl, rfl, fun _ => rfl, fun _ => rfl, fun _ _ _ => rfl,
      fun k h1 h2 => by omega⟩
  | succ n ih =>
    intro i h hpre
    obtain ⟨u, lu, lx, r0, ri, hup, hux, hlu, hlx, hr0, hri⟩ := hpre i (Nat.le_refl _) (by omega)
    obtain ⟨h1, hs1⟩ := setForward_some lu.forward hlx
    obtain ⟨hlen1, hinfo1, hback1, hl1⟩ := setForward_spec hs1
    have hu1 : getLevel h1 u i = some lu := by rw [hl1, if_neg (by simp [hux]), hlu]
    obtain ⟨h2, hs2⟩ := setForward_some (some x) hu1
    obtain ⟨hlen2, hinfo2, hback2, hl2⟩ := setForward_spec hs2
    have hu2 : getLevel h2 u i = some { lu with forward := some x } := by
      rw [hl2, if_pos ⟨rfl, rfl⟩, hu1]; rfl
    have hx2 : getLevel h2 x i = some { lx with forward := lu.forward } := by
      rw [hl2, if_neg (by simp [Ne.symm hux]), hl1, if_pos ⟨rfl, rfl⟩, hlx]; rfl
    obtain ⟨h3, hs3⟩ := setSpan_some (u64sub lu.span (u64sub r0 ri)) hx2
    obtain ⟨hlen3, hinfo3, hback3, hl3⟩ := setSpan_spec hs3
    have hu3 : getLevel h3 u i = some { lu with forward := some x } := by
      rw [hl3, if_neg (by simp [hux]), hu2]
    obtain ⟨h4, hs4⟩ := setSpan_some (u64add (u64sub r0 ri) 1) hu3
    obtain ⟨hlen4, hinfo4, hback4, hl4⟩ := setSpan_spec hs4
    have hx4 : getLevel h4 x i = some ⟨lu.forward, u64sub lu.span (u64sub r0 ri)⟩ := by
      rw [hl4, if_neg (by simp [Ne.symm hux]), hl3, if_pos ⟨rfl, rfl⟩, hx2]; rfl
    have hu4 : getLevel h4 u i = some ⟨some x, u64add (u64sub r0 ri) 1⟩ := by
      rw [hl4, if_pos ⟨rfl, rfl⟩, hu3]; rfl
    have hother : ∀ b k, (k ≠ i ∨ (b ≠ x ∧ b ≠ u)) → getLevel h4 b k = getLevel h b k := by
      intro b k hbk
      rw [hl4, if_neg (by rintro ⟨rfl, rfl⟩; simp at hbk), hl3,
        if_neg (by rintro ⟨rfl, rfl⟩; simp at hbk), hl2,
        if_neg (by rintro ⟨rfl, rfl⟩; simp at hbk), hl1,
        if_neg (by rintro ⟨rfl, rfl⟩; simp at hbk)]
    obtain ⟨h5, hrun, hlen5, hinfo5, hback5, hout5, hin5⟩ := ih (i + 1) h4 (by
      intro k hk1 hk2
      obtain ⟨u1, lu1, lx1, r01, rk1, h1, h2, h3, h4, h5, h6⟩ := hpre k (by omega) (by omega)
      exact ⟨u1, lu1, lx1, r01, rk1, h1, h2,
        by rw [hother u1 k (Or.inl (by omega))]; exact h3,
        by rw [hother x k (Or.inl (by omega))]; exact h4, h5, h6⟩)
    refine ⟨h5, ?_, by rw [hlen5, hlen4, hlen3, hlen2, hlen1], ?_, ?_, ?_, ?_⟩
    · unfold insertSplice
      rw [hup]
      simp only
      rw [hlu]
      simp only
      rw [hs1]
      simp only
      rw [hs2]
      simp only
      rw [hu2, hr0, hri]
      simp only
      rw [hs3]
      simp only
      rw [hs4]
      exact hrun
    · intro b; rw [hinfo5, hinfo4, hinfo3, hinfo2, hinfo1]
    · intro b; rw [hback5, hback4, hback3, hback2, hback1]
    · intro b k hk
      rw [hout5 b k (by omega), hother b k (Or.inl (by omega))]
    · intro k hk1 hk2 u1 lu1 r01 rk1 hup1 hlu1 hr01 hrk1
      by_cases hki : k = i
      · subst hki
        rw [hup] at hup1
        simp only [Option.some.injEq] at hup1
        subst hup1
        rw [hlu] at hlu1
        simp only [Option.some.injEq] at hlu1
        subst hlu1
        rw [hr0] at hr01
        rw [hri] at hrk1
        simp only [Option.some.injEq] at hr01 hrk1
        subst hr01 hrk1
        refine ⟨?_, ?_, ?_⟩
        · rw [hout5 x k (by omega), hx4]
        · rw [hout5 u k (by omega), hu4]
        · intro b hb1 hb2
          rw [hout5 b k (by omega), hother b k (Or.inr ⟨hb1, hb2⟩)]
      · obtain ⟨e1, e2, e3⟩ := hin5 k (by omega) (by omega) u1 lu1 r01 rk1 hup1
          (by rw [hother u1 k (Or.inl hki)]; exact hlu1) hr01 hrk1
        refine ⟨e1, e2, ?_⟩
        intro b hb1 hb2
        rw [e3 b hb1 hb2, hother b k (Or.inl hki)]

/-! ## The loop that lengthens the links passing over the new node -/

theorem insertBump_spec (update : List (Option Nat)) :
    ∀ (n i : Nat) (h : List Node),
      (∀ k, i ≤ k → k < i + n → ∃ u lu, update[k]? = some (some u) ∧
        getLevel h u k = some lu) →
      ∃ h1, insertBump update n i h = some h1 ∧ h1.length = h.length ∧
        (∀ b, nodeInfo h1 b = nodeInfo h b) ∧ (∀ b, backwardAt h1 b = backwardAt h b) ∧
        (∀ b k, ¬ (i ≤ k ∧ k < i + n) → getLevel h1 b k = getLevel h b k) ∧
        (∀ k, i ≤ k → k < i + n → ∀ u lu, update[k]? = some (some u) →
          getLevel h u k = some lu →
          getLevel h1 u k = some ⟨lu.forward, u64add lu.span 1⟩ ∧
          ∀ b, b ≠ u → getLevel h1 b k = getLevel h b k) := by
  intro n
  induction n with
  | zero =>
    intro i h _
    exact ⟨h, rfl, rfl, fun _ => rfl, fun _ => rfl, fun _ _ _ => rfl,
      fun k h1 h2 => by omega⟩
  | succ n ih =>
    intro i h hpre
    obtain ⟨u, lu, hup, hlu⟩ := hpre i (Nat.le_refl _) (by omega)
    obtain ⟨h1, hs1⟩ := setSpan_some (u64add lu.span 1) hlu
    obtain ⟨hlen1, hinfo1, hback1, hl1⟩ := setSpan_spec hs1
    have hu1 : getLevel h1 u i = some ⟨lu.forward, u64add lu.span 1⟩ := by
      rw [hl1, if_pos ⟨rfl, rfl⟩, hlu]; rfl
    have hother : ∀ b k, (k ≠ i ∨ b ≠ u) → getLevel h1 b k = getLevel h b k := by
      intro b k hbk
      rw [hl1, if_neg (by rintro ⟨rfl, rfl⟩; simp at hbk)]
    obtain ⟨h2, hrun, hlen2, hinfo2, hback2, hout2, hin2⟩ := ih (i + 1) h1 (by
      intro k hk1 hk2
      obtain ⟨u1, lu1, e1, e2⟩ := hpre k (by omega) (by omega)
      exact ⟨u1, lu1, e1, by rw [hother u1 k (Or.inl (by omega))]; exact e2⟩)
    refine ⟨h2, ?_, by rw [hlen2, hlen1], ?_, ?_, ?_, ?_⟩
    · unfold insertBump
      rw [hup]
      simp only
      rw [hlu]
      simp only
      rw [hs1]
      exact hrun
    · intro b; rw [hinfo2, hinfo1]
    · intro b; rw [hback2, hback1]
    · intro b k hk
      rw [hout2 b k (by omega), hother b k (Or.inl (by omega))]
    · intro k hk1 hk2 u1 lu1 hup1 hlu1
      by_cases hki : k = i
      · subst hki
        rw [hup] at hup1
        simp only [Option.some.injEq] at hup1
        subst hup1
        rw [hlu] at hlu1
        simp only [Option.some.injEq] at hlu1
        subst hlu1
        refine ⟨?_, ?_⟩
        · rw [hout2 u k (by omega), hu1]
        · intro b hb
          rw [hout2 b k (by omega), hother b k (Or.inr hb)]
      · obtain ⟨e1, e2⟩ := hin2 k (by omega) (by omega) u1 lu1 hup1
          (by rw [hother u1 k (Or.inl hki)]; exact hlu1)
        refine ⟨e1, ?_⟩
        intro b hb
        rw [e2 b hb, hother b k (Or.inl hki)]

/-! ## `Insert`: the state after the list level is raised -/

theorem expLink_all_low {j : Nat} {cs : List Cell} (h : ∀ c ∈ cs, c.height ≤ j) :
    expLink j cs = { forward := none, span := cs.length } := by
  unfold expLink
  rw [firstAbove_eq_none.mpr h]

theorem insert_raise_phase {l : SkipList} {cells : List Cell} (hR : Rep l cells)
    {pre post : List Cell} (hcells : cells = pre ++ post)
    {update0 : List (Option Nat)} {rank0 : List Nat}
    (hul : update0.length = MaxLevel) (hrl : rank0.length = MaxLevel)
    (hs : ∀ j, j < l.level → SearchAt (hdrCell :: pre) update0 rank0 j)
    {level : Nat} (hlevel : level ≤ MaxLevel) :
    ∃ h1 update rank,
      (if level > l.level then
         insertRaise l.Length l.header (level - l.level) l.level l.heap update0 rank0
       else some (l.heap, update0, rank0)) = some (h1, update, rank) ∧
      h1.length = l.heap.length ∧
      Shape h1 (if level > l.level then level else l.level) cells ∧
      ∀ j, j < (if level > l.level then level else l.level) →
        SearchAt (hdrCell :: pre) update rank j := by
  by_cases hgt : level > l.level
  · simp only [if_pos hgt]
    rw [hR.header]
    obtain ⟨h1, update, rank, hrun, _, _, hlen, hinfo, hback, hlink, hup, hrk⟩ :=
      insertRaise_spec l.Length (level - l.level) l.level l.heap update0 rank0 hul hrl
        (by omega) hR.shape.hdr_info
    have hS := hR.shape
    have hadd : l.level + (level - l.level) = level := by omega
    rw [hadd] at hlink hup hrk
    refine ⟨h1, update, rank, hrun, hlen, ?_, ?_⟩
    · constructor
      · rw [hlen]; exact hS.heap_gt
      · exact hS.addr_nodup
      · intro c hc; rw [hlen]; exact hS.addr_ok c hc
      · rw [hinfo]; exact hS.hdr_info
      · intro j hj
        rw [hlink]
        by_cases hjl : l.level ≤ j
        · rw [if_pos ⟨rfl, hjl, hj⟩]
          obtain ⟨s, hs0⟩ := hS.hdr_top j hjl (by omega)
          rw [hs0, expLink_all_low (fun c hc => by have := (hR.height_ok c hc).2; omega),
            hR.length_eq]
          rfl
        · rw [if_neg (by omega)]
          exact hS.hdr_link j (by omega)
      · intro j hj hjM
        rw [hlink, if_neg (by omega)]
        exact hS.hdr_top j (by omega) hjM
      · intro c hc; rw [hinfo]; exact hS.info c hc
      · intro P c Q hPQ j hj
        rw [hlink, if_neg (by
          intro hcon
          have := (hS.addr_ok c (by rw [hPQ]; simp)).1
          omega)]
        exact hS.link P c Q hPQ j hj
      · intro P c Q hPQ
        rw [hback]; exact hS.back P c Q hPQ
    · intro j hj
      by_cases hjl : l.level ≤ j
      · refine ⟨[], hdrCell, pre, rfl, ?_, ?_, ?_, ?_⟩
        · show j < MaxLevel
          omega
        · intro c hc
          have := (hR.height_ok c (by rw [hcells]; simp [hc])).2
          omega
        · rw [hup, if_pos ⟨hjl, hj⟩]; rfl
        · rw [hrk, if_pos ⟨hjl, hj⟩]; rfl
      · obtain ⟨A1, u, mid, e1, e2, e3, e4, e5⟩ := hs j (by omega)
        refine ⟨A1, u, mid, e1, e2, e3, ?_, ?_⟩
        · rw [hup, if_neg (by omega)]; exact e4
        · rw [hrk, if_neg (by omega)]; exact e5
  · simp only [if_neg hgt]
    exact ⟨l.heap, update0, rank0, rfl, rfl, hR.shape, hs⟩

/-! ## `Insert`: the links after the new node is spliced in -/

theorem Shape.full_addr_lt {h : List Node} {L : Nat} {cells : List Cell} (hS : Shape h L cells)
    {c : Cell} (hc : c ∈ hdrCell :: cells) : c.addr < h.length := by
  rcases List.mem_cons.mp hc with rfl | h1
  · exact nodeInfo_lt hS.hdr_info
  · exact (hS.addr_ok c h1).2

/-- What an entry of the search arrays says about the heap. -/
theorem search_fact {h1 : List Node} {L : Nat} {cells pre post : List Cell}
    (hS : Shape h1 L cells) (hcells : cells = pre ++ post)
    {update : List (Option Nat)} {rank : List Nat} {k : Nat} (hk : k < L)
    (hs : SearchAt (hdrCell :: pre) update rank k) :
    ∃ A1 u mid, hdrCell :: pre = A1 ++ u :: mid ∧ k < u.height ∧
      (∀ c ∈ mid, c.height ≤ k) ∧ update[k]? = some (some u.addr) ∧
      rank[k]? = some A1.length ∧ u.addr < h1.length ∧
      hdrCell :: cells = A1 ++ u :: (mid ++ post) ∧
      getLevel h1 u.addr k = some (expLink k (mid ++ post)) ∧
      pre.length = A1.length + mid.length := by
  obtain ⟨A1, u, mid, hA, hu, hlow, hupd, hrk⟩ := hs
  have hfull : hdrCell :: cells = A1 ++ u :: (mid ++ post) := by
    rw [hcells, ← List.cons_append, hA]; simp
  have hmem : u ∈ hdrCell :: cells := by rw [hfull]; simp
  refine ⟨A1, u, mid, hA, hu, hlow, hupd, hrk, hS.full_addr_lt hmem, hfull,
    hS.full_link hfull hk hu, ?_⟩
  have := congrArg List.length hA
  simp at this
  omega

theorem search_fact_zero {h1 : List Node} {L : Nat} {cells pre post : List Cell}
    (hS : Shape h1 L cells) (hcells : cells = pre ++ post)
    (hheights : ∀ c ∈ cells, 1 ≤ c.height)
    {update : List (Option Nat)} {rank : List Nat} (hL : 0 < L)
    (hs : SearchAt (hdrCell :: pre) update rank 0) :
    rank[0]? = some pre.length ∧
      ∃ A1 u, hdrCell :: pre = A1 ++ [u] ∧ update[0]? = some (some u.addr) := by
  obtain ⟨A1, u, mid, hA, _, hlow, hupd, hrk, _, hfull, _, hlen⟩ :=
    search_fact hS hcells hL hs
  have hmid : mid = [] := by
    cases mid with
    | nil => rfl
    | cons m ms =>
      have h1 := hlow m (List.mem_cons_self _ _)
      have h2 := hheights m (mem_of_full_split hfull m (by simp))
      omega
  subst hmid
  simp at hlen
  exact ⟨by rw [hrk, hlen], A1, u, hA, hupd⟩

theorem expLink_congr_hit {j : Nat} {u : Cell} (hu : j < u.height) (R R1 : List Cell) :
    ∀ M : List Cell, expLink j (M ++ u :: R) = expLink j (M ++ u :: R1) := by
  intro M
  induction M with
  | nil => simp only [List.nil_append]; rw [expLink_cons_hit R hu, expLink_cons_hit R1 hu]
  | cons m M ih =>
    by_cases hm : j < m.height
    · simp only [List.cons_append]
      rw [expLink_cons_hit _ hm, expLink_cons_hit _ hm]
    · simp only [List.cons_append]
      rw [expLink_cons_low _ (by omega), expLink_cons_low _ (by omega), ih]

theorem insert_links {h1 : List Node} {L : Nat} {cells pre post : List Cell}
    (hS : Shape h1 L cells) (hcells : cells = pre ++ post)
    {update : List (Option Nat)} {rank : List Nat}
    (hs : ∀ j, j < L → SearchAt (hdrCell :: pre) update rank j)
    (hheights : ∀ c ∈ cells, 1 ≤ c.height)
    {level : Nat} (hl1 : 1 ≤ level) (hlL : level ≤ L) (hroom : cells.length + 1 < U64)
    (score : Int) (obj : String) :
    ∃ h3 h4,
      insertSplice h1.length update rank level 0
        (h1 ++ [newNode score obj level]) = some h3 ∧
      insertBump update (L - level) level h3 = some h4 ∧
      h4.length = h1.length + 1 ∧
      (∀ b, b < h1.length → nodeInfo h4 b = nodeInfo h1 b) ∧
      nodeInfo h4 h1.length = some (obj, score, level) ∧
      (∀ b, b < h1.length → backwardAt h4 b = backwardAt h1 b) ∧
      backwardAt h4 h1.length = some none ∧
      (∀ P c Q, hdrCell :: (pre ++ ⟨h1.length, score, obj, level⟩ :: post) = P ++ c :: Q →
        ∀ j, j < L → j < c.height → getLevel h4 c.addr j = some (expLink j Q)) ∧
      (∀ j, L ≤ j → getLevel h4 0 j = getLevel h1 0 j) := by
  have hL : 0 < L := by omega
  obtain ⟨hr0, _⟩ := search_fact_zero hS hcells hheights hL (hs 0 hL)
  obtain ⟨ha1, ha2, ha3, ha4, ha5, ha6⟩ := alloc_spec h1 (newNode score obj level)
  have ha4 : nodeInfo (h1 ++ [newNode score obj level]) h1.length =
      some (obj, score, level) := by rw [ha4]; simp [newNode]
  have ha5 : backwardAt (h1 ++ [newNode score obj level]) h1.length = some none := by
    rw [ha5]; rfl
  have hxk : ∀ k, k < level → getLevel (h1 ++ [newNode score obj level]) h1.length k =
      some ⟨none, 0⟩ := by
    intro k hk
    rw [ha6]
    simp [newNode, List.getElem?_replicate, hk]
  -- splice
  obtain ⟨h3, hrun3, hlen3, hinfo3, hback3, hout3, hin3⟩ :=
    insertSplice_spec h1.length update rank level 0 _ (by
      intro k _ hk
      obtain ⟨A1, u, mid, _, _, _, hupd, hrk, hult, _, hlk, _⟩ :=
        search_fact hS hcells (by omega : k < L) (hs k (by omega))
      exact ⟨u.addr, _, _, _, _, hupd, by omega, by rw [ha3 _ _ hult]; exact hlk,
        hxk k (by omega), hr0, hrk⟩)
  -- bump
  obtain ⟨h4, hrun4, hlen4, hinfo4, hback4, hout4, hin4⟩ :=
    insertBump_spec update (L - level) level h3 (by
      intro k hk1 hk2
      obtain ⟨A1, u, mid, _, _, _, hupd, hrk, hult, _, hlk, _⟩ :=
        search_fact hS hcells (by omega : k < L) (hs k (by omega))
      exact ⟨u.addr, _, hupd, by rw [hout3 _ _ (by omega), ha3 _ _ hult]; exact hlk⟩)
  have hadd : level + (L - level) = L := by omega
  rw [hadd] at hout4 hin4
  simp only [Nat.zero_add, Nat.zero_le, true_and, forall_true_left] at hout3 hin3
  refine ⟨h3, h4, hrun3, hrun4, by rw [hlen4, hlen3]; simp, ?_, ?_, ?_, ?_, ?_, ?_⟩
  · intro b hb; rw [hinfo4, hinfo3, ha1 b hb]
  · rw [hinfo4, hinfo3, ha4]
  · intro b hb; rw [hback4, hback3, ha2 b hb]
  · rw [hback4, hback3, ha5]
  · -- every link below `L` is the expected one
    intro P c Q hPQ j hj hcj
    obtain ⟨A1, u, mid, hA, hu, hlow, hupd, hrk, hult, hfull, hlk, hlen⟩ :=
      search_fact hS hcells hj (hs j hj)
    have hnd := hS.full_nodup
    have hlenc : cells.length = pre.length + post.length := by rw [hcells]; simp
    have hspan : (expLink j (mid ++ post)).span = (expLink j post).span + mid.length := by
      rw [expLink_append_low post hlow]
    have hsple := expLink_span_le j post
    -- the links of level `j` in `h4`
    have key : (j < level → getLevel h4 h1.length j = some (expLink j post) ∧
          getLevel h4 u.addr j = some ⟨some h1.length, mid.length + 1⟩) ∧
        (level ≤ j → getLevel h4 u.addr j =
          some ⟨(expLink j post).forward, (expLink j post).span + mid.length + 1⟩) ∧
        (∀ b, b < h1.length → b ≠ u.addr → getLevel h4 b j = getLevel h1 b j) := by
      by_cases hjl : j < level
      · obtain ⟨e1, e2, e3⟩ := hin3 j hjl u.addr _ _ _ hupd
          (by rw [ha3 _ _ hult]; exact hlk) hr0 hrk
        have hsub : u64sub pre.length A1.length = mid.length := by
          rw [u64sub_eq (by omega) (by omega)]; omega
        refine ⟨fun _ => ⟨?_, ?_⟩, fun h => by omega, ?_⟩
        · rw [hout4 _ _ (by omega), e1, hsub, hspan, u64sub_eq (by omega) (by omega)]
          rw [expLink_append_low post hlow]
          simp
        · rw [hout4 _ _ (by omega), e2, hsub, u64add_eq (by omega)]
        · intro b hb hbu
          rw [hout4 _ _ (by omega), e3 b (by omega) hbu, ha3 _ _ hb]
      · obtain ⟨e1, e2⟩ := hin4 j (by omega) hj u.addr _ hupd
          (by rw [hout3 _ _ (by omega), ha3 _ _ hult]; exact hlk)
        refine ⟨fun h => by omega, fun _ => ?_, ?_⟩
        · rw [e1, hspan, u64add_eq (by omega)]
          rw [expLink_append_low post hlow]
        · intro b hb hbu
          rw [e2 b hbu, hout3 _ _ (by omega), ha3 _ _ hb]
    obtain ⟨key1, key2, key3⟩ := key
    have hfull2 : P ++ c :: Q = A1 ++ u :: (mid ++ ⟨h1.length, score, obj, level⟩ :: post) := by
      rw [← hPQ, ← List.cons_append, hA]; simp
    rcases split_cases hfull2 with ⟨hP, hc, hQ⟩ | ⟨R, hAR, hQ⟩ | ⟨R, hPR, hM⟩
    · -- `c` is `update[j]`
      subst hc
      rw [hQ]
      by_cases hjl : j < level
      · rw [(key1 hjl).2, expLink_append_hit post hlow (by exact hjl)]
      · rw [key2 (by omega), expLink_append_low _ hlow, expLink_cons_low post (by
          show level ≤ j
          omega)]
        simp only [Option.some.injEq, Level.mk.injEq, true_and]
        omega
    · -- `c` comes before `update[j]`
      have hsplitc : hdrCell :: cells = P ++ c :: (R ++ u :: (mid ++ post)) := by
        rw [hfull, hAR]; simp
      have hne : c.addr ≠ u.addr := by
        have := (addr_ne_of_split hnd hsplitc).2 u (by simp)
        exact fun h => this h.symm
      have hclt : c.addr < h1.length := hS.full_addr_lt (by rw [hsplitc]; simp)
      rw [key3 c.addr hclt hne, hS.full_link hsplitc hj hcj, hQ]
      exact congrArg some (expLink_congr_hit hu _ _ R)
    · -- `c` comes after `update[j]`
      rcases split_cases hM.symm with ⟨hR, hc, hQ⟩ | ⟨R1, hmid, _⟩ | ⟨R1, hR, hpost⟩
      · subst hc
        rw [(key1 hcj).1, hQ]
      · have := hlow c (by rw [hmid]; simp)
        omega
      · have hsplitc : hdrCell :: cells = (A1 ++ u :: (mid ++ R1)) ++ c :: Q := by
          rw [hfull, hpost]; simp
        have hne : c.addr ≠ u.addr := by
          have := (addr_ne_of_split hnd hsplitc).1 u (by simp)
          exact fun h => this h.symm
        have hclt : c.addr < h1.length := hS.full_addr_lt (by rw [hsplitc]; simp)
        rw [key3 c.addr hclt hne, hS.full_link hsplitc hj hcj]
  · intro j hj
    rw [hout4 _ _ (by omega), hout3 _ _ (by omega), ha3 _ _ (nodeInfo_lt hS.hdr_info)]

/-! ## `Insert` keeps the representation invariant -/

theorem pairLe_of_pairLt {a b : Int × String} (h : pairLt a b) : pairLe a b := by
  rw [pairLt_iff] at h
  rw [pairLe_iff]
  exact le_of_lt h

theorem sorted_insert {pre post : List Cell} {cx : Cell}
    (hs : ((pre ++ post).map Cell.key).Pairwise pairLe)
    (hpre : ∀ c ∈ pre, pairLt c.key cx.key) (hpost : ∀ c ∈ post, ¬ pairLt c.key cx.key) :
    ((pre ++ cx :: post).map Cell.key).Pairwise pairLe := by
  rw [List.map_append, List.pairwise_append] at hs
  obtain ⟨h1, h2, h3⟩ := hs
  rw [List.map_append, List.map_cons, List.pairwise_append, List.pairwise_cons]
  refine ⟨h1, ⟨?_, h2⟩, ?_⟩
  · intro k hk
    obtain ⟨c, hc, rfl⟩ := List.mem_map.mp hk
    exact hpost c hc
  · intro a ha b hb
    rcases List.mem_cons.mp hb with rfl | hb1
    · obtain ⟨c, hc, rfl⟩ := List.mem_map.mp ha
      exact pairLe_of_pairLt (hpre c hc)
    · exact h3 a ha b hb1

theorem getLast?_of_full {pre A1 : List Cell} {u : Cell} (h : hdrCell :: pre = A1 ++ [u]) :
    (pre = [] ∧ u = hdrCell) ∨ (pre ≠ [] ∧ pre.getLast? = some u ∧ u ∈ pre) := by
  cases pre with
  | nil =>
    left
    cases A1 with
    | nil => simp at h; exact ⟨rfl, h.symm⟩
    | cons a A1 =>
      have := congrArg List.length h
      simp at this
  | cons p ps =>
    right
    have hl : (hdrCell :: p :: ps).getLast? = some u := by rw [h]; simp
    rw [List.getLast?_cons_cons] at hl
    exact ⟨by simp, hl, List.mem_of_getLast?_eq_some hl⟩

theorem Rep.insert {l : SkipList} {cells : List Cell} (hR : Rep l cells)
    (score : Int) (obj : String) {level : Nat} (hl1 : 1 ≤ level) (hlM : level ≤ MaxLevel)
    (hroom : cells.length + 1 < U64) :
    ∃ l1 pre post, Insert l score obj level = some (l1, l.heap.length) ∧
      cells = pre ++ post ∧ (∀ c ∈ pre, pairLt c.key (score, obj)) ∧
      (∀ c ∈ post, ¬ pairLt c.key (score, obj)) ∧
      Rep l1 (pre ++ ⟨l.heap.length, score, obj, level⟩ :: post) := by
  obtain ⟨pre, post, hcells, hpre, hpost⟩ := sorted_split cells hR.sorted (score, obj)
  obtain ⟨update0, rank0, hsearch, hul0, hrl0, hs0⟩ :=
    hR.insertSearch score obj hcells hpre hpost
  obtain ⟨h1, update, rank, hraise, hlen1, hS1, hs⟩ :=
    insert_raise_phase hR hcells hul0 hrl0 hs0 hlM
  generalize hLdef : (if level > l.level then level else l.level) = L at hS1 hs
  have hLl : l.level ≤ L := by rw [← hLdef]; split <;> omega
  have hLlev : level ≤ L := by rw [← hLdef]; split <;> omega
  have hLM : L ≤ MaxLevel := by rw [← hLdef]; split <;> [exact hlM; exact hR.level_le]
  have hheights : ∀ c ∈ cells, 1 ≤ c.height := fun c hc => (hR.height_ok c hc).1
  obtain ⟨h3, h4, hsplice, hbump, hlen4, hinfo4, hinfox, hback4, hbackx, hlink4, htop4⟩ :=
    insert_links hS1 hcells hs hheights hl1 hLlev hroom score obj
  rw [hlen1] at hsplice hlen4 hinfo4 hinfox hback4 hbackx hlink4
  obtain ⟨_, A0, u0, hA0, hup0⟩ :=
    search_fact_zero hS1 hcells hheights (by omega : 0 < L) (hs 0 (by omega))
  -- the backward pointer of the new node
  have hX4 : l.heap.length < h4.length := by omega
  have hph5 : ∃ h5, (if some u0.addr ≠ l.header then setBackward h4 l.heap.length (some u0.addr)
        else some h4) = some h5 ∧ h5.length = h4.length ∧
      (∀ b, nodeInfo h5 b = nodeInfo h4 b) ∧ (∀ b k, getLevel h5 b k = getLevel h4 b k) ∧
      (∀ b, b ≠ l.heap.length → backwardAt h5 b = backwardAt h4 b) ∧
      backwardAt h5 l.heap.length = some (pre.getLast?.map Cell.addr) := by
    rw [hR.header]
    rcases getLast?_of_full hA0 with ⟨hp, hu⟩ | ⟨hp, hlast, hmem⟩
    · have : u0.addr = 0 := by rw [hu]; rfl
      rw [this, if_neg (by simp)]
      exact ⟨h4, rfl, rfl, fun _ => rfl, fun _ _ => rfl, fun _ _ => rfl,
        by rw [hbackx, hp]; rfl⟩
    · have hpos := (hR.shape.addr_ok u0 (by rw [hcells]; simp [hmem])).1
      rw [if_pos (by simp; omega)]
      obtain ⟨h5, hs5⟩ := setBackward_some (some u0.addr) hX4
      obtain ⟨e1, e2, e3, e4⟩ := setBackward_spec hs5
      refine ⟨h5, hs5, e1, e2, e4, ?_, ?_⟩
      · intro b hb; rw [e3, if_neg hb]
      · rw [e3, if_pos rfl, hlast]; rfl
  obtain ⟨h5, hrun5, hlen5, hinfo5, hlink5, hback5, hbackx5⟩ := hph5
  have hlx : getLevel h5 l.heap.length 0 = some (expLink 0 post) := by
    rw [hlink5]
    exact hlink4 (hdrCell :: pre) ⟨l.heap.length, score, obj, level⟩ post (by simp) 0
      (by omega) (by show 0 < level; omega)
  have hnd : (cells.map Cell.addr).Nodup := hR.shape.addr_nodup
  have haddr : ∀ c ∈ cells, 0 < c.addr ∧ c.addr < l.heap.length := hR.shape.addr_ok
  -- the invariant, for any final heap that differs from `h5` by the backward
  -- pointer of the successor
  have hfinal : ∀ (hf : List Node) (tl : Option Nat), hf.length = h5.length →
      (∀ b, nodeInfo hf b = nodeInfo h5 b) → (∀ b k, getLevel hf b k = getLevel h5 b k) →
      (∀ P c Q, pre ++ ⟨l.heap.length, score, obj, level⟩ :: post = P ++ c :: Q →
        backwardAt hf c.addr = some (P.getLast?.map Cell.addr)) →
      tl = (pre ++ ⟨l.heap.length, score, obj, level⟩ :: post).getLast?.map Cell.addr →
      Rep { heap := hf, Length := u64add l.Length 1, header := l.header, tail := tl, level := L }
        (pre ++ ⟨l.heap.length, score, obj, level⟩ :: post) := by
    intro hf tl hlenf hinfof hlinkf hbackf htl
    have hmem : ∀ c ∈ pre ++ ⟨l.heap.length, score, obj, level⟩ :: post,
        c = ⟨l.heap.length, score, obj, level⟩ ∨ c ∈ cells := by
      intro c hc
      rw [hcells]
      simp only [List.mem_append, List.mem_cons] at hc ⊢
      tauto
    refine ⟨⟨?_, ?_, ?_, ?_, ?_, ?_, ?_, ?_, hbackf⟩, hR.header, (by show 1 ≤ L; omega), hLM,
      ?_, ?_, ?_, htl, ?_, ?_⟩
    · rw [hlenf, hlen5, hlen4]
      have := hR.shape.heap_gt
      rw [hcells] at this
      simp at this ⊢
      omega
    · rw [hcells, List.map_append, List.nodup_append] at hnd
      obtain ⟨n1, n2, n3⟩ := hnd
      rw [List.map_append, List.map_cons, List.nodup_append, List.nodup_cons]
      refine ⟨n1, ⟨?_, n2⟩, ?_⟩
      · intro hm
        obtain ⟨c, hc, hca⟩ := List.mem_map.mp hm
        have := (haddr c (by rw [hcells]; simp [hc])).2
        simp at hca
        omega
      · intro a ha1 ha2
        rcases List.mem_cons.mp ha2 with rfl | ha3
        · obtain ⟨c, hc, hca⟩ := List.mem_map.mp ha1
          have := (haddr c (by rw [hcells]; simp [hc])).2
          simp at hca
          omega
        · exact n3 ha1 ha3
    · intro c hc
      rw [hlenf, hlen5, hlen4]
      rcases hmem c hc with rfl | hc1
      · have := hR.shape.heap_gt
        simp only
        omega
      · have := haddr c hc1
        omega
    · rw [hinfof, hinfo5, hinfo4 0 (nodeInfo_lt hR.shape.hdr_info), hS1.hdr_info]
    · intro j hj
      have hj1 : j < L := hj
      rw [hlinkf, hlink5]
      exact hlink4 [] hdrCell _ rfl j hj1 (by show j < MaxLevel; omega)
    · intro j hj hjM
      have hj1 : L ≤ j := hj
      rw [hlinkf, hlink5, htop4 j hj1]
      exact hS1.hdr_top j hj1 hjM
    · intro c hc
      rw [hinfof, hinfo5]
      rcases hmem c hc with rfl | hc1
      · exact hinfox
      · rw [hinfo4 _ (haddr c hc1).2]
        exact hS1.info c hc1
    · intro P c Q hPQ j hj
      rw [hlinkf, hlink5]
      have hcL : c.height ≤ L := by
        rcases hmem c (by rw [hPQ]; simp) with rfl | hc1
        · exact hLlev
        · have := (hR.height_ok c hc1).2; omega
      exact hlink4 (hdrCell :: P) c Q (by rw [hPQ]; simp) j (by omega) hj
    · show u64add l.Length 1 = _
      rw [hR.length_eq, u64add_eq hroom, hcells]
      simp
      omega
    · rw [hcells] at hroom
      simp at hroom ⊢
      omega
    · intro c hc
      rcases hmem c hc with rfl | hc1
      · exact ⟨hl1, hLlev⟩
      · have := hR.height_ok c hc1
        constructor
        · exact this.1
        · show c.height ≤ L
          omega
    · have hs := hR.sorted
      rw [hcells] at hs
      exact sorted_insert hs hpre hpost
    · intro hL0
      have hL1 : 1 < L := hL0
      show ∃ c ∈ _, c.height = L
      by_cases hgt : level > l.level
      · refine ⟨⟨l.heap.length, score, obj, level⟩, by simp, ?_⟩
        rw [← hLdef, if_pos hgt]
      · rw [if_neg hgt] at hLdef
        obtain ⟨c, hc, hch⟩ := hR.top (by omega)
        refine ⟨c, ?_, by rw [hch, hLdef]⟩
        rw [hcells] at hc
        simp only [List.mem_append, List.mem_cons] at hc ⊢
        tauto
  -- backward pointers of the cells of the old list in `h5`
  have hbackold : ∀ P c Q, cells = P ++ c :: Q →
      backwardAt h5 c.addr = some (P.getLast?.map Cell.addr) := by
    intro P c Q hPQ
    have hc := haddr c (by rw [hPQ]; simp)
    rw [hback5 _ (by omega), hback4 _ hc.2]
    exact hS1.back P c Q hPQ
  cases hpostc : post with
  | nil =>
    subst hpostc
    refine ⟨_, pre, [], ?_, hcells, hpre, hpost, hfinal h5 (some l.heap.length) rfl
      (fun _ => rfl) (fun _ _ => rfl) ?_ (by simp)⟩
    · unfold Insert
      rw [hR.header]
      simp only
      rw [hsearch]
      simp only
      rw [← hR.header, hraise]
      simp only
      rw [hlen1, hsplice]
      simp only
      rw [hLdef, hbump]
      simp only
      rw [hup0]
      simp only
      rw [hrun5]
      simp only
      rw [hlx]
      simp [expLink, firstAbove]
    · intro P c Q hPQ
      rcases split_cases hPQ.symm with ⟨hP, hc, _⟩ | ⟨R, hpreR, _⟩ | ⟨R, _, hQ⟩
      · rw [hc, hP]; exact hbackx5
      · have hsplit : cells = P ++ c :: R := by
          rw [hcells, hpreR]; simp
        exact hbackold P c R hsplit
      · simp at hQ
  | cons f ps =>
    subst hpostc
    have hf := haddr f (by rw [hcells]; simp)
    have hfh := (hR.height_ok f (by rw [hcells]; simp)).1
    have hlx2 : getLevel h5 l.heap.length 0 = some ⟨some f.addr, 1⟩ := by
      rw [hlx, expLink_cons_hit ps (by omega)]
    obtain ⟨h6, hs6⟩ := setBackward_some (h := h5) (a := f.addr) (some l.heap.length)
      (by omega)
    obtain ⟨e1, e2, e3, e4⟩ := setBackward_spec hs6
    refine ⟨_, pre, f :: ps, ?_, hcells, hpre, hpost, hfinal h6 l.tail e1 e2 e4 ?_ ?_⟩
    · unfold Insert
      rw [hR.header]
      simp only
      rw [hsearch]
      simp only
      rw [← hR.header, hraise]
      simp only
      rw [hlen1, hsplice]
      simp only
      rw [hLdef, hbump]
      simp only
      rw [hup0]
      simp only
      rw [hrun5]
      simp only
      rw [hlx2]
      simp only
      rw [hs6]
    · intro P c Q hPQ
      rw [e3]
      rcases split_cases hPQ.symm with ⟨hP, hc, _⟩ | ⟨R, hpreR, hQ⟩ | ⟨R, hP, hpostR⟩
      · rw [hc, hP, if_neg (by simp; omega)]
        exact hbackx5
      · -- `c` is a cell of `pre`
        have hsplit : cells = P ++ c :: (R ++ f :: ps) := by rw [hcells, hpreR]; simp
        have hne := (addr_ne_of_split hnd hsplit).2 f (by simp)
        rw [if_neg (fun h => hne h.symm)]
        exact hbackold P c _ hsplit
      · -- `c` is a cell of `post`
        cases R with
        | nil =>
          simp only [List.nil_append, List.cons.injEq] at hpostR
          rw [← hpostR.1, if_pos rfl, hP]
          simp
        | cons r R =>
          simp only [List.cons_append, List.cons.injEq] at hpostR
          have hsplit : cells = (pre ++ f :: R) ++ c :: Q := by
            rw [hcells, hpostR.1, hpostR.2]; simp
          have hne := (addr_ne_of_split hnd hsplit).1 f (by simp)
          rw [if_neg (fun h => hne h.symm), hbackold _ c Q hsplit, hP, ← hpostR.1]
          simp [List.getLast?_append, List.getLast?_cons_cons]
    · rw [hR.tail_eq, hcells]
      simp [List.getLast?_append, List.getLast?_cons_cons]

/-! ## The search of `Delete` is the search of `Insert` without the ranks -/

theorem deleteAdvance_of_insertAdvance (h : List Node) (score : Int) (obj : String) (j : Nat) :
    ∀ (fuel x : Nat) (rank : List Nat) (x1 : Nat) (rank1 : List Nat),
      insertAdvance h score obj j fuel x rank = some (x1, rank1) →
      deleteAdvance h score obj j fuel x = some x1 := by
  intro fuel
  induction fuel with
  | zero => intro x rank x1 rank1 hi; simp [insertAdvance] at hi
  | succ fuel ih =>
    intro x rank x1 rank1 hi
    unfold insertAdvance at hi
    unfold deleteAdvance
    cases hg : getLevel h x j with
    | none => simp [hg] at hi
    | some lv =>
      simp only [hg] at hi ⊢
      cases hf : lv.forward with
      | none =>
        simp only [hf, Option.some.injEq, Prod.mk.injEq] at hi ⊢
        exact hi.1
      | some f =>
        simp only [hf] at hi ⊢
        cases hn : h[f]? with
        | none => simp [hn] at hi
        | some nf =>
          simp only [hn] at hi ⊢
          by_cases hc : nf.Score < score ∨ (nf.Score = score ∧ stringsCompare nf.Obj obj < 0)
          · rw [if_pos hc] at hi ⊢
            cases hr : rank[j]? with
            | none => simp [hr] at hi
            | some r =>
              simp only [hr] at hi
              cases hsa : setArr rank j (u64add r lv.span) with
              | none => simp [hsa] at hi
              | some rank2 =>
                simp only [hsa] at hi
                exact ih f rank2 x1 rank1 hi
          · rw [if_neg hc] at hi ⊢
            simp only [Option.some.injEq, Prod.mk.injEq] at hi ⊢
            exact hi.1

theorem deleteSearch_of_insertSearch (h : List Node) (score : Int) (obj : String) (lvl : Nat) :
    ∀ (i x : Nat) (update : List (Option Nat)) (rank : List Nat)
      (update1 : List (Option Nat)) (rank1 : List Nat),
      insertSearch h score obj lvl i x update rank = some (update1, rank1) →
      ∃ x1, deleteSearch h score obj i x update = some (x1, update1) ∧
        (0 < i → update1[0]? = some (some x1)) ∧ (i = 0 → x1 = x) := by
  intro i
  induction i with
  | zero =>
    intro x update rank update1 rank1 hi
    simp only [insertSearch, Option.some.injEq, Prod.mk.injEq] at hi
    exact ⟨x, by simp [deleteSearch, hi.1], fun h => by omega, fun _ => rfl⟩
  | succ j ih =>
    intro x update rank update1 rank1 hi
    unfold insertSearch at hi
    unfold deleteSearch
    cases hc : insertCopyRank lvl j rank with
    | none => simp [hc] at hi
    | some rk1 =>
      simp only [hc] at hi
      cases ha : insertAdvance h score obj j h.length x rk1 with
      | none => simp [ha] at hi
      | some p =>
        obtain ⟨x2, rk2⟩ := p
        simp only [ha] at hi
        rw [deleteAdvance_of_insertAdvance h score obj j _ _ _ _ _ ha]
        simp only
        cases hs : setArr update j (some x2) with
        | none => simp [hs] at hi
        | some up2 =>
          simp only [hs] at hi ⊢
          obtain ⟨x1, hd, h0, hz⟩ := ih x2 up2 rk2 update1 rank1 hi
          refine ⟨x1, hd, fun _ => ?_, fun h => by omega⟩
          by_cases hj : 0 < j
          · exact h0 hj
          · have hj0 : j = 0 := by omega
            subst hj0
            have hx := hz rfl
            subst hx
            simp only [insertSearch, Option.some.injEq, Prod.mk.injEq] at hi
            obtain ⟨hlt, hset⟩ := setArr_spec hs
            rw [← hi.1, hset, List.getElem?_set_self hlt]

/-! ## The loop of `deleteNode` that unlinks the node -/

theorem deleteUnlink_spec (x : Nat) (update : List (Option Nat)) :
    ∀ (n i : Nat) (h : List Node),
      (∀ k, i ≤ k → k < i + n → ∃ u lu, update[k]? = some (some u) ∧ u ≠ x ∧
        getLevel h u k = some lu ∧ (lu.forward = some x → ∃ lx, getLevel h x k = some lx)) →
      ∃ h1, deleteUnlink x update n i h = some h1 ∧ h1.length = h.length ∧
        (∀ b, nodeInfo h1 b = nodeInfo h b) ∧ (∀ b, backwardAt h1 b = backwardAt h b) ∧
        (∀ b k, ¬ (i ≤ k ∧ k < i + n) → getLevel h1 b k = getLevel h b k) ∧
        (∀ k, i ≤ k → k < i + n → ∀ u lu, update[k]? = some (some u) →
          getLevel h u k = some lu →
          (lu.forward = some x → ∀ lx, getLevel h x k = some lx →
            getLevel h1 u k = some ⟨lx.forward, u64add lu.span (u64sub lx.span 1)⟩) ∧
          (lu.forward ≠ some x → getLevel h1 u k = some ⟨lu.forward, u64sub lu.span 1⟩) ∧
          ∀ b, b ≠ u → getLevel h1 b k = getLevel h b k) := by
  intro n
  induction n with
  | zero =>
    intro i h _
    exact ⟨h, rfl, rfl, fun _ => rfl, fun _ => rfl, fun _ _ _ => rfl,
      fun k h1 h2 => by omega⟩
  | succ n ih =>
    intro i h hpre
    obtain ⟨u, lu, hup, hux, hlu, hlxe⟩ := hpre i (Nat.le_refl _) (by omega)
    -- one iteration
    have hstep : ∃ h2, deleteUnlinkStep x update i h = some h2 ∧
        h2.length = h.length ∧ (∀ b, nodeInfo h2 b = nodeInfo h b) ∧
        (∀ b, backwardAt h2 b = backwardAt h b) ∧
        (∀ b k, (k ≠ i ∨ b ≠ u) → getLevel h2 b k = getLevel h b k) ∧
        (lu.forward = some x → ∀ lx, getLevel h x i = some lx →
            getLevel h2 u i = some ⟨lx.forward, u64add lu.span (u64sub lx.span 1)⟩) ∧
        (lu.forward ≠ some x → getLevel h2 u i = some ⟨lu.forward, u64sub lu.span 1⟩) := by
      by_cases hfx : lu.forward = some x
      · obtain ⟨lx, hlx⟩ := hlxe hfx
        obtain ⟨h1, hs1⟩ := setForward_some lx.forward hlu
        obtain ⟨hlen1, hinfo1, hback1, hl1⟩ := setForward_spec hs1
        have hu1 : getLevel h1 u i = some { lu with forward := lx.forward } := by
          rw [hl1, if_pos ⟨rfl, rfl⟩, hlu]; rfl
        have hx1 : getLevel h1 x i = some lx := by
          rw [hl1, if_neg (by simp [Ne.symm hux]), hlx]
        obtain ⟨h2, hs2⟩ := setSpan_some (u64add lu.span (u64sub lx.span 1)) hu1
        obtain ⟨hlen2, hinfo2, hback2, hl2⟩ := setSpan_spec hs2
        refine ⟨h2, ?_, by rw [hlen2, hlen1], fun b => by rw [hinfo2, hinfo1],
          fun b => by rw [hback2, hback1], ?_, ?_, fun h => absurd hfx h⟩
        · unfold deleteUnlinkStep
          rw [hup]
          simp only
          rw [hlu]
          simp only
          rw [if_pos hfx, hlx]
          simp only
          rw [hs1]
          simp only
          rw [hu1, hx1]
          simp only
          rw [hs2]
        · intro b k hbk
          rw [hl2, if_neg (by rintro ⟨rfl, rfl⟩; simp at hbk), hl1,
            if_neg (by rintro ⟨rfl, rfl⟩; simp at hbk)]
        · intro _ lx1 hlx1
          rw [hlx] at hlx1
          simp only [Option.some.injEq] at hlx1
          subst hlx1
          rw [hl2, if_pos ⟨rfl, rfl⟩, hu1]; rfl
      · obtain ⟨h1, hs1⟩ := setSpan_some (u64sub lu.span 1) hlu
        obtain ⟨hlen1, hinfo1, hback1, hl1⟩ := setSpan_spec hs1
        refine ⟨h1, ?_, hlen1, hinfo1, hback1, ?_, fun h => absurd h hfx, ?_⟩
        · unfold deleteUnlinkStep
          rw [hup]
          simp only
          rw [hlu]
          simp only
          rw [if_neg hfx, hs1]
        · intro b k hbk
          rw [hl1, if_neg (by rintro ⟨rfl, rfl⟩; simp at hbk)]
        · intro _
          rw [hl1, if_pos ⟨rfl, rfl⟩, hlu]; rfl
    obtain ⟨h2, hrun2, hlen2, hinfo2, hback2, hother, hyes, hno⟩ := hstep
    obtain ⟨h3, hrun, hlen3, hinfo3, hback3, hout3, hin3⟩ := ih (i + 1) h2 (by
      intro k hk1 hk2
      obtain ⟨u1, lu1, e1, e2, e3, e4⟩ := hpre k (by omega) (by omega)
      refine ⟨u1, lu1, e1, e2, by rw [hother u1 k (Or.inl (by omega))]; exact e3, ?_⟩
      intro hf
      obtain ⟨lx, hlx⟩ := e4 hf
      exact ⟨lx, by rw [hother x k (Or.inl (by omega))]; exact hlx⟩)
    refine ⟨h3, ?_, by rw [hlen3, hlen2], ?_, ?_, ?_, ?_⟩
    · unfold deleteUnlink
      rw [hrun2]
      exact hrun
    · intro b; rw [hinfo3, hinfo2]
    · intro b; rw [hback3, hback2]
    · intro b k hk
      rw [hout3 b k (by omega), hother b k (Or.inl (by omega))]
    · intro k hk1 hk2 u1 lu1 hup1 hlu1
      by_cases hki : k = i
      · subst hki
        rw [hup] at hup1
        simp only [Option.some.injEq] at hup1
        subst hup1
        rw [hlu] at hlu1
        simp only [Option.some.injEq] at hlu1
        subst hlu1
        refine ⟨?_, ?_, ?_⟩
        · intro hf lx hlx
          rw [hout3 u k (by omega)]
          exact hyes hf lx hlx
        · intro hf
          rw [hout3 u k (by omega)]
          exact hno hf
        · intro b hb
          rw [hout3 b k (by omega), hother b k (Or.inr hb)]
      · obtain ⟨e1, e2, e3⟩ := hin3 k (by omega) (by omega) u1 lu1 hup1
          (by rw [hother u1 k (Or.inl hki)]; exact hlu1)
        refine ⟨?_, e2, ?_⟩
        · intro hf lx hlx
          exact e1 hf lx (by rw [hother x k (Or.inl hki)]; exact hlx)
        · intro b hb
          rw [e3 b hb, hother b k (Or.inl hki)]

/-! ## The loop of `deleteNode` that lowers the list level -/

theorem deleteShrink_spec (h : List Node) :
    ∀ k : Nat, (∀ j, j < k → ∃ lv, getLevel h 0 j = some lv) →
      ∃ lvl, deleteShrink h (some 0) k = some lvl ∧ lvl ≤ k ∧ (1 ≤ k → 1 ≤ lvl) ∧
        (∀ j, lvl ≤ j → j < k → ∃ s, getLevel h 0 j = some ⟨none, s⟩) ∧
        (1 < lvl → ∃ a s, getLevel h 0 (lvl - 1) = some ⟨some a, s⟩) := by
  intro k
  induction k with
  | zero =>
    intro _
    exact ⟨0, rfl, Nat.le_refl _, fun h => by omega, fun j h1 h2 => by omega, fun h => by omega⟩
  | succ k ih =>
    intro hall
    unfold deleteShrink
    by_cases hk : k + 1 > 1
    · rw [if_pos hk]
      simp only
      obtain ⟨lv, hlv⟩ := hall k (by omega)
      rw [hlv]
      simp only
      by_cases hf : lv.forward = none
      · rw [if_pos hf]
        obtain ⟨lvl, hrun, hle, hpos, hnil, htop⟩ := ih (fun j hj => hall j (by omega))
        refine ⟨lvl, hrun, by omega, fun _ => hpos (by omega), ?_, htop⟩
        intro j hj1 hj2
        by_cases hjk : j = k
        · subst hjk
          exact ⟨lv.span, by rw [hlv, ← hf]⟩
        · exact hnil j hj1 (by omega)
      · rw [if_neg hf]
        refine ⟨k + 1, rfl, Nat.le_refl _, fun _ => by omega, fun j h1 h2 => by omega, ?_⟩
        intro _
        cases hfw : lv.forward with
        | none => exact absurd hfw hf
        | some a =>
          refine ⟨a, lv.span, ?_⟩
          simp only [Nat.add_sub_cancel]
          rw [hlv, ← hfw]
    · rw [if_neg hk]
      exact ⟨k + 1, rfl, Nat.le_refl _, fun _ => by omega, fun j h1 h2 => by omega,
        fun h => by omega⟩

/-! ## `deleteNode`: the links after the node is unlinked -/

theorem expLink_forward_mem {j : Nat} {cs : List Cell} {a : Nat}
    (h : (expLink j cs).forward = some a) : ∃ c ∈ cs, c.addr = a := by
  rcases expLink_cases j cs with ⟨h1, _⟩ | ⟨m1, c, m2, hcs, _, _, h1⟩
  · rw [h1] at h; cases h
  · rw [h1] at h
    simp only [Option.some.injEq] at h
    exact ⟨c, by rw [hcs]; simp, h⟩

theorem delete_links {h : List Node} {L : Nat} {cells pre rest : List Cell} {cx : Cell}
    (hS : Shape h L cells) (hcells : cells = pre ++ cx :: rest)
    {update : List (Option Nat)} {rank : List Nat}
    (hs : ∀ j, j < L → SearchAt (hdrCell :: pre) update rank j)
    (hlen : cells.length < U64) :
    ∃ h1, deleteUnlink cx.addr update L 0 h = some h1 ∧ h1.length = h.length ∧
      (∀ b, nodeInfo h1 b = nodeInfo h b) ∧ (∀ b, backwardAt h1 b = backwardAt h b) ∧
      (∀ P c Q, hdrCell :: (pre ++ rest) = P ++ c :: Q →
        ∀ j, j < L → j < c.height → getLevel h1 c.addr j = some (expLink j Q)) ∧
      (∀ b j, L ≤ j → getLevel h1 b j = getLevel h b j) ∧
      (∀ j, getLevel h1 cx.addr j = getLevel h cx.addr j) := by
  have hnd := hS.full_nodup
  have hfullx : hdrCell :: cells = (hdrCell :: pre) ++ cx :: rest := by rw [hcells]; simp
  have hxne := addr_ne_of_split hnd hfullx
  -- the facts of one level
  have hfact : ∀ k, k < L → ∃ A1 u mid, hdrCell :: pre = A1 ++ u :: mid ∧ k < u.height ∧
      (∀ c ∈ mid, c.height ≤ k) ∧ update[k]? = some (some u.addr) ∧ u.addr ≠ cx.addr ∧
      hdrCell :: cells = A1 ++ u :: (mid ++ cx :: rest) ∧
      getLevel h u.addr k = some (expLink k (mid ++ cx :: rest)) ∧
      (k < cx.height → getLevel h cx.addr k = some (expLink k rest) ∧
        expLink k (mid ++ cx :: rest) = ⟨some cx.addr, mid.length + 1⟩) ∧
      (cx.height ≤ k → (expLink k (mid ++ cx :: rest)).forward ≠ some cx.addr ∧
        expLink k (mid ++ cx :: rest) =
          ⟨(expLink k rest).forward, (expLink k rest).span + 1 + mid.length⟩) := by
    intro k hk
    obtain ⟨A1, u, mid, hA, hu, hlow, hupd, _, _, hfull, hlk, _⟩ :=
      search_fact hS hcells hk (hs k hk)
    refine ⟨A1, u, mid, hA, hu, hlow, hupd, hxne.1 u (by rw [hA]; simp), hfull, hlk, ?_, ?_⟩
    · intro hkx
      exact ⟨hS.full_link hfullx hk hkx, expLink_append_hit rest hlow hkx⟩
    · intro hkx
      have he : expLink k (mid ++ cx :: rest) =
          ⟨(expLink k rest).forward, (expLink k rest).span + 1 + mid.length⟩ := by
        rw [expLink_append_low _ hlow, expLink_cons_low rest hkx]
      refine ⟨?_, he⟩
      rw [he]
      intro hf
      obtain ⟨c, hc, hca⟩ := expLink_forward_mem hf
      exact hxne.2 c hc hca
  obtain ⟨h1, hrun, hlen1, hinfo1, hback1, hout1, hin1⟩ :=
    deleteUnlink_spec cx.addr update L 0 h (by
      intro k _ hk
      obtain ⟨A1, u, mid, _, _, _, hupd, hne, _, hlk, hyes, hno⟩ := hfact k (by omega)
      refine ⟨u.addr, _, hupd, hne, hlk, ?_⟩
      intro hf
      by_cases hkx : k < cx.height
      · exact ⟨_, (hyes hkx).1⟩
      · exact absurd hf (hno (by omega)).1)
  simp only [Nat.zero_add, Nat.zero_le, true_and, forall_true_left] at hout1 hin1
  refine ⟨h1, hrun, hlen1, hinfo1, hback1, ?_, fun b j hj => hout1 b j (by omega), ?_⟩
  · intro P c Q hPQ j hj hcj
    obtain ⟨A1, u, mid, hA, hu, hlow, hupd, hne, hfull, hlk, hyes, hno⟩ := hfact j hj
    obtain ⟨e1, e2, e3⟩ := hin1 j hj u.addr _ hupd hlk
    have hsple := expLink_span_le j rest
    have hlenc : cells.length = pre.length + (rest.length + 1) := by rw [hcells]; simp
    have hlenA : pre.length = A1.length + mid.length := by
      have := congrArg List.length hA
      simp at this
      omega
    have hfull2 : P ++ c :: Q = A1 ++ u :: (mid ++ rest) := by
      rw [← hPQ, ← List.cons_append, hA]; simp
    rcases split_cases hfull2 with ⟨hP, hc, hQ⟩ | ⟨R, hAR, hQ⟩ | ⟨R, hPR, hM⟩
    · -- `c` is `update[j]`
      subst hc
      rw [hQ, expLink_append_low rest hlow]
      by_cases hjx : j < cx.height
      · obtain ⟨hx, he⟩ := hyes hjx
        rw [e1 (by rw [he]) _ hx, he]
        simp only
        rw [u64add_u64sub_one (by omega) (by omega)]
        simp only [Option.some.injEq, Level.mk.injEq, true_and]
        omega
      · obtain ⟨hx, he⟩ := hno (by omega)
        rw [e2 hx, he]
        simp only
        rw [u64sub_eq (by omega) (by omega)]
        simp only [Option.some.injEq, Level.mk.injEq, true_and]
        omega
    · -- `c` comes before `update[j]`
      have hsplitc : hdrCell :: cells = P ++ c :: (R ++ u :: (mid ++ cx :: rest)) := by
        rw [hfull, hAR]; simp
      have hcu : c.addr ≠ u.addr := by
        have := (addr_ne_of_split hnd hsplitc).2 u (by simp)
        exact fun h => this h.symm
      rw [e3 c.addr hcu, hS.full_link hsplitc hj hcj, hQ]
      exact congrArg some (expLink_congr_hit hu _ _ R)
    · -- `c` comes after `update[j]`
      rcases List.append_eq_append_iff.mp hM with ⟨R1, hR, hrest⟩ | ⟨R1, hmid, hcQ⟩
      · -- `R = mid ++ R1`, `rest = R1 ++ c :: Q`
        have hsplitc : hdrCell :: cells = (A1 ++ u :: (mid ++ cx :: R1)) ++ c :: Q := by
          rw [hfull, hrest]; simp
        have hcu : c.addr ≠ u.addr := by
          have := (addr_ne_of_split hnd hsplitc).1 u (by simp)
          exact fun h => this h.symm
        rw [e3 c.addr hcu, hS.full_link hsplitc hj hcj]
      · -- `c` would be a cell of `mid`
        cases R1 with
        | nil =>
          simp only [List.nil_append] at hcQ
          have hsplitc : hdrCell :: cells = (A1 ++ u :: (mid ++ [cx])) ++ c :: Q := by
            rw [hfull, hcQ]; simp
          have hcu : c.addr ≠ u.addr := by
            have := (addr_ne_of_split hnd hsplitc).1 u (by simp)
            exact fun h => this h.symm
          rw [e3 c.addr hcu, hS.full_link hsplitc hj hcj]
        | cons r R1 =>
          simp only [List.cons_append, List.cons.injEq] at hcQ
          have := hlow c (by rw [hmid, hcQ.1]; simp)
          omega
  · intro j
    by_cases hj : j < L
    · obtain ⟨A1, u, mid, _, _, _, hupd, hne, _, hlk, _, _⟩ := hfact j hj
      obtain ⟨_, _, e3⟩ := hin1 j hj u.addr _ hupd hlk
      exact e3 cx.addr (fun h => hne h.symm)
    · exact hout1 _ j hj

/-! ## `Delete` keeps the representation invariant -/

theorem deleteRelink_none {h : List Node} {x : Nat} {lx : Level} {b : Option Nat}
    (hl : getLevel h x 0 = some lx) (hb : backwardAt h x = some b) (tail : Option Nat)
    (hf : lx.forward = none) : deleteRelink h tail x = some (h, b) := by
  unfold getLevel at hl
  unfold backwardAt at hb
  unfold deleteRelink
  cases hn : h[x]? with
  | none => simp [hn] at hl
  | some nx =>
    simp only [hn, Option.some.injEq] at hl hb
    simp only [hl, hb, hf]

theorem deleteRelink_some {h h1 : List Node} {x f : Nat} {lx : Level} {b : Option Nat}
    (hl : getLevel h x 0 = some lx) (hb : backwardAt h x = some b) (tail : Option Nat)
    (hf : lx.forward = some f) (hs : setBackward h f b = some h1) :
    deleteRelink h tail x = some (h1, tail) := by
  unfold getLevel at hl
  unfold backwardAt at hb
  unfold deleteRelink
  cases hn : h[x]? with
  | none => simp [hn] at hl
  | some nx =>
    simp only [hn, Option.some.injEq] at hl hb
    simp only [hl, hb, hf, hs]

theorem key_eq_iff {c : Cell} {score : Int} {obj : String} :
    (c.score = score ∧ stringsCompare c.obj obj = 0) ↔ c.key = (score, obj) := by
  rw [stringsCompare_eq_zero]
  unfold Cell.key
  simp

theorem Rep.delete {l : SkipList} {cells : List Cell} (hR : Rep l cells)
    (score : Int) (obj : String) :
    ∃ pre post, cells = pre ++ post ∧ (∀ c ∈ pre, pairLt c.key (score, obj)) ∧
      (∀ c ∈ post, ¬ pairLt c.key (score, obj)) ∧
      ((∀ cx rest, post = cx :: rest → cx.key ≠ (score, obj)) →
        Delete l score obj = some (l, DeleteResult.ErrNodeNotFound)) ∧
      (∀ cx rest, post = cx :: rest → cx.key = (score, obj) →
        ∃ l1, Delete l score obj = some (l1, DeleteResult.ok) ∧ Rep l1 (pre ++ rest)) := by
  obtain ⟨pre, post, hcells, hpre, hpost⟩ := sorted_split cells hR.sorted (score, obj)
  refine ⟨pre, post, hcells, hpre, hpost, ?_⟩
  obtain ⟨update, rank, hsearch, _, _, hs⟩ := hR.insertSearch score obj hcells hpre hpost
  obtain ⟨x0, hdsearch, hx0, _⟩ := deleteSearch_of_insertSearch _ _ _ _ _ _ _ _ _ _ hsearch
  have hheights : ∀ c ∈ cells, 1 ≤ c.height := fun c hc => (hR.height_ok c hc).1
  have hLpos := hR.level_pos
  obtain ⟨_, A0, u0, hA0, hup0⟩ :=
    search_fact_zero hR.shape hcells hheights (by omega) (hs 0 (by omega))
  have hx0u : x0 = u0.addr := by
    have := hx0 (by omega)
    rw [hup0] at this
    simp only [Option.some.injEq] at this
    exact this.symm
  subst hx0u
  have hlk0 : getLevel l.heap u0.addr 0 = some (expLink 0 post) := by
    have hfull : hdrCell :: cells = A0 ++ u0 :: post := by
      rw [hcells, ← List.cons_append, hA0]; simp
    have hu0h : 0 < u0.height := by
      rcases getLast?_of_full hA0 with ⟨_, hu⟩ | ⟨_, _, hmem⟩
      · rw [hu]; decide
      · exact hheights u0 (by rw [hcells]; simp [hmem])
    exact hR.shape.full_link hfull (by omega) hu0h
  constructor
  · -- the pair is not stored
    intro hne
    unfold Delete
    rw [hR.header]
    simp only
    rw [hdsearch]
    simp only
    rw [hlk0]
    simp only
    cases hpc : post with
    | nil => simp [expLink, firstAbove]
    | cons cx rest =>
      have hcx : cx ∈ cells := by rw [hcells, hpc]; simp
      rw [expLink_cons_hit rest (hheights cx hcx)]
      simp only
      obtain ⟨nx, hnx, hobj, hsc, _⟩ := hR.readCell hcx
      rw [hnx]
      simp only
      have hcond : ¬ (nx.Score = score ∧ stringsCompare nx.Obj obj = 0) := by
        rw [hobj, hsc, key_eq_iff]
        exact hne cx rest hpc
      rw [if_neg hcond]
  · -- the pair is stored
    intro cx rest hpc hkey
    subst hpc
    have hcx : cx ∈ cells := by rw [hcells]; simp
    have hnd := hR.shape.addr_nodup
    have haddr := hR.shape.addr_ok
    obtain ⟨nx, hnx, hobj, hsc, _⟩ := hR.readCell hcx
    have hcond : nx.Score = score ∧ stringsCompare nx.Obj obj = 0 := by
      rw [hobj, hsc, key_eq_iff]
      exact hkey
    obtain ⟨h1, hunlink, hlen1, hinfo1, hback1, hlink1, htop1, hx1⟩ :=
      delete_links hR.shape hcells hs hR.length_lt
    have hlenc : cells.length = pre.length + (rest.length + 1) := by rw [hcells]; simp
    -- the node `x` after the unlinking
    have hxl : getLevel h1 cx.addr 0 = some (expLink 0 rest) := by
      rw [hx1]
      exact hR.shape.link pre cx rest hcells 0 (hheights cx hcx)
    have hxb : backwardAt h1 cx.addr = some (pre.getLast?.map Cell.addr) := by
      rw [hback1]
      exact hR.shape.back pre cx rest hcells
    have hbackold : ∀ P c Q, cells = P ++ c :: Q →
        backwardAt h1 c.addr = some (P.getLast?.map Cell.addr) := by
      intro P c Q hPQ
      rw [hback1]
      exact hR.shape.back P c Q hPQ
    have hmem : ∀ c ∈ pre ++ rest, c ∈ cells := by
      intro c hc
      rw [hcells]
      simp only [List.mem_append, List.mem_cons] at hc ⊢
      tauto
    -- the invariant for the final heap
    have hfinal : ∀ (hf : List Node) (tl : Option Nat), hf.length = h1.length →
        (∀ b, nodeInfo hf b = nodeInfo h1 b) → (∀ b k, getLevel hf b k = getLevel h1 b k) →
        (∀ P c Q, pre ++ rest = P ++ c :: Q →
          backwardAt hf c.addr = some (P.getLast?.map Cell.addr)) →
        tl = (pre ++ rest).getLast?.map Cell.addr →
        ∃ lvl, deleteShrink hf l.header l.level = some lvl ∧
          Rep { heap := hf, Length := u64sub l.Length 1, header := l.header, tail := tl,
                level := lvl } (pre ++ rest) := by
      intro hf tl hlenf hinfof hlinkf hbackf htl
      have hhdr : ∀ j, j < l.level → getLevel hf 0 j = some (expLink j (pre ++ rest)) := by
        intro j hj
        rw [hlinkf]
        exact hlink1 [] hdrCell _ rfl j hj (by
          show j < MaxLevel
          have := hR.level_le
          omega)
      obtain ⟨lvl, hshrink, hle, hpos, hnil, htop⟩ := deleteShrink_spec hf l.level
        (fun j hj => ⟨_, hhdr j hj⟩)
      refine ⟨lvl, by rw [hR.header]; exact hshrink, ?_⟩
      have hlow : ∀ c ∈ pre ++ rest, c.height ≤ lvl := by
        intro c hc
        by_contra hcon
        have hcl := (hR.height_ok c (hmem c hc)).2
        obtain ⟨s, hs1⟩ := hnil (c.height - 1) (by omega) (by omega)
        rw [hhdr _ (by omega)] at hs1
        simp only [Option.some.injEq] at hs1
        rcases expLink_cases (c.height - 1) (pre ++ rest) with ⟨_, hall⟩ | ⟨_, _, _, _, _, _, he⟩
        · have := hall c hc
          have := (hR.height_ok c (hmem c hc)).1
          omega
        · rw [he] at hs1
          simp at hs1
      have hsub : (pre ++ rest).Sublist (pre ++ cx :: rest) :=
        List.Sublist.append_left (List.sublist_cons_self cx rest) pre
      refine ⟨⟨?_, ?_, ?_, ?_, ?_, ?_, ?_, ?_, hbackf⟩, hR.header, hpos hLpos,
        (by show lvl ≤ MaxLevel; have := hR.level_le; omega), ?_, ?_, ?_, htl, ?_, ?_⟩
      · rw [hlenf, hlen1]
        have := hR.shape.heap_gt
        simp
        omega
      · rw [hcells] at hnd
        exact hnd.sublist (hsub.map _)
      · intro c hc
        rw [hlenf, hlen1]
        exact haddr c (hmem c hc)
      · rw [hinfof, hinfo1]; exact hR.shape.hdr_info
      · intro j hj
        have hj1 : j < lvl := hj
        exact hhdr j (by omega)
      · intro j hj hjM
        have hj1 : lvl ≤ j := hj
        by_cases hjl : j < l.level
        · exact hnil j hj1 hjl
        · rw [hlinkf, htop1 0 j (by omega)]
          exact hR.shape.hdr_top j (by omega) hjM
      · intro c hc
        rw [hinfof, hinfo1]
        exact hR.shape.info c (hmem c hc)
      · intro P c Q hPQ j hj
        rw [hlinkf]
        have hcl := (hR.height_ok c (hmem c (by rw [hPQ]; simp))).2
        exact hlink1 (hdrCell :: P) c Q (by rw [hPQ]; simp) j (by omega) hj
      · show u64sub l.Length 1 = _
        rw [hR.length_eq, u64sub_eq hR.length_lt (by omega)]
        simp
        omega
      · have := hR.length_lt
        simp
        omega
      · intro c hc
        exact ⟨(hR.height_ok c (hmem c hc)).1, hlow c hc⟩
      · have hsrt := hR.sorted
        rw [hcells] at hsrt
        exact hsrt.sublist (hsub.map _)
      · intro hl0
        have hl1 : 1 < lvl := hl0
        obtain ⟨a, s, hget⟩ := htop hl1
        rw [hhdr _ (by omega)] at hget
        simp only [Option.some.injEq] at hget
        rcases expLink_cases (lvl - 1) (pre ++ rest) with ⟨he, _⟩ | ⟨m1, c, m2, hsplit, hch, _, _⟩
        · rw [he] at hget; simp at hget
        · have hc : c ∈ pre ++ rest := by rw [hsplit]; simp
          refine ⟨c, hc, ?_⟩
          have := hlow c hc
          show c.height = lvl
          omega
    cases hrc : rest with
    | nil =>
      subst hrc
      obtain ⟨lvl, hshrink, hRep⟩ := hfinal h1 (pre.getLast?.map Cell.addr) rfl
        (fun _ => rfl) (fun _ _ => rfl) (by
          intro P c Q hPQ
          simp only [List.append_nil] at hPQ
          have hsplit : cells = P ++ c :: (Q ++ [cx]) := by rw [hcells, hPQ]; simp
          exact hbackold P c _ hsplit) (by simp)
      refine ⟨_, ?_, hRep⟩
      unfold Delete
      rw [hR.header]
      simp only
      rw [hdsearch]
      simp only
      rw [hlk0, expLink_cons_hit [] (hheights cx hcx)]
      simp only
      rw [hnx]
      simp only
      rw [if_pos hcond]
      unfold deleteNode
      rw [hunlink]
      simp only
      rw [deleteRelink_none hxl hxb _ (by simp [expLink, firstAbove])]
      simp only
      rw [hshrink]
      simp only [hR.header]
    | cons f ps =>
      subst hrc
      have hf := haddr f (by rw [hcells]; simp)
      have hfh := hheights f (by rw [hcells]; simp)
      obtain ⟨h2, hs2⟩ := setBackward_some (h := h1) (a := f.addr) (pre.getLast?.map Cell.addr)
        (by omega)
      obtain ⟨e1, e2, e3, e4⟩ := setBackward_spec hs2
      obtain ⟨lvl, hshrink, hRep⟩ := hfinal h2 l.tail e1 e2 e4 (by
          intro P c Q hPQ
          rw [e3]
          rcases split_cases hPQ.symm with ⟨hP, hc, _⟩ | ⟨R, hpreR, hQ⟩ | ⟨R, hP, hpostR⟩
          · rw [hc, if_pos rfl, hP]
          · have hsplit : cells = P ++ c :: (R ++ cx :: f :: ps) := by
              rw [hcells, hpreR]; simp
            have hne := (addr_ne_of_split hnd hsplit).2 f (by simp)
            rw [if_neg (fun h => hne h.symm)]
            exact hbackold P c _ hsplit
          · have hsplit : cells = (pre ++ cx :: f :: R) ++ c :: Q := by
              rw [hcells, hpostR]; simp
            have hne := (addr_ne_of_split hnd hsplit).1 f (by simp)
            rw [if_neg (fun h => hne h.symm), hbackold _ c Q hsplit, hP]
            simp [List.getLast?_append, List.getLast?_cons_cons]) (by
          rw [hR.tail_eq, hcells]
          simp [List.getLast?_append, List.getLast?_cons_cons])
      refine ⟨_, ?_, hRep⟩
      unfold Delete
      rw [hR.header]
      simp only
      rw [hdsearch]
      simp only
      rw [hlk0, expLink_cons_hit _ (hheights cx hcx)]
      simp only
      rw [hnx]
      simp only
      rw [if_pos hcond]
      unfold deleteNode
      rw [hunlink]
      simp only
      rw [deleteRelink_some hxl hxb _ (by rw [expLink_cons_hit _ hfh]) hs2]
      simp only
      rw [hshrink]
      simp only [hR.header]

/-! ## Every reachable list is represented -/

theorem rep_Create : Rep Create [] := by
  have hinfo : nodeInfo Create.heap 0 = some ("", 0, MaxLevel) := by
    simp [nodeInfo, Create]
  have hlev : ∀ j, j < MaxLevel → getLevel Create.heap 0 j = some ⟨none, 0⟩ := by
    intro j hj
    simp [getLevel, Create, List.getElem?_replicate, hj]
  refine ⟨⟨by simp [Create], by simp, by simp, hinfo, ?_, ?_, by simp, ?_, ?_⟩, rfl,
    by simp [Create], by simp [Create, MaxLevel], rfl, by simp [U64], by simp, rfl, by simp,
    by simp [Create]⟩
  · intro j hj
    have hj1 : j < 1 := hj
    rw [hlev j (by unfold MaxLevel; omega)]
    rfl
  · intro j _ hjM
    exact ⟨0, hlev j hjM⟩
  · intro P c Q h
    simp at h
  · intro P c Q h
    simp at h

theorem Reachable.rep {l : SkipList} (h : Reachable l) : ∃ cells, Rep l cells := by
  induction h with
  | create => exact ⟨[], rep_Create⟩
  | insert score obj level _ h1 h2 hroom hins ih =>
    obtain ⟨cells, hR⟩ := ih
    obtain ⟨l1, pre, post, hrun, _, _, _, hR1⟩ :=
      hR.insert score obj h1 h2 (by rw [← hR.length_eq]; exact hroom)
    rw [hrun] at hins
    simp only [Option.some.injEq, Prod.mk.injEq] at hins
    rw [← hins.1]
    exact ⟨_, hR1⟩
  | delete score obj _ hdel ih =>
    obtain ⟨cells, hR⟩ := ih
    obtain ⟨pre, post, hcells, _, _, hno, hyes⟩ := hR.delete score obj
    cases hp : post with
    | nil =>
      rw [hno (by intro cx rest h; rw [hp] at h; cases h)] at hdel
      simp only [Option.some.injEq, Prod.mk.injEq] at hdel
      rw [← hdel.1]
      exact ⟨cells, hR⟩
    | cons cx rest =>
      by_cases hk : cx.key = (score, obj)
      · obtain ⟨l2, hrun, hR2⟩ := hyes cx rest hp hk
        rw [hrun] at hdel
        simp only [Option.some.injEq, Prod.mk.injEq] at hdel
        rw [← hdel.1]
        exact ⟨_, hR2⟩
      · rw [hno (by
          intro cx1 rest1 h
          rw [hp] at h
          simp only [List.cons.injEq] at h
          rw [← h.1]; exact hk)] at hdel
        simp only [Option.some.injEq, Prod.mk.injEq] at hdel
        rw [← hdel.1]
        exact ⟨cells, hR⟩

/-! ## The level-0 sequence of a represented list -/

theorem expLink_zero_forward {cs : List Cell} (h : ∀ c ∈ cs, 1 ≤ c.height) :
    (expLink 0 cs).forward = cs.head?.map Cell.addr := by
  cases cs with
  | nil => rfl
  | cons c cs =>
    rw [expLink_cons_hit cs (h c (List.mem_cons_self _ _))]
    rfl

theorem chainPairs_spec {h : List Node} {L : Nat} {cells : List Cell} (hS : Shape h L cells)
    (hheights : ∀ c ∈ cells, 1 ≤ c.height) :
    ∀ (Q P : List Cell) (fuel : Nat), cells = P ++ Q → Q.length ≤ fuel →
      chainPairs h fuel (Q.head?.map Cell.addr) = some (Q.map Cell.key) := by
  intro Q
  induction Q with
  | nil =>
    intro P fuel _ _
    cases fuel <;> rfl
  | cons c Q ih =>
    intro P fuel hPQ hfuel
    cases fuel with
    | zero => simp at hfuel
    | succ fuel =>
      have hc : c ∈ cells := by rw [hPQ]; simp
      obtain ⟨n, hn, hobj, hsc, _⟩ := hS.read hc
      have hlk := hS.link P c Q hPQ 0 (hheights c hc)
      unfold getLevel at hlk
      rw [hn] at hlk
      simp only at hlk
      have hfw : (expLink 0 Q).forward = Q.head?.map Cell.addr :=
        expLink_zero_forward (fun c1 hc1 => hheights c1 (by rw [hPQ]; simp [hc1]))
      simp only [List.head?_cons, Option.map_some', chainPairs, hn, hlk, hfw]
      rw [ih (P ++ [c]) fuel (by rw [hPQ]; simp) (by simp at hfuel; omega)]
      simp [Cell.key, hobj, hsc]

theorem Rep.level0Pairs {l : SkipList} {cells : List Cell} (hR : Rep l cells) :
    level0Pairs l = some (cells.map Cell.key) := by
  have hheights : ∀ c ∈ cells, 1 ≤ c.height := fun c hc => (hR.height_ok c hc).1
  unfold skiplist.level0Pairs
  rw [hR.header]
  simp only
  rw [hR.shape.hdr_link 0 hR.level_pos]
  simp only
  rw [expLink_zero_forward hheights]
  exact chainPairs_spec hR.shape hheights cells [] _ rfl (by have := hR.shape.heap_gt; omega)

/-! ## `GetElementByRank` -/

theorem getElementAdvance_spec {h : List Node} {L : Nat} {cells : List Cell}
    (hS : Shape h L cells) {j : Nat} (hj : j < L) :
    ∀ (fuel : Nat) (A1 : List Cell) (c : Cell) (rest : List Cell) (r : Nat),
      hdrCell :: cells = A1 ++ c :: rest → j < c.height → rest.length < fuel → r < U64 →
      ∃ A2 u rest2, hdrCell :: cells = A2 ++ u :: rest2 ∧ j < u.height ∧
        A1.length ≤ A2.length ∧ A2.length ≤ A1.length + r ∧
        getElementAdvance h j fuel c.addr r = some (u.addr, A1.length + r - A2.length) ∧
        (∀ m1 c1 m2, rest2 = m1 ++ c1 :: m2 → j < c1.height →
          A1.length + r < A2.length + 1 + m1.length) := by
  intro fuel
  induction fuel with
  | zero => intro A1 c rest r _ _ hf; omega
  | succ fuel ih =>
    intro A1 c rest r hsplit hc hfuel hr
    have hlink := hS.full_link hsplit hj hc
    unfold getElementAdvance
    rw [hlink]
    simp only
    rcases expLink_cases j rest with ⟨he, hlow⟩ | ⟨m1, c1, m2, hrest, hc1, hm1, he⟩
    · refine ⟨A1, c, rest, hsplit, hc, Nat.le_refl _, by omega, ?_, ?_⟩
      · rw [he]
        simp
      · intro n1 d1 n2 hr2 hd1
        have := hlow d1 (by rw [hr2]; simp)
        omega
    · rw [he]
      simp only
      by_cases hge : r ≥ m1.length + 1
      · rw [if_pos hge, u64sub_eq hr hge]
        obtain ⟨A2, u, rest2, hs2, hu, hle1, hle2, hrun, hstop⟩ :=
          ih (A1 ++ c :: m1) c1 m2 (r - (m1.length + 1)) (by rw [hsplit, hrest]; simp) hc1
            (by rw [hrest] at hfuel; simp at hfuel; omega) (by omega)
        simp only [List.length_append, List.length_cons] at hle1 hle2 hrun hstop
        refine ⟨A2, u, rest2, hs2, hu, by omega, by omega, ?_, ?_⟩
        · rw [hrun]
          simp only [Option.some.injEq, Prod.mk.injEq, true_and]
          omega
        · intro n1 d1 n2 hr2 hd1
          have := hstop n1 d1 n2 hr2 hd1
          omega
      · rw [if_neg hge]
        refine ⟨A1, c, rest, hsplit, hc, Nat.le_refl _, by omega, by simp, ?_⟩
        intro n1 d1 n2 hr2 hd1
        rw [hrest] at hr2
        rcases split_cases hr2 with ⟨hP, _, _⟩ | ⟨R, hn1, _⟩ | ⟨R, hm, _⟩
        · rw [← hP]; omega
        · rw [hn1]; simp; omega
        · have := hm1 d1 (by rw [hm]; simp)
          omega

theorem getElementLoop_spec {l : SkipList} {cells : List Cell} (hR : Rep l cells)
    (k : Nat) (hk : k < U64) :
    ∀ (i : Nat) (A1 : List Cell) (c : Cell) (rest : List Cell) (r : Nat),
      i ≤ l.level → hdrCell :: cells = A1 ++ c :: rest → i ≤ c.height → A1.length + r = k →
      ∃ res, getElementLoop l.heap i (some c.addr) r = some res ∧
        (cells.length < k → res = none) ∧
        (k ≤ cells.length → 0 < i →
          ∃ B t T, hdrCell :: cells = B ++ t :: T ∧ B.length = k ∧ res = some t.addr) := by
  intro i
  induction i with
  | zero =>
    intro A1 c rest r _ _ _ _
    exact ⟨none, rfl, fun _ => rfl, fun _ h => by omega⟩
  | succ j ih =>
    intro A1 c rest r hi hsplit hc hsum
    have hlen := full_split_length hsplit
    have hgt := hR.shape.heap_gt
    obtain ⟨A2, u, rest2, hs2, hu, hle1, hle2, hrun, hstop⟩ :=
      getElementAdvance_spec hR.shape (by omega : j < l.level) l.heap.length A1 c rest r hsplit
        (by omega) (by omega) (by omega)
    have hlen2 := full_split_length hs2
    unfold getElementLoop
    simp only
    rw [hrun]
    simp only
    by_cases hz : A1.length + r - A2.length = 0
    · rw [if_pos hz]
      refine ⟨some u.addr, rfl, fun h => by omega, fun _ _ => ⟨A2, u, rest2, hs2, by omega, rfl⟩⟩
    · rw [if_neg hz]
      obtain ⟨res, hres, hnone, hsome⟩ := ih A2 u rest2 (A1.length + r - A2.length) (by omega)
        hs2 (by omega) (by omega)
      refine ⟨res, hres, hnone, ?_⟩
      intro hkn _
      by_cases hj0 : 0 < j
      · exact hsome hkn hj0
      · have hj00 : j = 0 := by omega
        subst hj00
        cases rest2 with
        | nil => simp at hlen2; omega
        | cons c1 m2 =>
          have hc1 := (hR.height_ok c1 (mem_of_full_split hs2 c1 (by simp))).1
          have := hstop [] c1 m2 rfl (by omega)
          simp at this
          omega

theorem Rep.getElementByRank {l : SkipList} {cells : List Cell} (hR : Rep l cells)
    {k : Nat} (hk : k < U64) :
    ∃ res, GetElementByRank l k = some res ∧
      (cells.length < k → res = none) ∧
      (k ≤ cells.length →
        ∃ B t T, hdrCell :: cells = B ++ t :: T ∧ B.length = k ∧ res = some t.addr) := by
  obtain ⟨res, hres, hnone, hsome⟩ := getElementLoop_spec hR k hk l.level [] hdrCell cells k
    (Nat.le_refl _) rfl hR.level_le (by simp)
  refine ⟨res, ?_, hnone, fun h => hsome h hR.level_pos⟩
  unfold GetElementByRank
  rw [if_neg (by omega), hR.header]
  exact hres

/-! ## `GetRank` -/

theorem pairLt_of_lt_of_le {k a b : Int × String} (hka : pairLt k a) (hab : pairLe a b) :
    pairLt k b := by
  rw [pairLe_iff] at hab
  rw [pairLt_iff] at hka ⊢
  exact lt_of_lt_of_le hka hab

theorem sorted_split_le (cells : List Cell) (hs : (cells.map Cell.key).Pairwise pairLe)
    (k : Int × String) :
    ∃ pre post, cells = pre ++ post ∧ (∀ c ∈ pre, pairLe c.key k) ∧
      (∀ c ∈ post, pairLt k c.key) := by
  induction cells with
  | nil => exact ⟨[], [], rfl, by simp, by simp⟩
  | cons c cs ih =>
    rw [List.map_cons, List.pairwise_cons] at hs
    by_cases hc : pairLe c.key k
    · obtain ⟨pre, post, hcs, hpre, hpost⟩ := ih hs.2
      refine ⟨c :: pre, post, by rw [hcs]; rfl, ?_, hpost⟩
      intro c1 hc1
      rcases List.mem_cons.mp hc1 with rfl | h1
      · exact hc
      · exact hpre c1 h1
    · have hlt : pairLt k c.key := by
        unfold pairLe at hc
        exact not_not.mp hc
      refine ⟨[], c :: cs, rfl, by simp, ?_⟩
      intro c1 hc1
      rcases List.mem_cons.mp hc1 with rfl | h1
      · exact hlt
      · exact pairLt_of_lt_of_le hlt (hs.1 c1.key (List.mem_map_of_mem _ h1))

theorem getRank_cond_iff {c : Cell} {score : Int} {obj : String} :
    (c.score < score ∨ (c.score = score ∧ stringsCompare c.obj obj ≤ 0)) ↔
      pairLe c.key (score, obj) := by
  rw [pairLe_iff, Prod.Lex.le_iff, stringsCompare_le_zero]
  rfl

theorem pairLe_score {c : Cell} {score : Int} {obj : String}
    (h : pairLe c.key (score, obj)) : c.score ≤ score := by
  rw [← getRank_cond_iff] at h
  rcases h with h | ⟨h, _⟩
  · exact le_of_lt h
  · exact le_of_eq h

theorem Shape.full_info {h : List Node} {L : Nat} {cells : List Cell} (hS : Shape h L cells)
    {c : Cell} (hc : c ∈ hdrCell :: cells) :
    ∃ n, h[c.addr]? = some n ∧ n.Obj = c.obj ∧ n.Score = c.score := by
  rcases List.mem_cons.mp hc with rfl | h1
  · obtain ⟨n, hn, ho, hs, _⟩ := nodeInfo_read hS.hdr_info
    exact ⟨n, hn, ho, hs⟩
  · obtain ⟨n, hn, ho, hs, _⟩ := hS.read h1
    exact ⟨n, hn, ho, hs⟩

theorem getRankAdvance_spec {l : SkipList} {cells : List Cell} (hR : Rep l cells)
    {score : Int} {obj : String} {j : Nat} (hj : j < l.level) :
    ∀ (fuel : Nat) (A1 : List Cell) (c : Cell) (mid post : List Cell),
      hdrCell :: cells = A1 ++ c :: (mid ++ post) → j < c.height →
      (∀ c1 ∈ mid, pairLe c1.key (score, obj)) →
      (∀ c1 ∈ post, pairLt (score, obj) c1.key) →
      mid.length < fuel →
      ∃ A2 u mid2, A1 ++ c :: mid = A2 ++ u :: mid2 ∧ j < u.height ∧
        (∀ c1 ∈ mid2, c1.height ≤ j) ∧
        getRankAdvance l.heap score obj j fuel c.addr A1.length = some (u.addr, A2.length) := by
  intro fuel
  induction fuel with
  | zero => intro A1 c mid post _ _ _ _ hf; omega
  | succ fuel ih =>
    intro A1 c mid post hsplit hc hmid hpost hfuel
    have hlink := hR.fullLink hsplit hj hc
    unfold getRankAdvance
    rw [hlink]
    simp only
    rcases expLink_cases j mid with ⟨_, hlow⟩ | ⟨m1, c1, m2, hm, hc1, hm1, _⟩
    · refine ⟨A1, c, mid, rfl, hc, hlow, ?_⟩
      rw [expLink_append_low post hlow]
      simp only
      rcases expLink_cases j post with ⟨hp, _⟩ | ⟨p1, c2, p2, hp, _, _, hl2⟩
      · rw [hp]
      · rw [hl2]
        simp only
        have hc2 : c2 ∈ post := by rw [hp]; simp
        have hc2c : c2 ∈ cells := mem_of_full_split hsplit c2 (by simp [hc2])
        obtain ⟨n, hn, hobj, hsc, _⟩ := hR.readCell hc2c
        rw [hn]
        simp only
        have hcond : ¬ (n.Score < score ∨ (n.Score = score ∧ stringsCompare n.Obj obj ≤ 0)) := by
          rw [hobj, hsc, getRank_cond_iff]
          exact fun hle => hle (hpost c2 hc2)
        rw [if_neg hcond]
    · have hc1m : c1 ∈ mid := by rw [hm]; simp
      have hc1c : c1 ∈ cells := mem_of_full_split hsplit c1 (by simp [hc1m])
      obtain ⟨n, hn, hobj, hsc, _⟩ := hR.readCell hc1c
      have hlen := full_split_length hsplit
      have hsplit2 : hdrCell :: cells = (A1 ++ c :: m1) ++ c1 :: (m2 ++ post) := by
        rw [hsplit, hm]; simp
      obtain ⟨A2, u, mid2, hA, hu, hlow, hres⟩ :=
        ih (A1 ++ c :: m1) c1 m2 post hsplit2 hc1
          (fun c2 h2 => hmid c2 (by rw [hm]; simp [h2])) hpost
          (by rw [hm] at hfuel; simp at hfuel; omega)
      refine ⟨A2, u, mid2, by rw [← hA, hm]; simp, hu, hlow, ?_⟩
      have hexp : expLink j (mid ++ post) = { forward := some c1.addr, span := m1.length + 1 } := by
        rw [hm, List.append_assoc, List.cons_append]
        exact expLink_append_hit _ hm1 hc1
      rw [hexp]
      simp only
      rw [hn]
      simp only
      have hcond : n.Score < score ∨ (n.Score = score ∧ stringsCompare n.Obj obj ≤ 0) := by
        rw [hobj, hsc, getRank_cond_iff]
        exact hmid c1 hc1m
      rw [if_pos hcond]
      have hadd : u64add A1.length (m1.length + 1) = (A1 ++ c :: m1).length := by
        rw [u64add_eq]
        · simp
        · have := hR.length_lt
          rw [hm] at hlen
          simp at hlen
          omega
      rw [hadd]
      exact hres

theorem getRankLoop_spec {l : SkipList} {cells : List Cell} (hR : Rep l cells)
    {score : Int} {obj : String} {pre post : List Cell} (hcells : cells = pre ++ post)
    (hpre : ∀ c ∈ pre, pairLe c.key (score, obj))
    (hpost : ∀ c ∈ post, pairLt (score, obj) c.key) :
    ∀ (i : Nat) (A1 : List Cell) (u : Cell) (mid : List Cell),
      i ≤ l.level → hdrCell :: pre = A1 ++ u :: mid → i ≤ u.height →
      ∃ res, getRankLoop l.heap score obj i (some u.addr) A1.length = some res ∧
        ((∃ B t T, hdrCell :: pre = B ++ t :: T ∧ t.obj = obj ∧ res = B.length) ∨
         (res = 0 ∧ (0 < i → ∀ A0 u0, hdrCell :: pre = A0 ++ [u0] → u0.obj ≠ obj))) := by
  intro i
  induction i with
  | zero =>
    intro A1 u mid _ _ _
    exact ⟨0, rfl, Or.inr ⟨rfl, fun h => by omega⟩⟩
  | succ j ih =>
    intro A1 u mid hi hsplit hu
    have hsplit2 : hdrCell :: cells = A1 ++ u :: (mid ++ post) := by
      rw [hcells, ← List.cons_append, hsplit]; simp
    have hmidpre : ∀ c1 ∈ mid, c1 ∈ pre := by
      intro c1 hc1
      cases A1 with
      | nil =>
        simp only [List.nil_append, List.cons.injEq] at hsplit
        rw [hsplit.2]; exact hc1
      | cons a A1 =>
        simp only [List.cons_append, List.cons.injEq] at hsplit
        rw [hsplit.2]; simp [hc1]
    have hfuel : mid.length < l.heap.length := by
      have h1 := full_split_length hsplit2
      have h2 := hR.shape.heap_gt
      simp at h1
      omega
    obtain ⟨A2, u2, mid2, hA2, hu2, hlow2, hadv⟩ :=
      getRankAdvance_spec hR (by omega : j < l.level) l.heap.length A1 u mid post hsplit2
        (by omega) (fun c1 hc1 => hpre c1 (hmidpre c1 hc1)) hpost hfuel
    have hsplit3 : hdrCell :: pre = A2 ++ u2 :: mid2 := by rw [hsplit, hA2]
    have hu2mem : u2 ∈ hdrCell :: cells := by
      rw [hcells, ← List.cons_append, hsplit3]; simp
    obtain ⟨n, hn, hobj, _⟩ := hR.shape.full_info hu2mem
    unfold getRankLoop
    simp only
    rw [hadv]
    simp only
    rw [hn]
    simp only
    by_cases hmatch : stringsCompare n.Obj obj = 0
    · rw [if_pos hmatch]
      rw [stringsCompare_eq_zero, hobj] at hmatch
      exact ⟨A2.length, rfl, Or.inl ⟨A2, u2, mid2, hsplit3, hmatch, rfl⟩⟩
    · rw [if_neg hmatch]
      rw [stringsCompare_eq_zero, hobj] at hmatch
      obtain ⟨res, hres, hcase⟩ := ih A2 u2 mid2 (by omega) hsplit3 (by omega)
      refine ⟨res, hres, ?_⟩
      rcases hcase with hm | ⟨hz, hlast⟩
      · exact Or.inl hm
      · refine Or.inr ⟨hz, fun _ => ?_⟩
        by_cases hj0 : 0 < j
        · exact hlast hj0
        · have hj00 : j = 0 := by omega
          subst hj00
          have hmid2 : mid2 = [] := by
            cases mid2 with
            | nil => rfl
            | cons m ms =>
              have h1 := hlow2 m (List.mem_cons_self _ _)
              have hm : m ∈ cells := by
                rw [hcells]
                have : m ∈ hdrCell :: pre := by rw [hsplit3]; simp
                rcases List.mem_cons.mp this with rfl | h3
                · exact absurd h1 (by decide)
                · simp [h3]
              have h2 := (hR.height_ok m hm).1
              omega
          subst hmid2
          intro A0 u0 h0
          rw [hsplit3] at h0
          have := List.append_inj_right' h0 rfl
          simp only [List.cons.injEq, and_true] at this
          rw [← this]
          exact hmatch

theorem Rep.getRank {l : SkipList} {cells : List Cell} (hR : Rep l cells)
    (score : Int) (obj : String) :
    ∃ pre post res, cells = pre ++ post ∧ (∀ c ∈ pre, pairLe c.key (score, obj)) ∧
      (∀ c ∈ post, pairLt (score, obj) c.key) ∧ GetRank l score obj = some res ∧
      ((∃ B t T, hdrCell :: pre = B ++ t :: T ∧ t.obj = obj ∧ res = B.length) ∨
       (res = 0 ∧ ∀ A0 u0, hdrCell :: pre = A0 ++ [u0] → u0.obj ≠ obj)) := by
  obtain ⟨pre, post, hcells, hpre, hpost⟩ := sorted_split_le cells hR.sorted (score, obj)
  obtain ⟨res, hres, hcase⟩ := getRankLoop_spec hR hcells hpre hpost l.level [] hdrCell pre
    (Nat.le_refl _) rfl hR.level_le
  refine ⟨pre, post, res, hcells, hpre, hpost, ?_, ?_⟩
  · unfold GetRank
    rw [hR.header]
    exact hres
  · rcases hcase with hm | ⟨hz, hlast⟩
    · exact Or.inl hm
    · exact Or.inr ⟨hz, hlast hR.level_pos⟩

/-! ## Order facts -/

theorem pairLt_irrefl (k : Int × String) : ¬ pairLt k k := by
  rw [pairLt_iff]; exact lt_irrefl _

theorem pairLe_antisymm {a b : Int × String} (h1 : pairLe a b) (h2 : pairLe b a) : a = b := by
  rw [pairLe_iff] at h1 h2
  exact toLex_inj.mp (le_antisymm h1 h2)

theorem pairLe_total (a b : Int × String) : pairLe a b ∨ pairLe b a := by
  rw [pairLe_iff, pairLe_iff]; exact le_total _ _

theorem pairLe_trans {a b c : Int × String} (h1 : pairLe a b) (h2 : pairLe b c) :
    pairLe a c := by
  rw [pairLe_iff] at h1 h2 ⊢
  exact le_trans h1 h2

/-- A sorted list that is a permutation of `ps` is `sortPairs ps`. -/
theorem eq_sortPairs {ks ps : List (Int × String)} (hs : ks.Pairwise pairLe)
    (hp : ks.Perm ps) : ks = sortPairs ps := by
  haveI : IsAntisymm (Int × String) pairLe := ⟨fun _ _ h1 h2 => pairLe_antisymm h1 h2⟩
  haveI : IsTotal (Int × String) pairLe := ⟨pairLe_total⟩
  haveI : IsTrans (Int × String) pairLe := ⟨fun _ _ _ h1 h2 => pairLe_trans h1 h2⟩
  exact List.eq_of_perm_of_sorted (hp.trans (List.perm_insertionSort pairLe ps).symm) hs
    (List.sorted_insertionSort pairLe ps)

/-! ## Splits of a list without repeated values -/

theorem map_ne_of_split {α β : Type} (f : α → β) {F P Q : List α} {c : α}
    (hnd : (F.map f).Nodup) (h : F = P ++ c :: Q) :
    (∀ d ∈ P, f d ≠ f c) ∧ (∀ d ∈ Q, f d ≠ f c) := by
  rw [h, List.map_append, List.map_cons, List.nodup_append] at hnd
  obtain ⟨_, hcq, hdis⟩ := hnd
  rw [List.nodup_cons] at hcq
  constructor
  · intro d hd heq
    exact hdis (List.mem_map_of_mem _ hd) (by rw [heq]; simp)
  · intro d hd heq
    exact hcq.1 (by rw [← heq]; exact List.mem_map_of_mem _ hd)

theorem split_unique_of_nodup {α β : Type} (f : α → β) {F P Q P1 Q1 : List α} {c c1 : α}
    (hnd : (F.map f).Nodup) (h1 : F = P ++ c :: Q) (h2 : F = P1 ++ c1 :: Q1)
    (hf : f c = f c1) : P = P1 ∧ c = c1 ∧ Q = Q1 := by
  rcases split_cases (h1.symm.trans h2) with h | ⟨R, hP1, _⟩ | ⟨R, hP, _⟩
  · exact h
  · exfalso
    exact (map_ne_of_split f hnd h2).1 c (by rw [hP1]; simp) hf
  · exfalso
    exact (map_ne_of_split f hnd h1).1 c1 (by rw [hP]; simp) hf.symm

theorem pred_split_unique {α : Type} (p : α → Prop) :
    ∀ {pre post pre1 post1 : List α}, pre ++ post = pre1 ++ post1 →
      (∀ c ∈ pre, p c) → (∀ c ∈ post, ¬ p c) → (∀ c ∈ pre1, p c) → (∀ c ∈ post1, ¬ p c) →
      pre = pre1 ∧ post = post1 := by
  intro pre
  induction pre with
  | nil =>
    intro post pre1 post1 h _ hpost hpre1 _
    cases pre1 with
    | nil => exact ⟨rfl, h⟩
    | cons a as =>
      exfalso
      simp only [List.nil_append] at h
      exact hpost a (by rw [h]; simp) (hpre1 a (List.mem_cons_self _ _))
  | cons a as ih =>
    intro post pre1 post1 h hpre hpost hpre1 hpost1
    cases pre1 with
    | nil =>
      exfalso
      simp only [List.nil_append] at h
      exact hpost1 a (by rw [← h]; simp) (hpre a (List.mem_cons_self _ _))
    | cons b bs =>
      simp only [List.cons_append, List.cons.injEq] at h
      obtain ⟨e1, e2⟩ := ih h.2 (fun c hc => hpre c (List.mem_cons_of_mem _ hc)) hpost
        (fun c hc => hpre1 c (List.mem_cons_of_mem _ hc)) hpost1
      exact ⟨by rw [h.1, e1], e2⟩

theorem rankIn_split {P Q : List (Int × String)} {a : Int × String} (h : a ∉ P) :
    rankIn a (P ++ a :: Q) = P.length + 1 := by
  induction P with
  | nil => simp [rankIn]
  | cons b P ih =>
    have hb : b ≠ a := fun e => h (by rw [e]; simp)
    have hP : a ∉ P := fun e => h (List.mem_cons_of_mem _ e)
    rw [List.cons_append, rankIn, if_neg hb, ih hP]
    simp

theorem rankIn_eq_zero {ps : List (Int × String)} {a : Int × String} (h : a ∉ ps) :
    rankIn a ps = 0 := by
  induction ps with
  | nil => rfl
  | cons b P ih =>
    have hb : b ≠ a := fun e => h (by rw [e]; simp)
    have hP : a ∉ P := fun e => h (List.mem_cons_of_mem _ e)
    rw [rankIn, if_neg hb, ih hP]
    simp

/-! ## Successive insertions -/

theorem insertAll_rep :
    ∀ (ps : List (Int × String)) (hs : List Nat) (l0 : SkipList) (cells0 : List Cell),
      Rep l0 cells0 → hs.length = ps.length → (∀ h ∈ hs, 1 ≤ h ∧ h ≤ MaxLevel) →
      cells0.length + ps.length < U64 →
      ∃ l1 cells1, insertAll l0 ps hs = some l1 ∧ Rep l1 cells1 ∧
        (cells1.map Cell.key).Perm (cells0.map Cell.key ++ ps) := by
  intro ps
  induction ps with
  | nil =>
    intro hs l0 cells0 hR0 _ _ _
    exact ⟨l0, cells0, by cases hs <;> rfl, hR0, by simp⟩
  | cons p ps ih =>
    intro hs l0 cells0 hR0 hlen hh hroom
    cases hs with
    | nil => simp at hlen
    | cons h hs =>
      simp only [List.length_cons] at hlen hroom
      have hh1 := hh h (List.mem_cons_self _ _)
      obtain ⟨l1, pre, post, hrun, hcells, _, _, hR1⟩ :=
        hR0.insert p.1 p.2 hh1.1 hh1.2 (by omega)
      obtain ⟨l2, cells2, hrun2, hR2, hperm⟩ := ih hs l1 _ hR1 (by omega)
        (fun x hx => hh x (List.mem_cons_of_mem _ hx))
        (by rw [hcells] at hroom; simp at hroom ⊢; omega)
      refine ⟨l2, cells2, ?_, hR2, hperm.trans ?_⟩
      · unfold skiplist.insertAll
        rw [hrun]
        exact hrun2
      · rw [hcells]
        simp only [List.map_append, List.map_cons, List.append_assoc, List.cons_append]
        exact List.Perm.append_left _ List.perm_middle.symm

theorem insertAll_Create (ps : List (Int × String)) (hs : List Nat)
    (hlen : hs.length = ps.length) (hh : ∀ h ∈ hs, 1 ≤ h ∧ h ≤ MaxLevel)
    (hN : ps.length < U64) :
    ∃ l cells, insertAll Create ps hs = some l ∧ Rep l cells ∧
      cells.map Cell.key = sortPairs ps := by
  obtain ⟨l, cells, hrun, hR, hperm⟩ :=
    insertAll_rep ps hs Create [] rep_Create hlen hh (by simpa using hN)
  exact ⟨l, cells, hrun, hR, eq_sortPairs hR.sorted (by simpa using hperm)⟩

/-! ## The queries on a represented list -/

theorem Rep.element_at {l : SkipList} {cells : List Cell} (hR : Rep l cells) {k : Nat}
    (h1 : 1 ≤ k) (h2 : k ≤ cells.length) :
    ∃ a n, GetElementByRank l k = some (some a) ∧ l.heap[a]? = some n ∧
      (cells.map Cell.key)[k - 1]? = some (n.Score, n.Obj) := by
  obtain ⟨res, hrun, _, hsome⟩ := hR.getElementByRank (k := k) (by have := hR.length_lt; omega)
  obtain ⟨B, t, T, hsplit, hB, hres⟩ := hsome h2
  cases B with
  | nil => simp at hB; omega
  | cons b B =>
    simp only [List.cons_append, List.cons.injEq] at hsplit
    simp only [List.length_cons] at hB
    have ht : t ∈ cells := by rw [hsplit.2]; simp
    obtain ⟨n, hn, hobj, hsc, _⟩ := hR.readCell ht
    refine ⟨t.addr, n, by rw [hrun, hres], hn, ?_⟩
    have hk : k - 1 = B.length := by omega
    rw [hk, hsplit.2, List.map_append, List.map_cons,
      List.getElem?_append_right (by simp)]
    simp [Cell.key, hobj, hsc]

theorem Rep.element_none {l : SkipList} {cells : List Cell} (hR : Rep l cells) {k : Nat}
    (hk : k < U64) (h : cells.length < k) : GetElementByRank l k = some none := by
  obtain ⟨res, hrun, hnone, _⟩ := hR.getElementByRank hk
  rw [hrun, hnone h]

theorem Rep.element_zero {l : SkipList} {cells : List Cell} (hR : Rep l cells) :
    GetElementByRank l 0 = some (some 0) := by
  obtain ⟨res, hrun, _, hsome⟩ := hR.getElementByRank (k := 0) (by decide)
  obtain ⟨B, t, T, hsplit, hB, hres⟩ := hsome (Nat.zero_le _)
  cases B with
  | nil =>
    simp only [List.nil_append, List.cons.injEq] at hsplit
    rw [hrun, hres, ← hsplit.1]
    rfl
  | cons b B => simp at hB

/-- With pairwise distinct members and a non-empty member, `GetRank` of a
stored pair is its 1-based position. -/
theorem Rep.rank_stored {l : SkipList} {cells : List Cell} (hR : Rep l cells)
    (hnd : (cells.map Cell.obj).Nodup) {score : Int} {obj : String} (hobj : obj ≠ "")
    {P Q : List Cell} {t : Cell} (hsplit : cells = P ++ t :: Q) (ht : t.key = (score, obj)) :
    GetRank l score obj = some (P.length + 1) := by
  have hto : t.obj = obj := by
    have := congrArg Prod.snd ht
    exact this
  obtain ⟨pre, post, res, hcells, hpre, hpost, hrun, hcase⟩ := hR.getRank score obj
  rw [hrun]
  have htmem : t ∈ pre := by
    have : t ∈ cells := by rw [hsplit]; simp
    rw [hcells] at this
    rcases List.mem_append.mp this with h | h
    · exact h
    · exfalso
      have := hpost t h
      rw [ht] at this
      exact pairLt_irrefl _ this
  obtain ⟨P1, T1, hpre1⟩ := List.append_of_mem htmem
  have hsplit1 : cells = P1 ++ t :: (T1 ++ post) := by rw [hcells, hpre1]; simp
  obtain ⟨hP1, _, _⟩ := split_unique_of_nodup Cell.obj hnd hsplit1 hsplit rfl
  have hT1 : T1 = [] := by
    cases T1 with
    | nil => rfl
    | cons c T2 =>
      exfalso
      have hc : c ∈ pre := by rw [hpre1]; simp
      have h1 := hpre c hc
      have hs := hR.sorted
      rw [hsplit1, List.map_append, List.map_cons, List.pairwise_append,
        List.pairwise_cons] at hs
      have h2 := hs.2.1.1 c.key (by simp)
      rw [ht] at h2
      have hk := pairLe_antisymm h1 h2
      have hco : c.obj = t.obj := by
        rw [hto]
        exact congrArg Prod.snd hk
      exact (map_ne_of_split Cell.obj hnd hsplit1).2 c (by simp) hco
  subst hT1
  rcases hcase with ⟨B, t2, T, hB, ht2, hres⟩ | ⟨_, hlast⟩
  · cases B with
    | nil =>
      exfalso
      simp only [List.nil_append, List.cons.injEq] at hB
      rw [← hB.1] at ht2
      exact hobj ht2.symm
    | cons b B =>
      simp only [List.cons_append, List.cons.injEq] at hB
      have hsplit2 : cells = B ++ t2 :: (T ++ post) := by rw [hcells, hB.2]; simp
      obtain ⟨hBP, _, _⟩ := split_unique_of_nodup Cell.obj hnd hsplit2 hsplit
        (by rw [ht2, hto])
      rw [hres, ← hBP]
      rfl
  · exfalso
    exact hlast (hdrCell :: P1) t (by rw [hpre1]; simp) hto

/-- `GetRank` is 0 when no stored pair has the member with a score at most the
searched one. -/
theorem Rep.rank_absent {l : SkipList} {cells : List Cell} (hR : Rep l cells)
    {score : Int} {obj : String} (hno : ∀ c ∈ cells, c.obj = obj → ¬ c.score ≤ score) :
    GetRank l score obj = some 0 := by
  obtain ⟨pre, post, res, hcells, hpre, hpost, hrun, hcase⟩ := hR.getRank score obj
  rw [hrun]
  rcases hcase with ⟨B, t2, T, hB, ht2, hres⟩ | ⟨hz, _⟩
  · cases B with
    | nil => rw [hres]; rfl
    | cons b B =>
      exfalso
      simp only [List.cons_append, List.cons.injEq] at hB
      have ht : t2 ∈ pre := by rw [hB.2]; simp
      exact hno t2 (by rw [hcells]; simp [ht]) ht2 (pairLe_score (hpre t2 ht))
  · rw [hz]

/-- The position of a stored pair among the pairs of the list, members distinct. -/
theorem rankIn_key {cells P Q : List Cell} {t : Cell} (hnd : (cells.map Cell.obj).Nodup)
    (hsplit : cells = P ++ t :: Q) :
    rankIn t.key (cells.map Cell.key) = P.length + 1 := by
  rw [hsplit, List.map_append, List.map_cons, rankIn_split, List.length_map]
  intro hmem
  obtain ⟨c, hc, hck⟩ := List.mem_map.mp hmem
  exact (map_ne_of_split Cell.obj hnd hsplit).1 c hc (congrArg Prod.snd hck)

theorem map_obj_eq (cells : List Cell) :
    cells.map Cell.obj = (cells.map Cell.key).map Prod.snd := by
  rw [List.map_map]
  rfl

/-! ## Stored pairs and the search split -/

theorem stored_head {cells pre post : List Cell} {k : Int × String}
    (hs : (cells.map Cell.key).Pairwise pairLe) (hcells : cells = pre ++ post)
    (hpre : ∀ c ∈ pre, pairLt c.key k) (hpost : ∀ c ∈ post, ¬ pairLt c.key k)
    (hmem : k ∈ cells.map Cell.key) : ∃ cx rest, post = cx :: rest ∧ cx.key = k := by
  obtain ⟨c, hc, hck⟩ := List.mem_map.mp hmem
  rw [hcells] at hc
  rcases List.mem_append.mp hc with h | h
  · exfalso
    have := hpre c h
    rw [hck] at this
    exact pairLt_irrefl _ this
  · cases post with
    | nil => simp at h
    | cons cx rest =>
      refine ⟨cx, rest, rfl, ?_⟩
      have h1 : pairLe k cx.key := hpost cx (List.mem_cons_self _ _)
      rcases List.mem_cons.mp h with rfl | h2
      · exact hck
      · rw [hcells, List.map_append, List.map_cons, List.pairwise_append,
          List.pairwise_cons] at hs
        have h3 := hs.2.1.1 c.key (List.mem_map_of_mem _ h2)
        rw [hck] at h3
        exact pairLe_antisymm h3 h1

theorem not_mem_pre {pre : List Cell} {k : Int × String}
    (hpre : ∀ c ∈ pre, pairLt c.key k) : k ∉ pre.map Cell.key := by
  intro hmem
  obtain ⟨c, hc, hck⟩ := List.mem_map.mp hmem
  have := hpre c hc
  rw [hck] at this
  exact pairLt_irrefl _ this

/-! ## Reachability of successive insertions -/

theorem insertAll_reachable :
    ∀ (ps : List (Int × String)) (hs : List Nat) (l l1 : SkipList),
      Reachable l → (∀ h ∈ hs, 1 ≤ h ∧ h ≤ MaxLevel) → l.Length + ps.length < U64 →
      insertAll l ps hs = some l1 → Reachable l1 := by
  intro ps
  induction ps with
  | nil =>
    intro hs l l1 hr _ _ hrun
    cases hs <;> simp only [insertAll, Option.some.injEq] at hrun <;> rw [← hrun] <;> exact hr
  | cons p ps ih =>
    intro hs l l1 hr hh hroom hrun
    cases hs with
    | nil => simp [insertAll] at hrun
    | cons h hs =>
      simp only [List.length_cons] at hroom
      have hh1 := hh h (List.mem_cons_self _ _)
      obtain ⟨cells, hR⟩ := hr.rep
      obtain ⟨l2, pre, post, hins, hcells, _, _, hR2⟩ :=
        hR.insert p.1 p.2 hh1.1 hh1.2 (by rw [← hR.length_eq]; omega)
      unfold insertAll at hrun
      rw [hins] at hrun
      simp only at hrun
      have hlen2 : l2.Length = l.Length + 1 := by
        rw [hR2.length_eq, hR.length_eq, hcells]; simp; omega
      exact ih hs l2 l1 (Reachable.insert p.1 p.2 h hr hh1.1 hh1.2 (by omega) hins)
        (fun x hx => hh x (List.mem_cons_of_mem _ hx)) (by omega) hrun

set_option maxRecDepth 100000 in
theorem testList_reachable : Reachable testList :=
  insertAll_reachable testPairs [1, 3, 1, 2, 1, 4, 1] Create testList Reachable.create
    (by decide) (by decide) (by decide)

/-- `GetRank` of a stored pair whose member is non-empty, in a list whose
members are pairwise distinct. -/
theorem rank_of_member {l : SkipList} {cells : List Cell} (hR : Rep l cells)
    (hnd : ((cells.map Cell.key).map Prod.snd).Nodup) {p : Int × String}
    (hp : p ∈ cells.map Cell.key) (hne : p.2 ≠ "") :
    GetRank l p.1 p.2 = some (rankIn p (cells.map Cell.key)) := by
  rw [← map_obj_eq] at hnd
  obtain ⟨t, ht, htk⟩ := List.mem_map.mp hp
  obtain ⟨P, Q, hsplit⟩ := List.append_of_mem ht
  rw [hR.rank_stored hnd hne hsplit htk, ← htk, rankIn_key hnd hsplit]

/-- `GetRank` of a stored pair, in a list of pairwise distinct pairs: the
1-based position of the pair when its member is not empty and is not stored with
a smaller score. -/
theorem rank_of_first {l : SkipList} {cells : List Cell} (hR : Rep l cells)
    (hnd : (cells.map Cell.key).Nodup) {p : Int × String} (hp : p ∈ cells.map Cell.key)
    (hne : p.2 ≠ "") (hfirst : ∀ q ∈ cells.map Cell.key, q.2 = p.2 → p.1 ≤ q.1) :
    GetRank l p.1 p.2 = some (rankIn p (cells.map Cell.key)) := by
  obtain ⟨t, ht, htk⟩ := List.mem_map.mp hp
  obtain ⟨P, Q, hsplit⟩ := List.append_of_mem ht
  have hPne := (map_ne_of_split Cell.key hnd hsplit).1
  have hrank : rankIn p (cells.map Cell.key) = P.length + 1 := by
    rw [hsplit, List.map_append, List.map_cons, htk, rankIn_split, List.length_map]
    intro hmem
    obtain ⟨c, hc, hck⟩ := List.mem_map.mp hmem
    exact hPne c hc (by rw [hck, htk])
  rw [hrank]
  obtain ⟨pre, post, res, hcells, hpre, hpost, hrun, hcase⟩ := hR.getRank p.1 p.2
  rw [hrun]
  have hpe : (p.1, p.2) = p := rfl
  rw [hpe] at hpre hpost
  have htmem : t ∈ pre := by
    have : t ∈ cells := ht
    rw [hcells] at this
    rcases List.mem_append.mp this with h | h
    · exact h
    · exfalso
      have := hpost t h
      rw [htk] at this
      exact pairLt_irrefl _ this
  obtain ⟨P1, T1, hpre1⟩ := List.append_of_mem htmem
  have hsplit1 : cells = P1 ++ t :: (T1 ++ post) := by rw [hcells, hpre1]; simp
  obtain ⟨hP1, _, _⟩ := split_unique_of_nodup Cell.key hnd hsplit1 hsplit rfl
  have hT1 : T1 = [] := by
    cases T1 with
    | nil => rfl
    | cons c T2 =>
      exfalso
      have hc : c ∈ pre := by rw [hpre1]; simp
      have h1 := hpre c hc
      have hs := hR.sorted
      rw [hsplit1, List.map_append, List.map_cons, List.pairwise_append,
        List.pairwise_cons] at hs
      have h2 := hs.2.1.1 c.key (by simp)
      rw [htk] at h2
      have hk := pairLe_antisymm h1 h2
      exact (map_ne_of_split Cell.key hnd hsplit1).2 c (by simp) (by rw [hk, htk])
  subst hT1
  rcases hcase with ⟨B, t2, T, hB, ht2, hres⟩ | ⟨_, hlast⟩
  · cases B with
    | nil =>
      exfalso
      simp only [List.nil_append, List.cons.injEq] at hB
      rw [← hB.1] at ht2
      exact hne ht2.symm
    | cons b B =>
      simp only [List.cons_append, List.cons.injEq] at hB
      have ht2mem : t2 ∈ pre := by rw [hB.2]; simp
      have hle : t2.score ≤ p.1 := pairLe_score (hpre t2 ht2mem)
      have hge : p.1 ≤ t2.score :=
        hfirst t2.key (List.mem_map_of_mem _ (by rw [hcells]; simp [ht2mem])) ht2
      have hkey : t2.key = t.key := by
        rw [htk]
        show (t2.score, t2.obj) = p
        rw [ht2, le_antisymm hle hge]
      have hsplit2 : cells = B ++ t2 :: (T ++ post) := by rw [hcells, hB.2]; simp
      obtain ⟨hBP, _, _⟩ := split_unique_of_nodup Cell.key hnd hsplit2 hsplit hkey
      rw [hres, ← hBP]
      rfl
  · exfalso
    have hto : t.obj = p.2 := by
      have := congrArg Prod.snd htk
      exact this
    exact hlast (hdrCell :: P1) t (by rw [hpre1]; simp) hto

/-! ## The claims -/

/-- C1: after `Create` and the `Insert` of the pairs `ps` (tower heights `hs`,
each in `[1, MaxLevel]`; fewer than `2^64` pairs), `GetElementByRank(k)` for
every `k` in `1..N` returns a non-nil node whose `(Score, Obj)` is the `k`-th pair
of `ps` sorted ascending by score and then by member.  Distinctness of the pairs
is not needed. -/
theorem C1_element_by_rank_sorted (ps : List (Int × String)) (hs : List Nat)
    (hlen : hs.length = ps.length) (hh : ∀ h ∈ hs, 1 ≤ h ∧ h ≤ MaxLevel)
    (hN : ps.length < U64) :
    ∃ l, insertAll Create ps hs = some l ∧
      ∀ k, 1 ≤ k → k ≤ ps.length →
        ∃ a n, GetElementByRank l k = some (some a) ∧ l.heap[a]? = some n ∧
          (sortPairs ps)[k - 1]? = some (n.Score, n.Obj) := by
  obtain ⟨l, cells, hrun, hR, hkeys⟩ := insertAll_Create ps hs hlen hh hN
  refine ⟨l, hrun, ?_⟩
  intro k h1 h2
  have hlenc : cells.length = ps.length := by
    have := congrArg List.length hkeys
    rw [List.length_map] at this
    rw [this]
    exact (List.perm_insertionSort pairLe ps).length_eq
  rw [← hkeys]
  exact hR.element_at h1 (by omega)

/-- Witness of C1: three pairs inserted out of order with towers 1, 2, 1. -/
theorem C1_witness :
    [1, 2, 1].length = [((300 : Int), "c"), (100, "a"), (200, "b")].length ∧
    (∀ h ∈ [1, 2, 1], 1 ≤ h ∧ h ≤ MaxLevel) ∧
    [((300 : Int), "c"), (100, "a"), (200, "b")].length < U64 ∧
    ∃ l, insertAll Create [(300, "c"), (100, "a"), (200, "b")] [1, 2, 1] = some l ∧
      ∀ k, 1 ≤ k → k ≤ [((300 : Int), "c"), (100, "a"), (200, "b")].length →
        ∃ a n, GetElementByRank l k = some (some a) ∧ l.heap[a]? = some n ∧
          (sortPairs [(300, "c"), (100, "a"), (200, "b")])[k - 1]? = some (n.Score, n.Obj) :=
  ⟨by decide, by decide, by decide,
    C1_element_by_rank_sorted [(300, "c"), (100, "a"), (200, "b")] [1, 2, 1]
      (by decide) (by decide) (by decide)⟩

/-- C2, as stated, fails: with the pairwise distinct pairs `(1,"a"), (2,"b"),
(3,"a")` and towers 2, 1, 1, `GetRank(3, "a")` returns 1 although `(3,"a")` is
third in sorted order; with `(5,""), (9,"z")` and towers 1, 2, `GetRank(5, "")`
returns 0 although `(5,"")` is first; and, in the model with `float64` scores,
with the single pair `(NaN, "n")`, `GetRank(NaN, "n")` returns 0 although the
pair is first. -/
theorem C2_counterexample :
    ([((1 : Int), "a"), (2, "b"), (3, "a")].Nodup ∧
      (∀ h ∈ [2, 1, 1], 1 ≤ h ∧ h ≤ MaxLevel) ∧
      (insertAll Create [(1, "a"), (2, "b"), (3, "a")] [2, 1, 1]).bind
        (fun l => GetRank l 3 "a") = some 1 ∧
      rankIn (3, "a") (sortPairs [(1, "a"), (2, "b"), (3, "a")]) = 3) ∧
    ([((5 : Int), ""), (9, "z")].Nodup ∧
      (∀ h ∈ [1, 2], 1 ≤ h ∧ h ≤ MaxLevel) ∧
      (insertAll Create [(5, ""), (9, "z")] [1, 2]).bind
        (fun l => GetRank l 5 "") = some 0 ∧
      rankIn (5, "") (sortPairs [(5, ""), (9, "z")]) = 1) ∧
    ((F64.insertAll F64.Create [(none, "n")] [1]).bind F64.level0Pairs =
        some [(none, "n")] ∧
      (F64.insertAll F64.Create [(none, "n")] [1]).bind
        (fun l => F64.GetRank l none "n") = some 0) := by
  decide

/-- In the model with `Int` scores: for pairwise distinct pairs inserted into a
list made by `Create` and every inserted pair `(s, m)` whose member is not empty
and is not the member of an inserted pair with a smaller score, `GetRank(s, m)`
is the 1-based position of `(s, m)` in the sorted pairs. -/
theorem rank_of_inserted (ps : List (Int × String)) (hs : List Nat)
    (hlen : hs.length = ps.length) (hh : ∀ h ∈ hs, 1 ≤ h ∧ h ≤ MaxLevel)
    (hN : ps.length < U64) (hnd : ps.Nodup) (p : Int × String) (hp : p ∈ ps)
    (hne : p.2 ≠ "") (hfirst : ∀ q ∈ ps, q.2 = p.2 → p.1 ≤ q.1) :
    ∃ l, insertAll Create ps hs = some l ∧
      GetRank l p.1 p.2 = some (rankIn p (sortPairs ps)) := by
  obtain ⟨l, cells, hrun, hR, hkeys⟩ := insertAll_Create ps hs hlen hh hN
  refine ⟨l, hrun, ?_⟩
  have hperm : (sortPairs ps).Perm ps := List.perm_insertionSort pairLe ps
  rw [← hkeys] at hperm ⊢
  exact rank_of_first hR (hperm.nodup_iff.mpr hnd) (hperm.mem_iff.mpr hp) hne
    (fun q hq => hfirst q (hperm.mem_iff.mp hq))

/-- In the model with `Int` scores: on a reachable list whose level-0 sequence is
`pairs`, `Delete(s, m)` of a stored pair returns `nil`, decreases `Length` by
exactly 1 and leaves the level-0 sequence with one occurrence of `(s, m)`, the
first, removed (`List.erase`) and the other pairs in their order. -/
theorem delete_stored (l : SkipList) (hr : Reachable l) (s : Int) (m : String)
    (pairs : List (Int × String)) (hp : level0Pairs l = some pairs)
    (hmem : (s, m) ∈ pairs) :
    ∃ l1, Delete l s m = some (l1, DeleteResult.ok) ∧ l1.Length + 1 = l.Length ∧
      level0Pairs l1 = some (pairs.erase (s, m)) := by
  obtain ⟨cells, hR⟩ := hr.rep
  rw [hR.level0Pairs] at hp
  simp only [Option.some.injEq] at hp
  subst hp
  obtain ⟨pre, post, hcells, hpre, hpost, _, hyes⟩ := hR.delete s m
  obtain ⟨cx, rest, hpc, hkey⟩ := stored_head hR.sorted hcells hpre hpost hmem
  obtain ⟨l1, hrun, hR1⟩ := hyes cx rest hpc hkey
  refine ⟨l1, hrun, ?_, ?_⟩
  · rw [hR1.length_eq, hR.length_eq, hcells, hpc]
    simp
    omega
  · rw [hR1.level0Pairs, hcells, hpc]
    simp only [List.map_append, List.map_cons, hkey]
    rw [List.erase_append_right _ (not_mem_pre hpre), List.erase_cons_head]

/-- In the model with `Int` scores: on a reachable list, `Delete(s, m)` returns
`ErrNodeNotFound` exactly when `(s, m)` is not stored, and then the whole list
state (heap, `Length`, `header`, `tail`, `level`) is unchanged. -/
theorem delete_absent (l : SkipList) (hr : Reachable l) (s : Int) (m : String) :
    ∃ pairs l1 e, level0Pairs l = some pairs ∧ Delete l s m = some (l1, e) ∧
      (e = DeleteResult.ErrNodeNotFound ↔ (s, m) ∉ pairs) ∧
      ((s, m) ∉ pairs → l1 = l) := by
  obtain ⟨cells, hR⟩ := hr.rep
  obtain ⟨pre, post, hcells, hpre, hpost, hno, hyes⟩ := hR.delete s m
  by_cases hmem : (s, m) ∈ cells.map Cell.key
  · obtain ⟨cx, rest, hpc, hkey⟩ := stored_head hR.sorted hcells hpre hpost hmem
    obtain ⟨l1, hrun, _⟩ := hyes cx rest hpc hkey
    refine ⟨_, l1, DeleteResult.ok, hR.level0Pairs, hrun, ?_, fun h => absurd hmem h⟩
    constructor
    · intro h; cases h
    · intro h; exact absurd hmem h
  · have hrun := hno (by
      intro cx rest hpc hkey
      apply hmem
      rw [hcells, hpc, ← hkey]
      simp)
    exact ⟨_, l, DeleteResult.ErrNodeNotFound, hR.level0Pairs, hrun,
      ⟨fun _ => hmem, fun _ => rfl⟩, fun _ => rfl⟩

/-- In the model with `Int` scores: on a reachable list with room for one more
node, `Insert(score, member)` with a tower height in `[1, MaxLevel]` returns a
non-nil node holding the arguments, increases `Length` by exactly 1, and the
level-0 sequence becomes `pre ++ (score, member) :: post` where `pre ++ post` is
the previous sequence, every pair of `pre` is strictly smaller than the new pair
and no pair of `post` is. -/
theorem insert_sorted (l : SkipList) (hr : Reachable l) (s : Int) (m : String) (level : Nat)
    (h1 : 1 ≤ level) (h2 : level ≤ MaxLevel) (hroom : l.Length + 1 < U64) :
    ∃ l1 x n pre post, Insert l s m level = some (l1, x) ∧
      l1.heap[x]? = some n ∧ n.Score = s ∧ n.Obj = m ∧
      l1.Length = l.Length + 1 ∧
      level0Pairs l = some (pre ++ post) ∧
      (∀ p ∈ pre, pairLt p (s, m)) ∧ (∀ p ∈ post, ¬ pairLt p (s, m)) ∧
      level0Pairs l1 = some (pre ++ (s, m) :: post) := by
  obtain ⟨cells, hR⟩ := hr.rep
  obtain ⟨l1, pre, post, hrun, hcells, hpre, hpost, hR1⟩ :=
    hR.insert s m h1 h2 (by rw [← hR.length_eq]; exact hroom)
  obtain ⟨n, hn, hobj, hsc, _⟩ :=
    hR1.readCell (c := ⟨l.heap.length, s, m, level⟩) (by simp)
  refine ⟨l1, l.heap.length, n, pre.map Cell.key, post.map Cell.key, hrun, hn, hsc, hobj,
    ?_, ?_, ?_, ?_, ?_⟩
  · rw [hR1.length_eq, hR.length_eq, hcells]
    simp
    omega
  · rw [hR.level0Pairs, hcells, List.map_append]
  · intro p hp
    obtain ⟨c, hc, hck⟩ := List.mem_map.mp hp
    rw [← hck]; exact hpre c hc
  · intro p hp
    obtain ⟨c, hc, hck⟩ := List.mem_map.mp hp
    rw [← hck]; exact hpost c hc
  · rw [hR1.level0Pairs, List.map_append, List.map_cons]
    rfl

/-- In the model with `Int` scores: on a reachable list with room for one more
node, `Insert(s, m)` followed by `Delete(s, m)` succeeds and restores `Length`
and the level-0 sequence. -/
theorem insert_then_delete (l : SkipList) (hr : Reachable l) (s : Int) (m : String)
    (level : Nat) (h1 : 1 ≤ level) (h2 : level ≤ MaxLevel) (hroom : l.Length + 1 < U64) :
    ∃ l1 x l2 pairs, Insert l s m level = some (l1, x) ∧
      Delete l1 s m = some (l2, DeleteResult.ok) ∧ l2.Length = l.Length ∧
      level0Pairs l = some pairs ∧ level0Pairs l2 = some pairs := by
  obtain ⟨cells, hR⟩ := hr.rep
  obtain ⟨l1, pre, post, hrun, hcells, hpre, hpost, hR1⟩ :=
    hR.insert s m h1 h2 (by rw [← hR.length_eq]; exact hroom)
  obtain ⟨pre1, post1, hcells1, hpre1, hpost1, _, hyes⟩ := hR1.delete s m
  obtain ⟨e1, e2⟩ := pred_split_unique (fun c : Cell => pairLt c.key (s, m))
    (show pre ++ (⟨l.heap.length, s, m, level⟩ : Cell) :: post = pre1 ++ post1
      from hcells1) hpre
    (by
      intro c hc
      rcases List.mem_cons.mp hc with rfl | h
      · exact pairLt_irrefl _
      · exact hpost c h) hpre1 hpost1
  obtain ⟨l2, hdel, hR2⟩ := hyes ⟨l.heap.length, s, m, level⟩ post e2.symm rfl
  rw [← e1, ← hcells] at hR2
  exact ⟨l1, _, l2, _, hrun, hdel, by rw [hR2.length_eq, hR.length_eq], hR.level0Pairs,
    hR2.level0Pairs⟩

set_option maxRecDepth 100000 in
/-- C7 fails on the code: `GetElementByRank(0)` returns the header, not `nil`,
on the empty list and on the list of the test (the guard `rank > l.Length &&
rank == 0` is never true). -/
theorem C7_rank_zero_returns_header :
    GetElementByRank Create 0 = some Create.header ∧ Create.header = some 0 ∧
    GetElementByRank testList 0 = some testList.header ∧ testList.header = some 0 := by
  decide

/-- C8: on a reachable list, `GetElementByRank(r)` returns `nil` for every
`uint64` rank `r > Length`. -/
theorem C8_rank_beyond_length (l : SkipList) (hr : Reachable l) (r : Nat) (hr64 : r < U64)
    (hgt : l.Length < r) : GetElementByRank l r = some none := by
  obtain ⟨cells, hR⟩ := hr.rep
  exact hR.element_none hr64 (by rw [← hR.length_eq]; exact hgt)

set_option maxRecDepth 100000 in
/-- Witness of C8: rank `Length + 1 = 8` on the list of the test. -/
theorem C8_witness :
    Reachable testList ∧ 8 < U64 ∧ testList.Length < 8 ∧
    GetElementByRank testList 8 = some none :=
  ⟨testList_reachable, by decide, by decide,
    C8_rank_beyond_length testList testList_reachable 8 (by decide) (by decide)⟩

/-- C9, as stated, fails: with `(1, "a")` stored alone, the pair `(2, "a")` is not
stored and `GetRank(2, "a")` returns 1. -/
theorem C9_counterexample :
    (∀ h ∈ [1], 1 ≤ h ∧ h ≤ MaxLevel) ∧
    (insertAll Create [(1, "a")] [1]).bind level0Pairs = some [(1, "a")] ∧
    ((2 : Int), "a") ∉ [((1 : Int), "a")] ∧
    (insertAll Create [(1, "a")] [1]).bind (fun l => GetRank l 2 "a") = some 1 := by
  decide

/-- C9, amended: on a reachable list whose level-0 sequence is `pairs`,
`GetRank(s, m)` returns 0 when no stored pair has the member `m` with a score at
most `s` (in particular when the member `m` is not stored at all). -/
theorem C9_rank_absent (l : SkipList) (hr : Reachable l) (s : Int) (m : String)
    (pairs : List (Int × String)) (hp : level0Pairs l = some pairs)
    (hno : ∀ p ∈ pairs, p.2 = m → s < p.1) : GetRank l s m = some 0 := by
  obtain ⟨cells, hR⟩ := hr.rep
  rw [hR.level0Pairs] at hp
  simp only [Option.some.injEq] at hp
  subst hp
  apply hR.rank_absent
  intro c hc hco hle
  have := hno c.key (List.mem_map_of_mem _ hc) hco
  exact absurd hle (not_le.mpr this)

set_option maxRecDepth 100000 in
/-- Witness of C9 (amended): `GetRank(150, "b")` on the list of the test, where
`"b"` is stored with the score 200 only. -/
theorem C9_witness :
    Reachable testList ∧ level0Pairs testList = some testPairs ∧
    (∀ p ∈ testPairs, p.2 = "b" → (150 : Int) < p.1) ∧
    GetRank testList 150 "b" = some 0 :=
  ⟨testList_reachable, by decide, by decide,
    C9_rank_absent testList testList_reachable 150 "b" testPairs (by decide) (by decide)⟩

set_option maxRecDepth 100000 in
/-- C10: after `Create` and the `Insert` of `(100,"a")`, `(200,"b")`, `(300,"c")`,
`(400,"e")`, `(500,"f")`, `(600,"g")`, `(700,"h")` in that order, for every choice
of the seven tower heights in `[1, MaxLevel]`: `GetRank(200, "b") = 2`,
`GetElementByRank(5)` is a node with `Score` 500 and `Obj` `"f"`, and
`Length = 7`. -/
theorem C10_test_scenario (hs : List Nat) (hlen : hs.length = 7)
    (hh : ∀ h ∈ hs, 1 ≤ h ∧ h ≤ MaxLevel) :
    ∃ l, insertAll Create testPairs hs = some l ∧
      GetRank l 200 "b" = some 2 ∧
      (∃ a n, GetElementByRank l 5 = some (some a) ∧ l.heap[a]? = some n ∧
        n.Score = 500 ∧ n.Obj = "f") ∧
      l.Length = 7 := by
  obtain ⟨l, cells, hrun, hR, hkeys⟩ :=
    insertAll_Create testPairs hs (by rw [hlen]; rfl) hh (by decide)
  have hsorted : sortPairs testPairs = testPairs := by decide
  rw [hsorted] at hkeys
  have hlenc : cells.length = 7 := by
    have := congrArg List.length hkeys
    rw [List.length_map] at this
    rw [this]; rfl
  refine ⟨l, hrun, ?_, ?_, by rw [hR.length_eq, hlenc]⟩
  · have := rank_of_member hR (p := (200, "b")) (by rw [hkeys]; decide)
      (by rw [hkeys]; decide) (by decide)
    rw [this, hkeys]
    decide
  · obtain ⟨a, n, hget, hn, hk⟩ := hR.element_at (k := 5) (by omega) (by omega)
    rw [hkeys] at hk
    have hk2 : (n.Score, n.Obj) = (500, "f") := by
      have h5 : testPairs[5 - 1]? = some (500, "f") := by decide
      rw [h5] at hk
      exact (Option.some.inj hk).symm
    exact ⟨a, n, hget, hn, congrArg Prod.fst hk2, congrArg Prod.snd hk2⟩

/-- Witness of C10: the towers 1, 3, 1, 2, 1, 4, 1. -/
theorem C10_witness :
    [1, 3, 1, 2, 1, 4, 1].length = 7 ∧ (∀ h ∈ [1, 3, 1, 2, 1, 4, 1], 1 ≤ h ∧ h ≤ MaxLevel) ∧
    ∃ l, insertAll Create testPairs [1, 3, 1, 2, 1, 4, 1] = some l ∧
      GetRank l 200 "b" = some 2 ∧
      (∃ a n, GetElementByRank l 5 = some (some a) ∧ l.heap[a]? = some n ∧
        n.Score = 500 ∧ n.Obj = "f") ∧
      l.Length = 7 :=
  ⟨by decide, by decide, C10_test_scenario [1, 3, 1, 2, 1, 4, 1] (by decide) (by decide)⟩

/-! ## Claims on ties, `Create`, the list level and `randomLevel` -/

set_option maxRecDepth 100000 in
/-- C11: after `Create`, `Insert(10, "b")` then `Insert(10, "a")`, for every choice
of the two tower heights in `[1, MaxLevel]`, the node for `"a"` precedes the node
for `"b"`: `GetElementByRank(1).Obj = "a"`, `GetElementByRank(2).Obj = "b"`, and
`GetRank(10, "a") = 1`. -/
theorem C11_ties (h1 h2 : Nat) (hh1 : 1 ≤ h1 ∧ h1 ≤ MaxLevel) (hh2 : 1 ≤ h2 ∧ h2 ≤ MaxLevel) :
    ∃ l, insertAll Create [(10, "b"), (10, "a")] [h1, h2] = some l ∧
      (∃ a n, GetElementByRank l 1 = some (some a) ∧ l.heap[a]? = some n ∧ n.Obj = "a") ∧
      (∃ a n, GetElementByRank l 2 = some (some a) ∧ l.heap[a]? = some n ∧ n.Obj = "b") ∧
      GetRank l 10 "a" = some 1 := by
  obtain ⟨l, cells, hrun, hR, hkeys⟩ :=
    insertAll_Create [(10, "b"), (10, "a")] [h1, h2] rfl (by
      intro h hh
      simp only [List.mem_cons, List.mem_singleton, List.not_mem_nil, or_false] at hh
      rcases hh with rfl | rfl
      · exact hh1
      · exact hh2) (by decide)
  have hsorted : sortPairs [(10, "b"), (10, "a")] = [(10, "a"), (10, "b")] := by decide
  rw [hsorted] at hkeys
  have hlenc : cells.length = 2 := by
    have := congrArg List.length hkeys
    rw [List.length_map] at this
    rw [this]; rfl
  refine ⟨l, hrun, ?_, ?_, ?_⟩
  · obtain ⟨a, n, hget, hn, hk⟩ := hR.element_at (k := 1) (by omega) (by omega)
    rw [hkeys] at hk
    have hk2 : (n.Score, n.Obj) = (10, "a") := by
      have h0 : ([(10, "a"), (10, "b")] : List (Int × String))[1 - 1]? = some (10, "a") := by
        decide
      rw [h0] at hk
      exact (Option.some.inj hk).symm
    exact ⟨a, n, hget, hn, congrArg Prod.snd hk2⟩
  · obtain ⟨a, n, hget, hn, hk⟩ := hR.element_at (k := 2) (by omega) (by omega)
    rw [hkeys] at hk
    have hk2 : (n.Score, n.Obj) = (10, "b") := by
      have h0 : ([(10, "a"), (10, "b")] : List (Int × String))[2 - 1]? = some (10, "b") := by
        decide
      rw [h0] at hk
      exact (Option.some.inj hk).symm
    exact ⟨a, n, hget, hn, congrArg Prod.snd hk2⟩
  · have := rank_of_member hR (p := (10, "a")) (by rw [hkeys]; decide)
      (by rw [hkeys]; decide) (by decide)
    rw [this, hkeys]
    decide

/-- Witness of C11: the towers 1 and 3. -/
theorem C11_witness :
    (1 ≤ 1 ∧ 1 ≤ MaxLevel) ∧ (1 ≤ 3 ∧ 3 ≤ MaxLevel) ∧
    ∃ l, insertAll Create [(10, "b"), (10, "a")] [1, 3] = some l ∧
      (∃ a n, GetElementByRank l 1 = some (some a) ∧ l.heap[a]? = some n ∧ n.Obj = "a") ∧
      (∃ a n, GetElementByRank l 2 = some (some a) ∧ l.heap[a]? = some n ∧ n.Obj = "b") ∧
      GetRank l 10 "a" = some 1 :=
  ⟨by decide, by decide, C11_ties 1 3 (by decide) (by decide)⟩

/-- C12: `Create` returns an empty list: `Length = 0`, `level = 1`, no tail, and a
header whose tower has exactly `MaxLevel = 32` levels, each with no forward link
and span 0. -/
theorem C12_create :
    MaxLevel = 32 ∧ Create.Length = 0 ∧ Create.level = 1 ∧ Create.tail = none ∧
    level0Pairs Create = some [] ∧
    ∃ hd n, Create.header = some hd ∧ Create.heap[hd]? = some n ∧
      n.level.length = 32 ∧ ∀ lv ∈ n.level, lv.forward = none ∧ lv.span = 0 := by
  refine ⟨rfl, rfl, rfl, rfl, by decide, 0, _, rfl, rfl, by decide, by decide⟩

/-- C15: in every reachable list the level satisfies `1 ≤ level ≤ MaxLevel`, the
header has no forward link at any level `≥ level`, and when `level > 1` the
header has a forward link at level `level - 1`. -/
theorem C15_level (l : SkipList) (hr : Reachable l) :
    1 ≤ l.level ∧ l.level ≤ MaxLevel ∧
    ∃ hd, l.header = some hd ∧
      (∀ j, l.level ≤ j → j < MaxLevel → ∃ s, getLevel l.heap hd j = some ⟨none, s⟩) ∧
      (1 < l.level → ∃ f s, getLevel l.heap hd (l.level - 1) = some ⟨some f, s⟩) := by
  obtain ⟨cells, hR⟩ := hr.rep
  refine ⟨hR.level_pos, hR.level_le, 0, hR.header, hR.shape.hdr_top, ?_⟩
  intro h1
  obtain ⟨c, hc, hch⟩ := hR.top h1
  rw [hR.shape.hdr_link (l.level - 1) (by omega)]
  rcases expLink_cases (l.level - 1) cells with ⟨_, hlow⟩ | ⟨m1, c1, m2, _, _, _, he⟩
  · have := hlow c hc
    omega
  · exact ⟨c1.addr, m1.length + 1, by rw [he]⟩

set_option maxRecDepth 100000 in
/-- Witness of C15: the list of the test, of level 4. -/
theorem C15_witness :
    Reachable testList ∧ 1 ≤ testList.level ∧ testList.level ≤ MaxLevel ∧
    ∃ hd, testList.header = some hd ∧
      (∀ j, testList.level ≤ j → j < MaxLevel →
        ∃ s, getLevel testList.heap hd j = some ⟨none, s⟩) ∧
      (1 < testList.level →
        ∃ f s, getLevel testList.heap hd (testList.level - 1) = some ⟨some f, s⟩) :=
  ⟨testList_reachable, C15_level testList testList_reachable⟩

theorem randomLevelLoop_spec (draws : Nat → ℚ) :
    ∀ (fuel i level : Nat), 1 ≤ level → level ≤ MaxLevel → MaxLevel < fuel + level →
      ∃ r, randomLevelLoop draws fuel i level = some r ∧ level ≤ r ∧ r ≤ MaxLevel ∧
        (∀ k, (∀ t, t < k → draws (i + t) < P) → ¬ draws (i + k) < P →
          r = min MaxLevel (level + k)) ∧
        ((∀ t, draws (i + t) < P) → r = MaxLevel) := by
  intro fuel
  induction fuel with
  | zero => intro i level _ h2 h3; omega
  | succ fuel ih =>
    intro i level h1 h2 h3
    unfold randomLevelLoop
    by_cases hc : draws i < P ∧ level < MaxLevel
    · rw [if_pos hc]
      obtain ⟨r, hrun, hle, hM, hfin, hinf⟩ := ih (i + 1) (level + 1) (by omega) (by omega)
        (by omega)
      refine ⟨r, hrun, by omega, hM, ?_, ?_⟩
      · intro k hk hkn
        cases k with
        | zero => exact absurd hc.1 hkn
        | succ k =>
          have := hfin k (fun t ht => by
            have := hk (t + 1) (by omega)
            rw [show i + 1 + t = i + (t + 1) by omega]; exact this) (by
            rw [show i + 1 + k = i + (k + 1) by omega]; exact hkn)
          rw [this, show level + 1 + k = level + (k + 1) by omega]
      · intro hall
        exact hinf (fun t => by rw [show i + 1 + t = i + (t + 1) by omega]; exact hall (t + 1))
    · rw [if_neg hc]
      refine ⟨level, rfl, Nat.le_refl _, h2, ?_, ?_⟩
      · intro k hk hkn
        by_cases hd : draws i < P
        · have : level = MaxLevel := by
            by_contra hne
            exact hc ⟨hd, by omega⟩
          rw [this]
          omega
        · cases k with
          | zero => simp [Nat.min_eq_right h2]
          | succ k => exact absurd (hk 0 (by omega)) hd
      · intro hall
        have hd := hall 0
        by_contra hne
        exact hc ⟨hd, by omega⟩

/-- C17: for every source of draws, `randomLevel` terminates and returns
`min(MaxLevel, 1 + k)` where `k` is the number of leading draws below `P`
(`MaxLevel` when every draw is below `P`); its result lies in `[1, MaxLevel]`,
and `MaxLevel = 32`. -/
theorem C17_randomLevel (draws : Nat → ℚ) :
    ∃ r, randomLevel draws = some r ∧ 1 ≤ r ∧ r ≤ MaxLevel ∧ MaxLevel = 32 ∧
      (∀ k, (∀ t, t < k → draws t < P) → ¬ draws k < P → r = min MaxLevel (1 + k)) ∧
      ((∀ t, draws t < P) → r = MaxLevel) := by
  obtain ⟨r, hrun, hle, hM, hfin, hinf⟩ :=
    randomLevelLoop_spec draws MaxLevel 0 1 (Nat.le_refl _) (by decide) (by omega)
  refine ⟨r, hrun, hle, hM, rfl, ?_, ?_⟩
  · intro k hk hkn
    exact hfin k (fun t ht => by rw [Nat.zero_add]; exact hk t ht)
      (by rw [Nat.zero_add]; exact hkn)
  · intro hall
    exact hinf (fun t => by rw [Nat.zero_add]; exact hall t)

/-! ## The chains of a represented list -/

theorem chainAddrs_zero {h : List Node} {L : Nat} {cells : List Cell} (hS : Shape h L cells)
    (hheights : ∀ c ∈ cells, 1 ≤ c.height) :
    ∀ (Q P : List Cell) (fuel : Nat), cells = P ++ Q → Q.length ≤ fuel →
      chainAddrs h 0 fuel (Q.head?.map Cell.addr) = some (Q.map Cell.addr) := by
  intro Q
  induction Q with
  | nil =>
    intro P fuel _ _
    cases fuel <;> rfl
  | cons c Q ih =>
    intro P fuel hPQ hfuel
    cases fuel with
    | zero => simp at hfuel
    | succ fuel =>
      have hc : c ∈ cells := by rw [hPQ]; simp
      have hlk := hS.link P c Q hPQ 0 (hheights c hc)
      have hfw : (expLink 0 Q).forward = Q.head?.map Cell.addr :=
        expLink_zero_forward (fun c1 hc1 => hheights c1 (by rw [hPQ]; simp [hc1]))
      simp only [List.head?_cons, Option.map_some', chainAddrs, hlk, hfw]
      rw [ih (P ++ [c]) fuel (by rw [hPQ]; simp) (by simp at hfuel; omega)]
      simp

theorem Rep.levelAddrs_zero {l : SkipList} {cells : List Cell} (hR : Rep l cells) :
    levelAddrs l 0 = some (cells.map Cell.addr) := by
  have hheights : ∀ c ∈ cells, 1 ≤ c.height := fun c hc => (hR.height_ok c hc).1
  unfold levelAddrs
  rw [hR.header]
  simp only
  rw [hR.shape.hdr_link 0 hR.level_pos]
  simp only
  rw [expLink_zero_forward hheights]
  exact chainAddrs_zero hR.shape hheights cells [] _ rfl (by have := hR.shape.heap_gt; omega)

theorem chainSums_spec {h : List Node} {L : Nat} {cells : List Cell} (hS : Shape h L cells)
    {j : Nat} (hj : j < L) :
    ∀ (fuel : Nat) (A1 : List Cell) (c : Cell) (rest : List Cell),
      hdrCell :: cells = A1 ++ c :: rest → j < c.height → rest.length < fuel →
      ∃ sums, chainSums h j fuel c.addr A1.length = some sums ∧
        (∀ p ∈ sums, ∃ B t T, hdrCell :: cells = B ++ t :: T ∧ t.addr = p.1 ∧
          B.length = p.2 ∧ A1.length < B.length) ∧
        ((∀ c1 ∈ rest, j < c1.height) →
          sums.map Prod.fst = rest.map Cell.addr ∧
          sums.map Prod.snd = List.range' (A1.length + 1) rest.length) := by
  intro fuel
  induction fuel with
  | zero => intro A1 c rest _ _ hf; omega
  | succ fuel ih =>
    intro A1 c rest hsplit hc hfuel
    have hlink := hS.full_link hsplit hj hc
    unfold chainSums
    rw [hlink]
    simp only
    rcases expLink_cases j rest with ⟨he, hlow⟩ | ⟨m1, c1, m2, hrest, hc1, hm1, he⟩
    · rw [he]
      refine ⟨[], rfl, by simp, ?_⟩
      intro hall
      cases rest with
      | nil => simp
      | cons r rs =>
        have h1 := hlow r (List.mem_cons_self _ _)
        have h2 := hall r (List.mem_cons_self _ _)
        omega
    · rw [he]
      simp only
      have hsplit2 : hdrCell :: cells = (A1 ++ c :: m1) ++ c1 :: m2 := by
        rw [hsplit, hrest]; simp
      obtain ⟨sums, hrun, hmem, henum⟩ := ih (A1 ++ c :: m1) c1 m2 hsplit2 hc1
        (by rw [hrest] at hfuel; simp at hfuel; omega)
      have hlen : (A1 ++ c :: m1).length = A1.length + (m1.length + 1) := by simp
      rw [hlen] at hrun hmem henum
      rw [hrun]
      refine ⟨_, rfl, ?_, ?_⟩
      · intro p hp
        rcases List.mem_cons.mp hp with rfl | hp1
        · exact ⟨A1 ++ c :: m1, c1, m2, hsplit2, rfl, hlen, by omega⟩
        · obtain ⟨B, t, T, e1, e2, e3, e4⟩ := hmem p hp1
          exact ⟨B, t, T, e1, e2, e3, by omega⟩
      · intro hall
        have hm1nil : m1 = [] := by
          cases m1 with
          | nil => rfl
          | cons r rs =>
            have h1 := hm1 r (List.mem_cons_self _ _)
            have h2 := hall r (by rw [hrest]; simp)
            omega
        subst hm1nil
        obtain ⟨e1, e2⟩ := henum (fun c2 hc2 => hall c2 (by rw [hrest]; simp [hc2]))
        simp only [List.nil_append] at hrest
        simp only [List.length_nil, Nat.zero_add] at e2
        rw [hrest]
        constructor
        · simp [e1]
        · simp [List.range'_succ, e2]

theorem backwardChain_spec {h : List Node} {L : Nat} {cells : List Cell}
    (hS : Shape h L cells) :
    ∀ (fuel : Nat) (P : List Cell) (c : Cell) (Q : List Cell), cells = P ++ c :: Q →
      P.length < fuel →
      backwardChain h fuel (some c.addr) = some (c.addr :: (P.map Cell.addr).reverse) := by
  intro fuel
  induction fuel with
  | zero => intro P c Q _ hf; omega
  | succ fuel ih =>
    intro P c Q hPQ hfuel
    have hb := hS.back P c Q hPQ
    unfold backwardChain
    rw [hb]
    simp only
    rcases List.eq_nil_or_concat P with hP | ⟨P1, d, hP⟩
    · subst hP
      cases fuel <;> simp [backwardChain]
    · rw [List.concat_eq_append] at hP
      subst hP
      have hlast : (P1 ++ [d]).getLast? = some d := by simp
      rw [hlast]
      simp only [Option.map_some']
      rw [ih P1 d (c :: Q) (by rw [hPQ]; simp) (by simp at hfuel; omega)]
      simp

theorem Rep.backwardChain_tail {l : SkipList} {cells : List Cell} (hR : Rep l cells) :
    backwardChain l.heap l.heap.length l.tail = some (cells.map Cell.addr).reverse := by
  rw [hR.tail_eq]
  rcases List.eq_nil_or_concat cells with hc | ⟨P, c, hc⟩
  · subst hc
    cases l.heap.length <;> rfl
  · rw [List.concat_eq_append] at hc
    have hlast : cells.getLast? = some c := by rw [hc]; simp
    rw [hlast]
    simp only [Option.map_some']
    have hgt := hR.shape.heap_gt
    rw [backwardChain_spec hR.shape l.heap.length P c [] hc
      (by rw [hc] at hgt; simp at hgt; omega), hc]
    simp

/-! ## Claims on spans, backward links and order -/

/-- C13: in every reachable list, the level-0 chain holds `Length` pairwise
distinct nodes; for every level `j` below the list level, every node `X` of the
level-`j` chain from the header is reached with a span sum `s` such that `X` is
the `s`-th node of the level-0 chain; and along the level-0 chain the span sums
are `1, 2, ..., Length`. -/
theorem C13_span_sums (l : SkipList) (hr : Reachable l) :
    ∃ addrs, levelAddrs l 0 = some addrs ∧ addrs.Nodup ∧ addrs.length = l.Length ∧
      (∀ j, j < l.level → ∃ sums, levelSums l j = some sums ∧
        ∀ p ∈ sums, 1 ≤ p.2 ∧ addrs[p.2 - 1]? = some p.1) ∧
      (∃ sums0, levelSums l 0 = some sums0 ∧ sums0.map Prod.fst = addrs ∧
        sums0.map Prod.snd = List.range' 1 l.Length) := by
  obtain ⟨cells, hR⟩ := hr.rep
  have hgt := hR.shape.heap_gt
  have hwalk : ∀ j, j < l.level → ∃ sums, levelSums l j = some sums ∧
      (∀ p ∈ sums, ∃ B t T, hdrCell :: cells = B ++ t :: T ∧ t.addr = p.1 ∧
        B.length = p.2 ∧ 0 < B.length) ∧
      ((∀ c1 ∈ cells, j < c1.height) →
        sums.map Prod.fst = cells.map Cell.addr ∧
        sums.map Prod.snd = List.range' 1 cells.length) := by
    intro j hj
    obtain ⟨sums, hrun, hmem, henum⟩ := chainSums_spec hR.shape hj l.heap.length [] hdrCell
      cells rfl (by show j < MaxLevel; have := hR.level_le; omega) (by omega)
    refine ⟨sums, ?_, hmem, henum⟩
    unfold levelSums
    rw [hR.header]
    exact hrun
  refine ⟨_, hR.levelAddrs_zero, hR.shape.addr_nodup, by rw [List.length_map, hR.length_eq],
    ?_, ?_⟩
  · intro j hj
    obtain ⟨sums, hrun, hmem, _⟩ := hwalk j hj
    refine ⟨sums, hrun, ?_⟩
    intro p hp
    obtain ⟨B, t, T, hsplit, ht, hB, hpos⟩ := hmem p hp
    cases B with
    | nil => simp at hpos
    | cons b B =>
      simp only [List.cons_append, List.cons.injEq] at hsplit
      simp only [List.length_cons] at hB
      refine ⟨by omega, ?_⟩
      have hk : p.2 - 1 = B.length := by omega
      rw [hk, hsplit.2, List.map_append, List.map_cons,
        List.getElem?_append_right (by simp)]
      simp [ht]
  · obtain ⟨sums, hrun, _, henum⟩ := hwalk 0 hR.level_pos
    obtain ⟨e1, e2⟩ := henum (fun c hc => (hR.height_ok c hc).1)
    exact ⟨sums, hrun, e1, by rw [e2, hR.length_eq]⟩

set_option maxRecDepth 100000 in
/-- Witness of C13: the list of the test. -/
theorem C13_witness :
    Reachable testList ∧
    ∃ addrs, levelAddrs testList 0 = some addrs ∧ addrs.Nodup ∧
      addrs.length = testList.Length ∧
      (∀ j, j < testList.level → ∃ sums, levelSums testList j = some sums ∧
        ∀ p ∈ sums, 1 ≤ p.2 ∧ addrs[p.2 - 1]? = some p.1) ∧
      (∃ sums0, levelSums testList 0 = some sums0 ∧ sums0.map Prod.fst = addrs ∧
        sums0.map Prod.snd = List.range' 1 testList.Length) :=
  ⟨testList_reachable, C13_span_sums testList testList_reachable⟩

/-- C14: in every reachable list, `tail` is absent exactly when the list is empty
and otherwise is the last node of the level-0 chain; following `backward` from
`tail` visits exactly the nodes of the level-0 chain in reverse order, the first
real node has no backward link, and the header is neither a real node nor a
backward target. -/
theorem C14_backward_chain (l : SkipList) (hr : Reachable l) :
    ∃ addrs, levelAddrs l 0 = some addrs ∧ (l.tail = none ↔ l.Length = 0) ∧
      l.tail = addrs.getLast? ∧
      backwardChain l.heap l.heap.length l.tail = some addrs.reverse ∧
      (∀ a, addrs.head? = some a → backwardAt l.heap a = some none) ∧
      (∀ hd, l.header = some hd →
        hd ∉ addrs ∧ ∀ a ∈ addrs, backwardAt l.heap a ≠ some (some hd)) := by
  obtain ⟨cells, hR⟩ := hr.rep
  refine ⟨_, hR.levelAddrs_zero, ?_, ?_, hR.backwardChain_tail, ?_, ?_⟩
  · rw [hR.tail_eq, hR.length_eq]
    cases cells with
    | nil => simp
    | cons c cs =>
      simp only [List.length_cons, Nat.add_one_ne_zero, iff_false]
      rw [List.getLast?_eq_getLast _ (by simp)]
      simp
  · rw [hR.tail_eq, List.getLast?_map]
  · intro a ha
    cases cells with
    | nil => simp at ha
    | cons c cs =>
      simp only [List.map_cons, List.head?_cons, Option.some.injEq] at ha
      rw [← ha, hR.shape.back [] c cs rfl]
      rfl
  · intro hd hhd
    rw [hR.header] at hhd
    simp only [Option.some.injEq] at hhd
    subst hhd
    have hpos : ∀ c ∈ cells, c.addr ≠ 0 := fun c hc => by
      have := (hR.shape.addr_ok c hc).1
      omega
    constructor
    · intro hmem
      obtain ⟨c, hc, hca⟩ := List.mem_map.mp hmem
      exact hpos c hc hca
    · intro a ha
      obtain ⟨c, hc, hca⟩ := List.mem_map.mp ha
      obtain ⟨P, Q, hsplit⟩ := List.append_of_mem hc
      rw [← hca, hR.shape.back P c Q hsplit]
      intro heq
      simp only [Option.some.injEq] at heq
      obtain ⟨d, hd, hda⟩ := Option.map_eq_some'.mp heq
      exact hpos d (by rw [hsplit]; simp [List.mem_of_getLast?_eq_some hd]) hda

set_option maxRecDepth 100000 in
/-- Witness of C14: the list of the test. -/
theorem C14_witness :
    Reachable testList ∧
    ∃ addrs, levelAddrs testList 0 = some addrs ∧
      (testList.tail = none ↔ testList.Length = 0) ∧
      testList.tail = addrs.getLast? ∧
      backwardChain testList.heap testList.heap.length testList.tail = some addrs.reverse ∧
      (∀ a, addrs.head? = some a → backwardAt testList.heap a = some none) ∧
      (∀ hd, testList.header = some hd →
        hd ∉ addrs ∧ ∀ a ∈ addrs, backwardAt testList.heap a ≠ some (some hd)) :=
  ⟨testList_reachable, C14_backward_chain testList testList_reachable⟩

/-! ## Lists without duplicates -/

theorem pairLt_of_le_of_ne {a b : Int × String} (hle : pairLe a b) (hne : a ≠ b) :
    pairLt a b := by
  rw [pairLe_iff] at hle
  rw [pairLt_iff]
  exact lt_of_le_of_ne hle (fun h => hne (toLex_inj.mp h))

theorem ReachableUnique.reachable {l : SkipList} (h : ReachableUnique l) : Reachable l := by
  induction h with
  | create => exact Reachable.create
  | insert score obj level _ h1 h2 hroom _ _ hins ih =>
    exact Reachable.insert score obj level ih h1 h2 hroom hins
  | delete score obj _ hdel ih => exact Reachable.delete score obj ih hdel

theorem ReachableUnique.rep_nodup {l : SkipList} (h : ReachableUnique l) :
    ∃ cells, Rep l cells ∧ (cells.map Cell.key).Nodup := by
  induction h with
  | create => exact ⟨[], rep_Create, by simp⟩
  | insert score obj level _ h1 h2 hroom hp hnot hins ih =>
    obtain ⟨cells, hR, hnd⟩ := ih
    rw [hR.level0Pairs] at hp
    simp only [Option.some.injEq] at hp
    subst hp
    obtain ⟨l1, pre, post, hrun, hcells, _, _, hR1⟩ :=
      hR.insert score obj h1 h2 (by rw [← hR.length_eq]; exact hroom)
    rw [hrun] at hins
    simp only [Option.some.injEq, Prod.mk.injEq] at hins
    rw [← hins.1]
    refine ⟨_, hR1, ?_⟩
    have hperm : ∀ c : Cell, ((pre ++ c :: post).map Cell.key).Perm
        (c.key :: cells.map Cell.key) := by
      intro c
      rw [hcells]
      simp only [List.map_append, List.map_cons]
      exact List.perm_middle
    rw [(hperm _).nodup_iff, List.nodup_cons]
    exact ⟨hnot, hnd⟩
  | delete score obj _ hdel ih =>
    obtain ⟨cells, hR, hnd⟩ := ih
    obtain ⟨pre, post, hcells, _, _, hno, hyes⟩ := hR.delete score obj
    cases hp : post with
    | nil =>
      rw [hno (by intro cx rest h; rw [hp] at h; cases h)] at hdel
      simp only [Option.some.injEq, Prod.mk.injEq] at hdel
      rw [← hdel.1]
      exact ⟨cells, hR, hnd⟩
    | cons cx rest =>
      by_cases hk : cx.key = (score, obj)
      · obtain ⟨l2, hrun, hR2⟩ := hyes cx rest hp hk
        rw [hrun] at hdel
        simp only [Option.some.injEq, Prod.mk.injEq] at hdel
        rw [← hdel.1]
        refine ⟨_, hR2, ?_⟩
        rw [hcells, hp] at hnd
        exact hnd.sublist
          ((List.Sublist.append_left (List.sublist_cons_self cx rest) pre).map _)
      · rw [hno (by
          intro cx1 rest1 h
          rw [hp] at h
          simp only [List.cons.injEq] at h
          rw [← h.1]; exact hk)] at hdel
        simp only [Option.some.injEq, Prod.mk.injEq] at hdel
        rw [← hdel.1]
        exact ⟨cells, hR, hnd⟩

theorem insertAll_reachableUnique :
    ∀ (ps : List (Int × String)) (hs : List Nat) (l l1 : SkipList) (cells : List Cell),
      ReachableUnique l → Rep l cells → (cells.map Cell.key ++ ps).Nodup →
      (∀ h ∈ hs, 1 ≤ h ∧ h ≤ MaxLevel) → l.Length + ps.length < U64 →
      insertAll l ps hs = some l1 → ReachableUnique l1 := by
  intro ps
  induction ps with
  | nil =>
    intro hs l l1 cells hr _ _ _ _ hrun
    cases hs <;> simp only [insertAll, Option.some.injEq] at hrun <;> rw [← hrun] <;> exact hr
  | cons p ps ih =>
    intro hs l l1 cells hr hR hnd hh hroom hrun
    cases hs with
    | nil => simp [insertAll] at hrun
    | cons h hs =>
      simp only [List.length_cons] at hroom
      have hh1 := hh h (List.mem_cons_self _ _)
      obtain ⟨l2, pre, post, hins, hcells, _, _, hR2⟩ :=
        hR.insert p.1 p.2 hh1.1 hh1.2 (by rw [← hR.length_eq]; omega)
      unfold insertAll at hrun
      rw [hins] at hrun
      simp only at hrun
      have hlen2 : l2.Length = l.Length + 1 := by
        rw [hR2.length_eq, hR.length_eq, hcells]; simp; omega
      have hnot : (p.1, p.2) ∉ cells.map Cell.key := by
        intro hmem
        rw [List.nodup_append] at hnd
        exact hnd.2.2 hmem (List.mem_cons_self _ _)
      refine ih hs l2 l1 _ (ReachableUnique.insert p.1 p.2 h hr hh1.1 hh1.2 (by omega)
        hR.level0Pairs hnot hins) hR2 ?_ (fun x hx => hh x (List.mem_cons_of_mem _ hx))
        (by omega) hrun
      have hperm : ((pre ++ ⟨l.heap.length, p.1, p.2, h⟩ :: post).map Cell.key ++ ps).Perm
          (cells.map Cell.key ++ p :: ps) := by
        rw [hcells]
        simp only [List.map_append, List.map_cons, List.append_assoc, List.cons_append]
        exact List.Perm.append_left _ List.perm_middle.symm
      exact hperm.nodup_iff.mpr hnd

set_option maxRecDepth 100000 in
theorem testList_reachableUnique : ReachableUnique testList :=
  insertAll_reachableUnique testPairs [1, 3, 1, 2, 1, 4, 1] Create testList []
    ReachableUnique.create rep_Create (by decide) (by decide) (by decide) (by decide)

/-- In the model with `Int` scores: in every list reachable with no pair inserted
while an equal pair is stored, for every level `L` below the list level and every
real node `X` whose tower reaches level `L`, the node reached by the level-`L`
forward link of `X`, if present, is strictly greater than `X` in the (score, then
member) order. -/
theorem forward_strict (l : SkipList) (hr : ReachableUnique l) (addrs : List Nat)
    (ha : levelAddrs l 0 = some addrs) (X : Nat) (hX : X ∈ addrs) (L : Nat)
    (_hL : L < l.level) (lv : Level) (hlv : getLevel l.heap X L = some lv) (f : Nat)
    (hf : lv.forward = some f) :
    ∃ nX nf, l.heap[X]? = some nX ∧ l.heap[f]? = some nf ∧
      pairLt (nX.Score, nX.Obj) (nf.Score, nf.Obj) := by
  obtain ⟨cells, hR, hnd⟩ := hr.rep_nodup
  rw [hR.levelAddrs_zero] at ha
  simp only [Option.some.injEq] at ha
  subst ha
  obtain ⟨c, hc, hca⟩ := List.mem_map.mp hX
  subst hca
  obtain ⟨P, Q, hsplit⟩ := List.append_of_mem hc
  obtain ⟨o, s, t, hinfo, hLt⟩ := info_of_getLevel hlv
  rw [hR.shape.info c hc] at hinfo
  simp only [Option.some.injEq, Prod.mk.injEq] at hinfo
  have hLc : L < c.height := by omega
  rw [hR.shape.link P c Q hsplit L hLc] at hlv
  simp only [Option.some.injEq] at hlv
  rw [← hlv] at hf
  obtain ⟨c1, hc1, hc1a⟩ := expLink_forward_mem hf
  subst hc1a
  have hc1c : c1 ∈ cells := by rw [hsplit]; simp [hc1]
  obtain ⟨n, hn, hobj, hsc, _⟩ := hR.readCell hc
  obtain ⟨n1, hn1, hobj1, hsc1, _⟩ := hR.readCell hc1c
  refine ⟨n, n1, hn, hn1, ?_⟩
  rw [hobj, hsc, hobj1, hsc1]
  have hs := hR.sorted
  rw [hsplit, List.map_append, List.map_cons, List.pairwise_append,
    List.pairwise_cons] at hs
  have hle := hs.2.1.1 c1.key (List.mem_map_of_mem _ hc1)
  have hne := (map_ne_of_split Cell.key hnd hsplit).2 c1 hc1
  exact pairLt_of_le_of_ne hle (fun h => hne h.symm)

/-! ## `GetRank` after `GetElementByRank` -/

/-- In a reachable list whose members are pairwise distinct, `GetRank` of the
element of rank `r` is `r` when the member of that element is not empty. -/
theorem rank_of_element (l : SkipList) (hr : Reachable l) (pairs : List (Int × String))
    (hp : level0Pairs l = some pairs) (hnd : (pairs.map Prod.snd).Nodup) (r : Nat)
    (h1 : 1 ≤ r) (h2 : r ≤ l.Length) :
    ∃ a n, GetElementByRank l r = some (some a) ∧ l.heap[a]? = some n ∧
      (n.Obj ≠ "" → GetRank l n.Score n.Obj = some r) := by
  obtain ⟨cells, hR⟩ := hr.rep
  rw [hR.level0Pairs] at hp
  simp only [Option.some.injEq] at hp
  subst hp
  rw [← map_obj_eq] at hnd
  obtain ⟨res, hrun, _, hsome⟩ := hR.getElementByRank (k := r)
    (by have := hR.length_lt; have := hR.length_eq; omega)
  obtain ⟨B, t, T, hsplit, hB, hres⟩ := hsome (by rw [← hR.length_eq]; exact h2)
  cases B with
  | nil => simp at hB; omega
  | cons b B =>
    simp only [List.cons_append, List.cons.injEq] at hsplit
    simp only [List.length_cons] at hB
    have ht : t ∈ cells := by rw [hsplit.2]; simp
    obtain ⟨n, hn, hobj, hsc, _⟩ := hR.readCell ht
    refine ⟨t.addr, n, by rw [hrun, hres], hn, ?_⟩
    intro hne
    rw [hobj] at hne
    rw [hobj, hsc, hR.rank_stored hnd hne hsplit.2 rfl, hB]

set_option maxRecDepth 100000 in
/-- C18 fails on the code: the members `""` and `"z"` are pairwise distinct, the
element of rank 1 of the list built from `(5, "")` and `(9, "z")` with towers 1
and 2 is `(5, "")`, and `GetRank(5, "")` returns 0, not 1: at the top level the
walk stays on the header, whose `Obj` is the empty string.  With the towers 2 and
1 the same call returns 1: the result depends on the draws of `randomLevel`. -/
theorem C18_rank_of_element_empty_member :
    ([((5 : Int), ""), (9, "z")].map Prod.snd).Nodup ∧
    (∀ h ∈ [1, 2], 1 ≤ h ∧ h ≤ MaxLevel) ∧
    (insertAll Create [(5, ""), (9, "z")] [1, 2]).bind
      (fun l => (GetElementByRank l 1).bind (fun e => e.bind (fun a =>
        (l.heap[a]?).map (fun n => (n.Score, n.Obj))))) = some (5, "") ∧
    (insertAll Create [(5, ""), (9, "z")] [1, 2]).bind (fun l => GetRank l 5 "") = some 0 ∧
    (insertAll Create [(5, ""), (9, "z")] [2, 1]).bind (fun l => GetRank l 5 "") = some 1 := by
  decide

/-! ## No operation panics -/

theorem Shape.full_read {h : List Node} {L : Nat} {cells : List Cell} (hS : Shape h L cells)
    {c : Cell} (hc : c ∈ hdrCell :: cells) :
    ∃ n, h[c.addr]? = some n ∧ n.level.length = c.height := by
  rcases List.mem_cons.mp hc with rfl | h1
  · obtain ⟨n, hn, _, _, hl⟩ := nodeInfo_read hS.hdr_info
    exact ⟨n, hn, hl⟩
  · obtain ⟨n, hn, _, _, hl⟩ := hS.read h1
    exact ⟨n, hn, hl⟩

/-- The run of `Insert` on a represented list: the search and the raising of the
list level succeed, every entry of `update` below the new list level is a node
whose tower reaches that level, and `Insert` returns. -/
theorem insert_runs {l : SkipList} {cells : List Cell} (hR : Rep l cells)
    (score : Int) (obj : String) {level : Nat} (hl1 : 1 ≤ level) (hlM : level ≤ MaxLevel) :
    ∃ update0 rank0 h1 update rank r,
      insertSearch l.heap score obj l.level l.level 0
        (List.replicate MaxLevel none) (List.replicate MaxLevel 0) = some (update0, rank0) ∧
      (if level > l.level then
         insertRaise l.Length l.header (level - l.level) l.level l.heap update0 rank0
       else some (l.heap, update0, rank0)) = some (h1, update, rank) ∧
      (∀ i, i < (if level > l.level then level else l.level) →
        ∃ u n, update[i]? = some (some u) ∧ h1[u]? = some n ∧ i < n.level.length) ∧
      Insert l score obj level = some r := by
  obtain ⟨pre, post, hcells, hpre, hpost⟩ := sorted_split cells hR.sorted (score, obj)
  obtain ⟨update0, rank0, hsearch, hul0, hrl0, hs0⟩ :=
    hR.insertSearch score obj hcells hpre hpost
  obtain ⟨h1, update, rank, hraise, hlen1, hS1, hs⟩ :=
    insert_raise_phase hR hcells hul0 hrl0 hs0 hlM
  generalize hLdef : (if level > l.level then level else l.level) = L at hS1 hs
  have hLl : l.level ≤ L := by rw [← hLdef]; split <;> omega
  have hLlev : level ≤ L := by rw [← hLdef]; split <;> omega
  have hheights : ∀ c ∈ cells, 1 ≤ c.height := fun c hc => (hR.height_ok c hc).1
  have hL : 0 < L := by omega
  obtain ⟨hr0, A0, u0, hA0, hup0⟩ := search_fact_zero hS1 hcells hheights hL (hs 0 hL)
  have hupd : ∀ i, i < L →
      ∃ u n, update[i]? = some (some u) ∧ h1[u]? = some n ∧ i < n.level.length := by
    intro i hi
    obtain ⟨A1, u, mid, _, hu, _, hupd, _, _, hfull, _, _⟩ :=
      search_fact hS1 hcells hi (hs i hi)
    obtain ⟨n, hn, hnl⟩ := hS1.full_read (show u ∈ hdrCell :: cells by rw [hfull]; simp)
    exact ⟨u.addr, n, hupd, hn, by omega⟩
  obtain ⟨ha1, ha2, ha3, ha4, ha5, ha6⟩ := alloc_spec h1 (newNode score obj level)
  have hxk : ∀ k, k < level → getLevel (h1 ++ [newNode score obj level]) h1.length k =
      some ⟨none, 0⟩ := by
    intro k hk
    rw [ha6]
    simp [newNode, List.getElem?_replicate, hk]
  obtain ⟨h3, hrun3, hlen3, hinfo3, hback3, hout3, hin3⟩ :=
    insertSplice_spec h1.length update rank level 0 _ (by
      intro k _ hk
      obtain ⟨A1, u, mid, _, _, _, hupd, hrk, hult, _, hlk, _⟩ :=
        search_fact hS1 hcells (by omega : k < L) (hs k (by omega))
      exact ⟨u.addr, _, _, _, _, hupd, by omega, by rw [ha3 _ _ hult]; exact hlk,
        hxk k (by omega), hr0, hrk⟩)
  obtain ⟨h4, hrun4, hlen4, hinfo4, hback4, hout4, hin4⟩ :=
    insertBump_spec update (L - level) level h3 (by
      intro k hk1 hk2
      obtain ⟨A1, u, mid, _, _, _, hupd, hrk, hult, _, hlk, _⟩ :=
        search_fact hS1 hcells (by omega : k < L) (hs k (by omega))
      exact ⟨u.addr, _, hupd, by rw [hout3 _ _ (by omega), ha3 _ _ hult]; exact hlk⟩)
  simp only [Nat.zero_add, Nat.zero_le, true_and, forall_true_left] at hout3 hin3
  have hlen2 : (h1 ++ [newNode score obj level]).length = h1.length + 1 := by simp
  have hX4 : h1.length < h4.length := by omega
  -- the level-0 link of the new node
  obtain ⟨A1, u, mid, _, _, _, hupd0, hrk0, hult, hfull0, hlk0, _⟩ :=
    search_fact hS1 hcells hL (hs 0 hL)
  obtain ⟨e1, _, _⟩ := hin3 0 (by omega) u.addr _ _ _ hupd0
    (by rw [ha3 _ _ hult]; exact hlk0) hr0 hrk0
  have hx4 : getLevel h4 h1.length 0 =
      some ⟨(expLink 0 (mid ++ post)).forward,
        u64sub (expLink 0 (mid ++ post)).span (u64sub pre.length A1.length)⟩ := by
    rw [hout4 _ _ (by omega), e1]
  -- the backward pointer of the new node
  have hph5 : ∃ h5, (if some u0.addr ≠ l.header then setBackward h4 h1.length (some u0.addr)
        else some h4) = some h5 ∧ h5.length = h4.length ∧
      (∀ b k, getLevel h5 b k = getLevel h4 b k) := by
    by_cases hc : some u0.addr ≠ l.header
    · rw [if_pos hc]
      obtain ⟨h5, hs5⟩ := setBackward_some (some u0.addr) hX4
      obtain ⟨e1, _, _, e4⟩ := setBackward_spec hs5
      exact ⟨h5, hs5, e1, e4⟩
    · rw [if_neg hc]
      exact ⟨h4, rfl, rfl, fun _ _ => rfl⟩
  obtain ⟨h5, hrun5, hlen5, hlink5⟩ := hph5
  cases hf : (expLink 0 (mid ++ post)).forward with
  | none =>
    rw [hf] at hx4
    refine ⟨update0, rank0, h1, update, rank,
      ({ heap := h5, Length := u64add l.Length 1, header := l.header,
         tail := some h1.length, level := L }, h1.length), hsearch, hraise, hupd, ?_⟩
    unfold Insert
    rw [hR.header]
    simp only
    rw [hsearch]
    simp only
    rw [← hR.header, hraise]
    simp only
    rw [hrun3]
    simp only
    rw [hLdef, hrun4]
    simp only
    rw [hup0]
    simp only
    rw [hrun5]
    simp only
    rw [hlink5, hx4]
  | some f =>
    rw [hf] at hx4
    obtain ⟨c, hc, hca⟩ := expLink_forward_mem hf
    have hcl : c.addr < h1.length :=
      hS1.full_addr_lt (List.mem_cons_of_mem _ (mem_of_full_split hfull0 c hc))
    obtain ⟨h6, hs6⟩ := setBackward_some (h := h5) (a := f) (some h1.length) (by omega)
    refine ⟨update0, rank0, h1, update, rank,
      ({ heap := h6, Length := u64add l.Length 1, header := l.header,
         tail := l.tail, level := L }, h1.length), hsearch, hraise, hupd, ?_⟩
    unfold Insert
    rw [hR.header]
    simp only
    rw [hsearch]
    simp only
    rw [← hR.header, hraise]
    simp only
    rw [hrun3]
    simp only
    rw [hLdef, hrun4]
    simp only
    rw [hup0]
    simp only
    rw [hrun5]
    simp only
    rw [hlink5, hx4]
    simp only
    rw [hs6]

/-- The run of `Delete` on a represented list: the search succeeds, every entry
of `update` below the list level is a node whose tower reaches that level, the
node its link of that level leads to has a tower that reaches the level too, and
`Delete` returns. -/
theorem delete_runs {l : SkipList} {cells : List Cell} (hR : Rep l cells)
    (score : Int) (obj : String) :
    ∃ x0 update r,
      deleteSearch l.heap score obj l.level 0 (List.replicate MaxLevel none) =
        some (x0, update) ∧
      (∀ i, i < l.level → ∃ u n lu, update[i]? = some (some u) ∧ l.heap[u]? = some n ∧
        i < n.level.length ∧ getLevel l.heap u i = some lu ∧
        ∀ x, lu.forward = some x → ∃ nx, l.heap[x]? = some nx ∧ i < nx.level.length) ∧
      Delete l score obj = some r := by
  obtain ⟨pre, post, hcells, hpre, hpost, hno, hyes⟩ := hR.delete score obj
  obtain ⟨update, rank, hsearch, _, _, hs⟩ := hR.insertSearch score obj hcells hpre hpost
  obtain ⟨x0, hdsearch, _, _⟩ := deleteSearch_of_insertSearch _ _ _ _ _ _ _ _ _ _ hsearch
  have hret : ∃ r, Delete l score obj = some r := by
    cases hp : post with
    | nil => exact ⟨_, hno (by intro cx rest h; rw [hp] at h; cases h)⟩
    | cons cx rest =>
      by_cases hk : cx.key = (score, obj)
      · obtain ⟨l1, hrun, _⟩ := hyes cx rest hp hk
        exact ⟨_, hrun⟩
      · exact ⟨_, hno (by
          intro cx1 rest1 h
          rw [hp] at h
          simp only [List.cons.injEq] at h
          rw [← h.1]; exact hk)⟩
  obtain ⟨r, hr⟩ := hret
  refine ⟨x0, update, r, hdsearch, ?_, hr⟩
  intro i hi
  obtain ⟨A1, u, mid, _, hu, _, hupd, _, _, hfull, hlk, _⟩ :=
    search_fact hR.shape hcells hi (hs i hi)
  obtain ⟨n, hn, hnl⟩ := hR.shape.full_read (show u ∈ hdrCell :: cells by rw [hfull]; simp)
  refine ⟨u.addr, n, _, hupd, hn, by omega, hlk, ?_⟩
  intro x hx
  rcases expLink_cases i (mid ++ post) with ⟨h1, _⟩ | ⟨m1, c, m2, hcs, hch, _, h1⟩
  · rw [h1] at hx; cases hx
  · rw [h1] at hx
    simp only [Option.some.injEq] at hx
    have hc : c ∈ cells := mem_of_full_split hfull c (by rw [hcs]; simp)
    obtain ⟨nx, hnx, _, _, hnxl⟩ := hR.readCell hc
    exact ⟨nx, by rw [← hx]; exact hnx, by omega⟩

/-- C20: on every list reachable from `Create` by `Insert` and `Delete`, for all
arguments and every tower height in `[1, MaxLevel]`, the four operations return
(in the model a panic, an index out of range or a nil dereference, is the result
`none`): `Insert`, whose entries `update[i]` below the new list level, those used
by the splice and the span loops, are present with a tower of more than `i`
levels; `Delete`, whose entries `update[i]` below the list level are present with
a tower of more than `i` levels, the node reached by the level-`i` link of
`update[i]`, so the deleted node when it is that one, having a tower of more than
`i` levels too; `GetRank`; and `GetElementByRank` for every `uint64` rank. -/
theorem C20_no_panic (l : SkipList) (hr : Reachable l) :
    (∀ (score : Int) (obj : String) (level : Nat), 1 ≤ level → level ≤ MaxLevel →
      ∃ hd update0 rank0 h1 update rank r, l.header = some hd ∧
        insertSearch l.heap score obj l.level l.level hd
          (List.replicate MaxLevel none) (List.replicate MaxLevel 0) = some (update0, rank0) ∧
        (if level > l.level then
           insertRaise l.Length l.header (level - l.level) l.level l.heap update0 rank0
         else some (l.heap, update0, rank0)) = some (h1, update, rank) ∧
        (∀ i, i < (if level > l.level then level else l.level) →
          ∃ u n, update[i]? = some (some u) ∧ h1[u]? = some n ∧ i < n.level.length) ∧
        Insert l score obj level = some r) ∧
    (∀ (score : Int) (obj : String),
      ∃ hd x0 update r, l.header = some hd ∧
        deleteSearch l.heap score obj l.level hd (List.replicate MaxLevel none) =
          some (x0, update) ∧
        (∀ i, i < l.level → ∃ u n lu, update[i]? = some (some u) ∧ l.heap[u]? = some n ∧
          i < n.level.length ∧ getLevel l.heap u i = some lu ∧
          ∀ x, lu.forward = some x → ∃ nx, l.heap[x]? = some nx ∧ i < nx.level.length) ∧
        Delete l score obj = some r) ∧
    (∀ (score : Int) (obj : String), ∃ r, GetRank l score obj = some r) ∧
    (∀ r, r < U64 → ∃ e, GetElementByRank l r = some e) := by
  obtain ⟨cells, hR⟩ := hr.rep
  refine ⟨?_, ?_, ?_, ?_⟩
  · intro score obj level h1 h2
    obtain ⟨update0, rank0, h1, update, rank, r, e1, e2, e3, e4⟩ :=
      insert_runs hR score obj h1 h2
    exact ⟨0, update0, rank0, h1, update, rank, r, hR.header, e1, e2, e3, e4⟩
  · intro score obj
    obtain ⟨x0, update, r, e1, e2, e3⟩ := delete_runs hR score obj
    exact ⟨0, x0, update, r, hR.header, e1, e2, e3⟩
  · intro score obj
    obtain ⟨_, _, res, _, _, _, hrun, _⟩ := hR.getRank score obj
    exact ⟨res, hrun⟩
  · intro r hr
    obtain ⟨res, hrun, _⟩ := hR.getElementByRank hr
    exact ⟨res, hrun⟩

/-! ## Exactness of the span arithmetic: the loops -/

/-- One iteration of the loop of lines 120-122, then the rest of the loop. -/
theorem insertBump_succ (update : List (Option Nat)) (n i : Nat) (h : List Node) :
    insertBump update (n + 1) i h =
      (insertBump update 1 i h).bind (insertBump update n (i + 1)) := by
  simp only [insertBump]
  cases update[i]? with
  | none => rfl
  | some o =>
    cases o with
    | none => rfl
    | some u =>
      simp only
      cases getLevel h u i with
      | none => rfl
      | some lu =>
        simp only
        cases setSpan h u i (u64add lu.span 1) with
        | none => rfl
        | some h1 => rfl

/-- One iteration of the loop of lines 107-117, then the rest of the loop. -/
theorem insertSplice_succ (x : Nat) (update : List (Option Nat)) (rank : List Nat)
    (n i : Nat) (h : List Node) :
    insertSplice x update rank (n + 1) i h =
      (insertSplice x update rank 1 i h).bind (insertSplice x update rank n (i + 1)) := by
  simp only [insertSplice]
  cases update[i]? with
  | none => rfl
  | some o =>
    cases o with
    | none => rfl
    | some u =>
      simp only
      cases getLevel h u i with
      | none => rfl
      | some lu =>
        simp only
        cases setForward h x i lu.forward with
        | none => rfl
        | some h1 =>
          simp only
          cases setForward h1 u i (some x) with
          | none => rfl
          | some h2 =>
            simp only
            cases getLevel h2 u i with
            | none => rfl
            | some lu2 =>
              cases rank[0]? with
              | none => rfl
              | some r0 =>
                cases rank[i]? with
                | none => rfl
                | some ri =>
                  simp only
                  cases setSpan h2 x i (u64sub lu2.span (u64sub r0 ri)) with
                  | none => rfl
                  | some h3 =>
                    simp only
                    cases setSpan h3 u i (u64add (u64sub r0 ri) 1) with
                    | none => rfl
                    | some h4 => rfl

theorem insertSpliceExact_of (x : Nat) (update : List (Option Nat)) (rank : List Nat) :
    ∀ (n i : Nat) (h : List Node),
      (∀ k, i ≤ k → k < i + n → ∃ u lu lx r0 rk, update[k]? = some (some u) ∧ u ≠ x ∧
        getLevel h u k = some lu ∧ getLevel h x k = some lx ∧
        rank[0]? = some r0 ∧ rank[k]? = some rk ∧
        rk ≤ r0 ∧ r0 - rk ≤ lu.span ∧ lu.span < U64 ∧ r0 + 1 < U64) →
      insertSpliceExact x update rank n i h = true := by
  intro n
  induction n with
  | zero => intro i h _; rfl
  | succ n ih =>
    intro i h hpre
    obtain ⟨u, lu, lx, r0, rk, hu, hne, hlu, hlx, hr0, hrk, hle, hsp, hlt, hroom⟩ :=
      hpre i (Nat.le_refl _) (by omega)
    obtain ⟨h1, hrun, _, _, _, hout, hin⟩ := insertSplice_spec x update rank 1 i h (by
      intro k hk1 hk2
      have : k = i := by omega
      subst this
      exact ⟨u, lu, lx, r0, rk, hu, hne, hlu, hlx, hr0, hrk⟩)
    obtain ⟨e1, e2, _⟩ := hin i (Nat.le_refl _) (by omega) u lu r0 rk hu hlu hr0 hrk
    unfold insertSpliceExact
    rw [hrun]
    simp only [Bool.and_eq_true]
    constructor
    · unfold spliceExactAt
      rw [hu, hr0, hrk]
      simp only
      rw [hlu, e1, e2]
      simp only [decide_eq_true_eq]
      have hs1 : u64sub r0 rk = r0 - rk := u64sub_eq (by omega) hle
      rw [hs1, u64sub_eq hlt hsp, u64add_eq (by omega)]
      omega
    · apply ih
      intro k hk1 hk2
      obtain ⟨u1, lu1, lx1, r01, rk1, a1, a2, a3, a4, a5, a6, a7⟩ := hpre k (by omega) (by omega)
      exact ⟨u1, lu1, lx1, r01, rk1, a1, a2, by rw [hout _ _ (by omega)]; exact a3,
        by rw [hout _ _ (by omega)]; exact a4, a5, a6, a7⟩

theorem insertBumpExact_of (update : List (Option Nat)) :
    ∀ (n i : Nat) (h : List Node),
      (∀ k, i ≤ k → k < i + n → ∃ u lu, update[k]? = some (some u) ∧
        getLevel h u k = some lu ∧ lu.span + 1 < U64) →
      insertBumpExact update n i h = true := by
  intro n
  induction n with
  | zero => intro i h _; rfl
  | succ n ih =>
    intro i h hpre
    obtain ⟨u, lu, hu, hlu, hroom⟩ := hpre i (Nat.le_refl _) (by omega)
    obtain ⟨h1, hrun, _, _, _, hout, hin⟩ := insertBump_spec update 1 i h (by
      intro k hk1 hk2
      have : k = i := by omega
      subst this
      exact ⟨u, lu, hu, hlu⟩)
    obtain ⟨e1, _⟩ := hin i (Nat.le_refl _) (by omega) u lu hu hlu
    unfold insertBumpExact
    rw [hrun]
    simp only [Bool.and_eq_true]
    constructor
    · unfold bumpExactAt
      rw [hu]
      simp only
      rw [hlu, e1]
      simp only [decide_eq_true_eq]
      rw [u64add_eq hroom]
      omega
    · apply ih
      intro k hk1 hk2
      obtain ⟨u1, lu1, a1, a2, a3⟩ := hpre k (by omega) (by omega)
      exact ⟨u1, lu1, a1, by rw [hout _ _ (by omega)]; exact a2, a3⟩

theorem deleteUnlinkExact_of (x : Nat) (update : List (Option Nat)) :
    ∀ (n i : Nat) (h : List Node),
      (∀ k, i ≤ k → k < i + n → ∃ u lu, update[k]? = some (some u) ∧ u ≠ x ∧
        getLevel h u k = some lu ∧ 1 ≤ lu.span ∧ lu.span < U64 ∧
        (lu.forward = some x → ∃ lx, getLevel h x k = some lx ∧
          lu.span + lx.span - 1 < U64)) →
      deleteUnlinkExact x update n i h = true := by
  intro n
  induction n with
  | zero => intro i h _; rfl
  | succ n ih =>
    intro i h hpre
    obtain ⟨u, lu, hu, hne, hlu, hpos, hlt, hfx⟩ := hpre i (Nat.le_refl _) (by omega)
    obtain ⟨h1, hrun, _, _, _, hout, hin⟩ := deleteUnlink_spec x update 1 i h (by
      intro k hk1 hk2
      have : k = i := by omega
      subst this
      refine ⟨u, lu, hu, hne, hlu, ?_⟩
      intro hf
      obtain ⟨lx, hlx, _⟩ := hfx hf
      exact ⟨lx, hlx⟩)
    obtain ⟨e1, e2, _⟩ := hin i (Nat.le_refl _) (by omega) u lu hu hlu
    have hstep : deleteUnlinkStep x update i h = some h1 := by
      unfold deleteUnlink at hrun
      cases hs : deleteUnlinkStep x update i h with
      | none => simp [hs] at hrun
      | some h2 =>
        simp only [hs, deleteUnlink, Option.some.injEq] at hrun
        rw [hrun]
    unfold deleteUnlinkExact
    rw [hstep]
    simp only [Bool.and_eq_true]
    constructor
    · unfold unlinkExactAt
      rw [hu]
      simp only
      rw [hlu]
      by_cases hf : lu.forward = some x
      · obtain ⟨lx, hlx, hsum⟩ := hfx hf
        rw [e1 hf lx hlx]
        simp only
        rw [if_pos hf, hlx]
        simp only [decide_eq_true_eq]
        rw [u64add_u64sub_one (by omega) hsum]
        omega
      · rw [e2 hf]
        simp only
        rw [if_neg hf]
        simp only [decide_eq_true_eq]
        rw [u64sub_eq hlt hpos]
        omega
    · apply ih
      intro k hk1 hk2
      obtain ⟨u1, lu1, a1, a2, a3, a4, a5, a6⟩ := hpre k (by omega) (by omega)
      refine ⟨u1, lu1, a1, a2, by rw [hout _ _ (by omega)]; exact a3, a4, a5, ?_⟩
      intro hf
      obtain ⟨lx, hlx, hsum⟩ := a6 hf
      exact ⟨lx, by rw [hout _ _ (by omega)]; exact hlx, hsum⟩

/-! ## Exactness of the span arithmetic: `Insert` and `Delete` -/

theorem insertExact_of_rep {l : SkipList} {cells : List Cell} (hR : Rep l cells)
    (score : Int) (obj : String) {level : Nat} (hl1 : 1 ≤ level) (hlM : level ≤ MaxLevel)
    (hroom : cells.length + 1 < U64) : InsertExact l score obj level = true := by
  obtain ⟨pre, post, hcells, hpre, hpost⟩ := sorted_split cells hR.sorted (score, obj)
  obtain ⟨update0, rank0, hsearch, hul0, hrl0, hs0⟩ :=
    hR.insertSearch score obj hcells hpre hpost
  obtain ⟨h1, update, rank, hraise, hlen1, hS1, hs⟩ :=
    insert_raise_phase hR hcells hul0 hrl0 hs0 hlM
  generalize hLdef : (if level > l.level then level else l.level) = L at hS1 hs
  have hLlev : level ≤ L := by rw [← hLdef]; split <;> omega
  have hheights : ∀ c ∈ cells, 1 ≤ c.height := fun c hc => (hR.height_ok c hc).1
  have hL : 0 < L := by omega
  obtain ⟨hr0, _⟩ := search_fact_zero hS1 hcells hheights hL (hs 0 hL)
  obtain ⟨_, _, ha3, _, _, ha6⟩ := alloc_spec h1 (newNode score obj level)
  have hxk : ∀ k, k < level → getLevel (h1 ++ [newNode score obj level]) h1.length k =
      some ⟨none, 0⟩ := by
    intro k hk
    rw [ha6]
    simp [newNode, List.getElem?_replicate, hk]
  have hlenc : cells.length = pre.length + post.length := by rw [hcells]; simp
  -- the facts of one level
  have hfact : ∀ k, k < L → ∃ (A1 : List Cell) (u : Cell) (mid : List Cell),
      update[k]? = some (some u.addr) ∧
      rank[k]? = some A1.length ∧ u.addr < h1.length ∧
      getLevel (h1 ++ [newNode score obj level]) u.addr k = some (expLink k (mid ++ post)) ∧
      pre.length = A1.length + mid.length ∧
      mid.length ≤ (expLink k (mid ++ post)).span ∧
      (expLink k (mid ++ post)).span ≤ cells.length := by
    intro k hk
    obtain ⟨A1, u, mid, _, _, hlow, hupd, hrk, hult, _, hlk, hlen⟩ :=
      search_fact hS1 hcells hk (hs k hk)
    refine ⟨A1, u, mid, hupd, hrk, hult, by rw [ha3 _ _ hult]; exact hlk, hlen, ?_, ?_⟩
    · rw [expLink_append_low post hlow]
      simp
    · have := expLink_span_le k (mid ++ post)
      simp at this
      omega
  obtain ⟨h3, hrun3, _, _, _, hout3, _⟩ :=
    insertSplice_spec h1.length update rank level 0 _ (by
      intro k _ hk
      obtain ⟨A1, u, mid, hupd, hrk, hult, hlk, _⟩ := hfact k (by omega)
      exact ⟨u.addr, _, _, _, _, hupd, by omega, hlk, hxk k (by omega), hr0, hrk⟩)
  unfold InsertExact
  rw [hR.header]
  simp only
  rw [hsearch]
  simp only
  rw [← hR.header, hraise]
  simp only
  rw [hrun3]
  simp only [Bool.and_eq_true]
  rw [hLdef]
  constructor
  · apply insertSpliceExact_of
    intro k _ hk
    obtain ⟨A1, u, mid, hupd, hrk, hult, hlk, hlen, hge, hle⟩ := hfact k (by omega)
    exact ⟨u.addr, _, _, _, _, hupd, by omega, hlk, hxk k (by omega), hr0, hrk,
      by omega, by omega, by omega, by omega⟩
  · apply insertBumpExact_of
    intro k hk1 hk2
    obtain ⟨A1, u, mid, hupd, hrk, hult, hlk, hlen, hge, hle⟩ := hfact k (by omega)
    exact ⟨u.addr, _, hupd, by rw [hout3 _ _ (by omega)]; exact hlk, by omega⟩

theorem deleteExact_of_rep {l : SkipList} {cells : List Cell} (hR : Rep l cells)
    (score : Int) (obj : String) : DeleteExact l score obj = true := by
  obtain ⟨pre, post, hcells, hpre, hpost⟩ := sorted_split cells hR.sorted (score, obj)
  obtain ⟨update, rank, hsearch, _, _, hs⟩ := hR.insertSearch score obj hcells hpre hpost
  obtain ⟨x0, hdsearch, hx0, _⟩ := deleteSearch_of_insertSearch _ _ _ _ _ _ _ _ _ _ hsearch
  have hheights : ∀ c ∈ cells, 1 ≤ c.height := fun c hc => (hR.height_ok c hc).1
  have hLpos := hR.level_pos
  obtain ⟨_, A0, u0, hA0, hup0⟩ :=
    search_fact_zero hR.shape hcells hheights (by omega) (hs 0 (by omega))
  have hx0u : x0 = u0.addr := by
    have := hx0 (by omega)
    rw [hup0] at this
    simp only [Option.some.injEq] at this
    exact this.symm
  subst hx0u
  have hlk0 : getLevel l.heap u0.addr 0 = some (expLink 0 post) := by
    have hfull : hdrCell :: cells = A0 ++ u0 :: post := by
      rw [hcells, ← List.cons_append, hA0]; simp
    have hu0h : 0 < u0.height := by
      rcases getLast?_of_full hA0 with ⟨_, hu⟩ | ⟨_, _, hmem⟩
      · rw [hu]; decide
      · exact hheights u0 (by rw [hcells]; simp [hmem])
    exact hR.shape.full_link hfull (by omega) hu0h
  unfold DeleteExact
  rw [hR.header]
  simp only
  rw [hdsearch]
  simp only
  rw [hlk0]
  simp only
  cases hpc : post with
  | nil => simp [expLink, firstAbove]
  | cons cx rest =>
    subst hpc
    have hcx : cx ∈ cells := by rw [hcells]; simp
    rw [expLink_cons_hit rest (hheights cx hcx)]
    simp only
    obtain ⟨nx, hnx, hobj, hsc, _⟩ := hR.readCell hcx
    rw [hnx]
    simp only
    by_cases hcond : nx.Score = score ∧ stringsCompare nx.Obj obj = 0
    · rw [if_pos hcond]
      simp only [Bool.and_eq_true, decide_eq_true_eq]
      have hlenc : cells.length = pre.length + (rest.length + 1) := by rw [hcells]; simp
      have hlen := hR.length_lt
      refine ⟨?_, by rw [hR.length_eq]; omega⟩
      have hnd := hR.shape.full_nodup
      have hfullx : hdrCell :: cells = (hdrCell :: pre) ++ cx :: rest := by rw [hcells]; simp
      have hxne := addr_ne_of_split hnd hfullx
      apply deleteUnlinkExact_of
      intro k _ hk
      have hk1 : k < l.level := by omega
      obtain ⟨A1, u, mid, hA, hu, hlow, hupd, _, _, hfull, hlk, hlenp⟩ :=
        search_fact hR.shape hcells hk1 (hs k hk1)
      have hsple := expLink_span_le k rest
      by_cases hkx : k < cx.height
      · have he := expLink_append_hit (c := cx) rest hlow hkx
        refine ⟨u.addr, _, hupd, hxne.1 u (by rw [hA]; simp), hlk, by rw [he]; simp,
          by rw [he]; simp; omega, ?_⟩
        intro _
        refine ⟨_, hR.shape.full_link hfullx hk1 hkx, ?_⟩
        rw [he]
        simp only
        omega
      · have he : expLink k (mid ++ cx :: rest) =
            ⟨(expLink k rest).forward, (expLink k rest).span + 1 + mid.length⟩ := by
          rw [expLink_append_low _ hlow, expLink_cons_low rest (by omega)]
        refine ⟨u.addr, _, hupd, hxne.1 u (by rw [hA]; simp), hlk, by rw [he]; simp; omega,
          by rw [he]; simp; omega, ?_⟩
        intro hf
        rw [he] at hf
        obtain ⟨c, hc, hca⟩ := expLink_forward_mem hf
        exact absurd hca (hxne.2 c hc)
    · rw [if_neg hcond]

/-- In a represented list, a link below the list level with no forward carries
as span the number of real nodes after its owner. -/
theorem Rep.nil_span {l : SkipList} {cells : List Cell} (hR : Rep l cells)
    {P Q : List Nat} {a : Nat} (hsplit : (hdrCell :: cells).map Cell.addr = P ++ a :: Q)
    {j : Nat} (hj : j < l.level) {lv : Level} (hlv : getLevel l.heap a j = some lv)
    (hf : lv.forward = none) : lv.span = Q.length := by
  obtain ⟨P1, R1, hfull, _, hR1⟩ := List.map_eq_append_iff.mp hsplit
  obtain ⟨c, Q1, hR1c, hca, hQ1⟩ := List.map_eq_cons_iff.mp hR1
  subst hR1c
  subst hca
  have hmem : c ∈ hdrCell :: cells := by rw [hfull]; simp
  obtain ⟨n, hn, hnl⟩ := hR.shape.full_read hmem
  have hjc : j < c.height := by
    unfold getLevel at hlv
    rw [hn] at hlv
    simp only at hlv
    have := (List.getElem?_eq_some_iff.mp hlv).1
    omega
  rw [hR.shape.full_link hfull hj hjc] at hlv
  simp only [Option.some.injEq] at hlv
  subst hlv
  rcases expLink_cases j Q1 with ⟨h1, _⟩ | ⟨m1, c1, m2, _, _, _, h1⟩
  · rw [h1, ← hQ1]; simp
  · rw [h1] at hf; cases hf

/-- C19: in every list reachable from `Create` by `Insert` and `Delete`, a link
of the header or of a real node at a level below the list level whose forward is
absent carries as span the number of real nodes after its owner; every span
stored by the two span loops of an `Insert` that leaves fewer than `2^64`
elements is the integer value of its source expression; and in every `Delete`
that reaches `deleteNode`, `span -= 1` is never applied to a span of 0, every
span stored is the integer value of its source expression (in `span +=
x.span - 1` too, where `x.span - 1` wraps at `x.span = 0`), and `Length -= 1` is
not applied to `Length = 0`. -/
theorem C19_exact_spans (l : SkipList) (hr : Reachable l) :
    (∃ addrs, levelAddrs l 0 = some addrs ∧
      ∀ hd, l.header = some hd → ∀ (P : List Nat) (a : Nat) (Q : List Nat),
        hd :: addrs = P ++ a :: Q → ∀ j, j < l.level → ∀ lv : Level,
          getLevel l.heap a j = some lv → lv.forward = none → lv.span = Q.length) ∧
    (∀ (score : Int) (obj : String) (level : Nat), 1 ≤ level → level ≤ MaxLevel →
      l.Length + 1 < U64 → InsertExact l score obj level = true) ∧
    (∀ (score : Int) (obj : String), DeleteExact l score obj = true) := by
  obtain ⟨cells, hR⟩ := hr.rep
  refine ⟨⟨cells.map Cell.addr, hR.levelAddrs_zero, ?_⟩, ?_, ?_⟩
  · intro hd hhd P a Q hsplit j hj lv hlv hf
    rw [hR.header] at hhd
    simp only [Option.some.injEq] at hhd
    subst hhd
    exact hR.nil_span (show (hdrCell :: cells).map Cell.addr = P ++ a :: Q from hsplit)
      hj hlv hf
  · intro score obj level h1 h2 hroom
    exact insertExact_of_rep hR score obj h1 h2 (by rw [← hR.length_eq]; exact hroom)
  · intro score obj
    exact deleteExact_of_rep hR score obj

set_option maxRecDepth 100000 in
/-- Witness of C19 on the list of the test: the top link of the node `(600, "g")`
at address 6 has no forward and span 1, the one node after it; the tail, at
address 7, has span 0 at level 0, so that its deletion meets the wrap of
`x.span - 1`. -/
theorem C19_witness :
    Reachable testList ∧ getLevel testList.heap 6 3 = some ⟨none, 1⟩ ∧
    getLevel testList.heap 7 0 = some ⟨none, 0⟩ ∧
    InsertExact testList 350 "d" 2 = true ∧ DeleteExact testList 700 "h" = true :=
  ⟨testList_reachable, by decide, by decide,
    (C19_exact_spans testList testList_reachable).2.1 350 "d" 2 (by decide) (by decide)
      (by decide),
    (C19_exact_spans testList testList_reachable).2.2 700 "h"⟩

set_option maxRecDepth 100000 in
/-- Witness of C20 on the list of the test. -/
theorem C20_witness :
    Reachable testList ∧ (∃ r, Insert testList 350 "d" 2 = some r) ∧
    (∃ r, Delete testList 300 "c" = some r) ∧ (∃ r, GetRank testList 300 "c" = some r) ∧
    (∃ e, GetElementByRank testList 3 = some e) := by
  obtain ⟨h1, h2, h3, h4⟩ := C20_no_panic testList testList_reachable
  obtain ⟨_, _, _, _, _, _, r1, _, _, _, _, e1⟩ := h1 350 "d" 2 (by decide) (by decide)
  obtain ⟨_, _, _, r2, _, _, _, e2⟩ := h2 300 "c"
  exact ⟨testList_reachable, ⟨r1, e1⟩, ⟨r2, e2⟩, h3 300 "c", h4 3 (by decide)⟩

/-! ## The two models take the same steps on scores that are not NaN -/

theorem scoreLt_some (a b : Int) : scoreLt (some a) (some b) ↔ a < b := Iff.rfl

theorem scoreEq_some (a b : Int) : scoreEq (some a) (some b) ↔ a = b := Iff.rfl

theorem getLevel_ofNode (h : List Node) (a j : Nat) :
    F64.getLevel (h.map F64.ofNode) a j = getLevel h a j := by
  unfold F64.getLevel getLevel
  rw [List.getElem?_map]
  cases h[a]? <;> rfl

theorem setForward_ofNode (h : List Node) (a j : Nat) (f : Option Nat) :
    F64.setForward (h.map F64.ofNode) a j f =
      (setForward h a j f).map (List.map F64.ofNode) := by
  unfold F64.setForward setForward
  rw [List.getElem?_map]
  cases h[a]? with
  | none => rfl
  | some n =>
    simp only [Option.map_some', F64.ofNode]
    cases n.level[j]? with
    | none => rfl
    | some lv => simp [List.map_set, F64.ofNode]

theorem setSpan_ofNode (h : List Node) (a j : Nat) (s : Nat) :
    F64.setSpan (h.map F64.ofNode) a j s = (setSpan h a j s).map (List.map F64.ofNode) := by
  unfold F64.setSpan setSpan
  rw [List.getElem?_map]
  cases h[a]? with
  | none => rfl
  | some n =>
    simp only [Option.map_some', F64.ofNode]
    cases n.level[j]? with
    | none => rfl
    | some lv => simp [List.map_set, F64.ofNode]

theorem setBackward_ofNode (h : List Node) (a : Nat) (b : Option Nat) :
    F64.setBackward (h.map F64.ofNode) a b =
      (setBackward h a b).map (List.map F64.ofNode) := by
  unfold F64.setBackward setBackward
  rw [List.getElem?_map]
  cases h[a]? with
  | none => rfl
  | some n => simp [List.map_set, F64.ofNode]

theorem insertAdvance_ofNode (h : List Node) (s : Int) (obj : String) (j : Nat) :
    ∀ (fuel x : Nat) (rank : List Nat),
      F64.insertAdvance (h.map F64.ofNode) (some s) obj j fuel x rank =
        insertAdvance h s obj j fuel x rank := by
  intro fuel
  induction fuel with
  | zero => intro x rank; rfl
  | succ fuel ih =>
    intro x rank
    unfold F64.insertAdvance insertAdvance
    rw [getLevel_ofNode]
    cases getLevel h x j with
    | none => rfl
    | some lv =>
      simp only
      cases lv.forward with
      | none => rfl
      | some f =>
        simp only
        rw [List.getElem?_map]
        cases h[f]? with
        | none => rfl
        | some nf =>
          simp only [Option.map_some', F64.ofNode, scoreLt_some, scoreEq_some, ih]

theorem insertSearch_ofNode (h : List Node) (s : Int) (obj : String) (lvl : Nat) :
    ∀ (i x : Nat) (update : List (Option Nat)) (rank : List Nat),
      F64.insertSearch (h.map F64.ofNode) (some s) obj lvl i x update rank =
        insertSearch h s obj lvl i x update rank := by
  intro i
  induction i with
  | zero => intro x update rank; rfl
  | succ j ih =>
    intro x update rank
    unfold F64.insertSearch insertSearch
    simp only [insertAdvance_ofNode, List.length_map, ih]

theorem insertRaise_ofNode (len : Nat) (hd : Option Nat) :
    ∀ (n i : Nat) (h : List Node) (update : List (Option Nat)) (rank : List Nat),
      F64.insertRaise len hd n i (h.map F64.ofNode) update rank =
        (insertRaise len hd n i h update rank).map
          (fun r => (r.1.map F64.ofNode, r.2.1, r.2.2)) := by
  intro n
  induction n with
  | zero => intro i h update rank; rfl
  | succ n ih =>
    intro i h update rank
    unfold F64.insertRaise insertRaise
    cases setArr rank i 0 with
    | none => rfl
    | some rank1 =>
      simp only
      cases setArr update i hd with
      | none => rfl
      | some update1 =>
        simp only
        cases hd with
        | none => rfl
        | some a =>
          simp only
          rw [setSpan_ofNode]
          cases setSpan h a i len with
          | none => rfl
          | some h1 => simp only [Option.map_some', ih]

theorem insertSplice_ofNode (x : Nat) (update : List (Option Nat)) (rank : List Nat) :
    ∀ (n i : Nat) (h : List Node),
      F64.insertSplice x update rank n i (h.map F64.ofNode) =
        (insertSplice x update rank n i h).map (List.map F64.ofNode) := by
  intro n
  induction n with
  | zero => intro i h; rfl
  | succ n ih =>
    intro i h
    unfold F64.insertSplice insertSplice
    cases update[i]? with
    | none => rfl
    | some o =>
      cases o with
      | none => rfl
      | some u =>
        simp only
        rw [getLevel_ofNode]
        cases getLevel h u i with
        | none => rfl
        | some lu =>
          simp only
          rw [setForward_ofNode]
          cases setForward h x i lu.forward with
          | none => rfl
          | some h1 =>
            simp only [Option.map_some']
            rw [setForward_ofNode]
            cases setForward h1 u i (some x) with
            | none => rfl
            | some h2 =>
              simp only [Option.map_some']
              rw [getLevel_ofNode]
              cases getLevel h2 u i with
              | none => rfl
              | some lu2 =>
                cases rank[0]? with
                | none => rfl
                | some r0 =>
                  cases rank[i]? with
                  | none => rfl
                  | some ri =>
                    simp only
                    rw [setSpan_ofNode]
                    cases setSpan h2 x i (u64sub lu2.span (u64sub r0 ri)) with
                    | none => rfl
                    | some h3 =>
                      simp only [Option.map_some']
                      rw [setSpan_ofNode]
                      cases setSpan h3 u i (u64add (u64sub r0 ri) 1) with
                      | none => rfl
                      | some h4 => simp only [Option.map_some', ih]

theorem insertBump_ofNode (update : List (Option Nat)) :
    ∀ (n i : Nat) (h : List Node),
      F64.insertBump update n i (h.map F64.ofNode) =
        (insertBump update n i h).map (List.map F64.ofNode) := by
  intro n
  induction n with
  | zero => intro i h; rfl
  | succ n ih =>
    intro i h
    unfold F64.insertBump insertBump
    cases update[i]? with
    | none => rfl
    | some o =>
      cases o with
      | none => rfl
      | some u =>
        simp only
        rw [getLevel_ofNode]
        cases getLevel h u i with
        | none => rfl
        | some lu =>
          simp only
          rw [setSpan_ofNode]
          cases setSpan h u i (u64add lu.span 1) with
          | none => rfl
          | some h1 => simp only [Option.map_some', ih]

theorem newNode_ofNode (h1 : List Node) (s : Int) (obj : String) (level : Nat) :
    h1.map F64.ofNode ++ [F64.newNode (some s) obj level] =
      (h1 ++ [newNode s obj level]).map F64.ofNode := by
  simp [F64.ofNode, F64.newNode, newNode]

/-- On a score that is not NaN, `Insert` of the model with `float64` scores
takes the list of the model with `Int` scores to the list `Insert` gives there. -/
theorem Insert_ofList (l : SkipList) (s : Int) (obj : String) (level : Nat) :
    F64.Insert (F64.ofList l) (some s) obj level =
      (Insert l s obj level).map (fun r => (F64.ofList r.1, r.2)) := by
  obtain ⟨lheap, llen, lhdr, ltail, llvl⟩ := l
  unfold F64.Insert Insert
  simp only [F64.ofList]
  cases lhdr with
  | none => rfl
  | some hd =>
    simp only
    rw [insertSearch_ofNode]
    cases insertSearch lheap s obj llvl llvl hd
        (List.replicate MaxLevel none) (List.replicate MaxLevel 0) with
    | none => rfl
    | some r0 =>
      obtain ⟨update0, rank0⟩ := r0
      simp only
      have hraise : (if level > llvl then
            F64.insertRaise llen (some hd) (level - llvl) llvl
              (lheap.map F64.ofNode) update0 rank0
          else some (lheap.map F64.ofNode, update0, rank0)) =
          (if level > llvl then
            insertRaise llen (some hd) (level - llvl) llvl lheap update0 rank0
          else some (lheap, update0, rank0)).map
            (fun r => (r.1.map F64.ofNode, r.2.1, r.2.2)) := by
        by_cases hgt : level > llvl
        · rw [if_pos hgt, if_pos hgt, insertRaise_ofNode]
        · rw [if_neg hgt, if_neg hgt]; rfl
      rw [hraise]
      cases (if level > llvl then
            insertRaise llen (some hd) (level - llvl) llvl lheap update0 rank0
          else some (lheap, update0, rank0)) with
      | none => rfl
      | some r1 =>
        obtain ⟨h1, update, rank⟩ := r1
        simp only [Option.map_some', List.length_map]
        rw [newNode_ofNode, insertSplice_ofNode]
        cases insertSplice h1.length update rank level 0 (h1 ++ [newNode s obj level]) with
        | none => rfl
        | some h3 =>
          simp only [Option.map_some']
          rw [insertBump_ofNode]
          cases insertBump update ((if level > llvl then level else llvl) - level)
              level h3 with
          | none => rfl
          | some h4 =>
            simp only [Option.map_some']
            cases update[0]? with
            | none => rfl
            | some u0 =>
              simp only
              have hback : (if u0 ≠ some hd then
                    F64.setBackward (h4.map F64.ofNode) h1.length u0
                  else some (h4.map F64.ofNode)) =
                  (if u0 ≠ some hd then setBackward h4 h1.length u0 else some h4).map
                    (List.map F64.ofNode) := by
                by_cases hne : u0 ≠ some hd
                · rw [if_pos hne, if_pos hne, setBackward_ofNode]
                · rw [if_neg hne, if_neg hne]; rfl
              rw [hback]
              cases (if u0 ≠ some hd then setBackward h4 h1.length u0 else some h4) with
              | none => rfl
              | some h5 =>
                simp only [Option.map_some']
                rw [getLevel_ofNode]
                cases getLevel h5 h1.length 0 with
                | none => rfl
                | some lx =>
                  simp only
                  cases lx.forward with
                  | none => rfl
                  | some f =>
                    simp only
                    rw [setBackward_ofNode]
                    cases setBackward h5 f (some h1.length) with
                    | none => rfl
                    | some h6 => rfl

theorem deleteUnlinkStep_ofNode (x : Nat) (update : List (Option Nat)) (i : Nat)
    (h : List Node) :
    F64.deleteUnlinkStep x update i (h.map F64.ofNode) =
      (deleteUnlinkStep x update i h).map (List.map F64.ofNode) := by
  unfold F64.deleteUnlinkStep deleteUnlinkStep
  cases update[i]? with
  | none => rfl
  | some o =>
    cases o with
    | none => rfl
    | some u =>
      simp only
      rw [getLevel_ofNode]
      cases getLevel h u i with
      | none => rfl
      | some lu =>
        simp only
        by_cases hf : lu.forward = some x
        · rw [if_pos hf, if_pos hf, getLevel_ofNode]
          cases getLevel h x i with
          | none => rfl
          | some lx =>
            simp only
            rw [setForward_ofNode]
            cases setForward h u i lx.forward with
            | none => rfl
            | some h1 =>
              simp only [Option.map_some']
              rw [getLevel_ofNode, getLevel_ofNode]
              cases getLevel h1 u i with
              | none => rfl
              | some lu1 =>
                cases getLevel h1 x i with
                | none => rfl
                | some lx1 =>
                  simp only
                  rw [setSpan_ofNode]
        · rw [if_neg hf, if_neg hf, setSpan_ofNode]

theorem deleteUnlink_ofNode (x : Nat) (update : List (Option Nat)) :
    ∀ (n i : Nat) (h : List Node),
      F64.deleteUnlink x update n i (h.map F64.ofNode) =
        (deleteUnlink x update n i h).map (List.map F64.ofNode) := by
  intro n
  induction n with
  | zero => intro i h; rfl
  | succ n ih =>
    intro i h
    unfold F64.deleteUnlink deleteUnlink
    rw [deleteUnlinkStep_ofNode]
    cases deleteUnlinkStep x update i h with
    | none => rfl
    | some h1 => simp only [Option.map_some', ih]

theorem deleteShrink_ofNode (h : List Node) (hd : Option Nat) :
    ∀ k : Nat, F64.deleteShrink (h.map F64.ofNode) hd k = deleteShrink h hd k := by
  intro k
  induction k with
  | zero => rfl
  | succ k ih =>
    unfold F64.deleteShrink deleteShrink
    by_cases hk : k + 1 > 1
    · rw [if_pos hk, if_pos hk]
      cases hd with
      | none => rfl
      | some a =>
        simp only
        rw [getLevel_ofNode]
        cases getLevel h a k with
        | none => rfl
        | some lv =>
          simp only
          rw [ih]
    · rw [if_neg hk, if_neg hk]

theorem deleteRelink_ofNode (h : List Node) (tail : Option Nat) (x : Nat) :
    F64.deleteRelink (h.map F64.ofNode) tail x =
      (deleteRelink h tail x).map (fun r => (r.1.map F64.ofNode, r.2)) := by
  unfold F64.deleteRelink deleteRelink
  rw [List.getElem?_map]
  cases h[x]? with
  | none => rfl
  | some nx =>
    simp only [Option.map_some', F64.ofNode]
    cases nx.level[0]? with
    | none => rfl
    | some lx =>
      simp only
      cases lx.forward with
      | none => rfl
      | some f =>
        simp only
        have := setBackward_ofNode h f nx.backward
        simp only [F64.ofNode] at this
        rw [this]
        cases setBackward h f nx.backward with
        | none => rfl
        | some h1 => rfl

theorem deleteNode_ofList (l : SkipList) (x : Nat) (update : List (Option Nat)) :
    F64.deleteNode (F64.ofList l) x update = (deleteNode l x update).map F64.ofList := by
  unfold F64.deleteNode deleteNode
  simp only [F64.ofList]
  rw [deleteUnlink_ofNode]
  cases deleteUnlink x update l.level 0 l.heap with
  | none => rfl
  | some h1 =>
    simp only [Option.map_some']
    rw [deleteRelink_ofNode]
    cases deleteRelink h1 l.tail x with
    | none => rfl
    | some r =>
      obtain ⟨h2, tl⟩ := r
      simp only [Option.map_some']
      rw [deleteShrink_ofNode]
      cases deleteShrink h2 l.header l.level with
      | none => rfl
      | some lvl => rfl

theorem deleteAdvance_ofNode (h : List Node) (s : Int) (obj : String) (j : Nat) :
    ∀ (fuel x : Nat),
      F64.deleteAdvance (h.map F64.ofNode) (some s) obj j fuel x =
        deleteAdvance h s obj j fuel x := by
  intro fuel
  induction fuel with
  | zero => intro x; rfl
  | succ fuel ih =>
    intro x
    unfold F64.deleteAdvance deleteAdvance
    rw [getLevel_ofNode]
    cases getLevel h x j with
    | none => rfl
    | some lv =>
      simp only
      cases lv.forward with
      | none => rfl
      | some f =>
        simp only
        rw [List.getElem?_map]
        cases h[f]? with
        | none => rfl
        | some nf =>
          simp only [Option.map_some', F64.ofNode, scoreLt_some, scoreEq_some, ih]

theorem deleteSearch_ofNode (h : List Node) (s : Int) (obj : String) :
    ∀ (i x : Nat) (update : List (Option Nat)),
      F64.deleteSearch (h.map F64.ofNode) (some s) obj i x update =
        deleteSearch h s obj i x update := by
  intro i
  induction i with
  | zero => intro x update; rfl
  | succ j ih =>
    intro x update
    unfold F64.deleteSearch deleteSearch
    simp only [deleteAdvance_ofNode, List.length_map, ih]

/-- On a score that is not NaN, `Delete` of the model with `float64` scores
takes the list of the model with `Int` scores to the list `Delete` gives there,
with the same error. -/
theorem Delete_ofList (l : SkipList) (s : Int) (obj : String) :
    F64.Delete (F64.ofList l) (some s) obj =
      (Delete l s obj).map (fun r => (F64.ofList r.1, r.2)) := by
  have hdn := deleteNode_ofList l
  obtain ⟨lheap, llen, lhdr, ltail, llvl⟩ := l
  unfold F64.Delete Delete
  simp only [F64.ofList] at hdn ⊢
  cases lhdr with
  | none => rfl
  | some hd =>
    simp only
    rw [deleteSearch_ofNode]
    cases deleteSearch lheap s obj llvl hd (List.replicate MaxLevel none) with
    | none => rfl
    | some r0 =>
      obtain ⟨x0, update⟩ := r0
      simp only
      rw [getLevel_ofNode]
      cases getLevel lheap x0 0 with
      | none => rfl
      | some lv =>
        simp only
        cases lv.forward with
        | none => rfl
        | some x =>
          simp only
          rw [List.getElem?_map]
          cases lheap[x]? with
          | none => rfl
          | some nx =>
            simp only [Option.map_some', F64.ofNode, scoreEq_some]
            by_cases hc : nx.Score = s ∧ stringsCompare nx.Obj obj = 0
            · rw [if_pos hc, if_pos hc, hdn]
              cases deleteNode ⟨lheap, llen, some hd, ltail, llvl⟩ x update with
              | none => rfl
              | some l1 => rfl
            · rw [if_neg hc, if_neg hc]
              rfl

theorem getRankAdvance_ofNode (h : List Node) (s : Int) (obj : String) (j : Nat) :
    ∀ (fuel x rank : Nat),
      F64.getRankAdvance (h.map F64.ofNode) (some s) obj j fuel x rank =
        getRankAdvance h s obj j fuel x rank := by
  intro fuel
  induction fuel with
  | zero => intro x rank; rfl
  | succ fuel ih =>
    intro x rank
    unfold F64.getRankAdvance getRankAdvance
    rw [getLevel_ofNode]
    cases getLevel h x j with
    | none => rfl
    | some lv =>
      simp only
      cases lv.forward with
      | none => rfl
      | some f =>
        simp only
        rw [List.getElem?_map]
        cases h[f]? with
        | none => rfl
        | some nf =>
          simp only [Option.map_some', F64.ofNode, scoreLt_some, scoreEq_some, ih]

theorem getRankLoop_ofNode (h : List Node) (s : Int) (obj : String) :
    ∀ (i : Nat) (x : Option Nat) (rank : Nat),
      F64.getRankLoop (h.map F64.ofNode) (some s) obj i x rank =
        getRankLoop h s obj i x rank := by
  intro i
  induction i with
  | zero => intro x rank; rfl
  | succ j ih =>
    intro x rank
    unfold F64.getRankLoop getRankLoop
    cases x with
    | none => rfl
    | some a =>
      simp only [getRankAdvance_ofNode, List.length_map]
      cases getRankAdvance h s obj j h.length a rank with
      | none => rfl
      | some r =>
        obtain ⟨x1, rank1⟩ := r
        simp only
        rw [List.getElem?_map]
        cases h[x1]? with
        | none => rfl
        | some n => simp only [Option.map_some', F64.ofNode, ih]

/-- On a score that is not NaN, `GetRank` returns the same in both models. -/
theorem GetRank_ofList (l : SkipList) (s : Int) (obj : String) :
    F64.GetRank (F64.ofList l) (some s) obj = GetRank l s obj := by
  unfold F64.GetRank GetRank
  simp only [F64.ofList]
  exact getRankLoop_ofNode l.heap s obj l.level l.header 0

theorem getElementAdvance_ofNode (h : List Node) (j : Nat) :
    ∀ (fuel x rank : Nat),
      F64.getElementAdvance (h.map F64.ofNode) j fuel x rank =
        getElementAdvance h j fuel x rank := by
  intro fuel
  induction fuel with
  | zero => intro x rank; rfl
  | succ fuel ih =>
    intro x rank
    unfold F64.getElementAdvance getElementAdvance
    rw [getLevel_ofNode]
    cases getLevel h x j with
    | none => rfl
    | some lv =>
      simp only
      cases lv.forward with
      | none => rfl
      | some f => simp only [ih]

theorem getElementLoop_ofNode (h : List Node) :
    ∀ (i : Nat) (x : Option Nat) (rank : Nat),
      F64.getElementLoop (h.map F64.ofNode) i x rank = getElementLoop h i x rank := by
  intro i
  induction i with
  | zero => intro x rank; rfl
  | succ j ih =>
    intro x rank
    unfold F64.getElementLoop getElementLoop
    cases x with
    | none => rfl
    | some a =>
      simp only [getElementAdvance_ofNode, List.length_map]
      cases getElementAdvance h j h.length a rank with
      | none => rfl
      | some r =>
        obtain ⟨x1, rank1⟩ := r
        simp only [ih]

/-- `GetElementByRank` returns the same in both models. -/
theorem GetElementByRank_ofList (l : SkipList) (rank : Nat) :
    F64.GetElementByRank (F64.ofList l) rank = GetElementByRank l rank := by
  unfold F64.GetElementByRank GetElementByRank
  simp only [F64.ofList, getElementLoop_ofNode]

/-- `Create` is the same list in both models. -/
theorem Create_ofList : F64.ofList Create = F64.Create := by
  unfold F64.ofList Create F64.Create
  simp [F64.ofNode]

theorem chainPairs_ofNode (h : List Node) :
    ∀ (fuel : Nat) (p : Option Nat),
      F64.chainPairs (h.map F64.ofNode) fuel p =
        (chainPairs h fuel p).map (List.map F64.ofPair) := by
  intro fuel
  induction fuel with
  | zero => intro p; cases p <;> rfl
  | succ fuel ih =>
    intro p
    cases p with
    | none => rfl
    | some a =>
      unfold F64.chainPairs chainPairs
      rw [List.getElem?_map]
      cases h[a]? with
      | none => rfl
      | some n =>
        simp only [Option.map_some', F64.ofNode]
        cases n.level[0]? with
        | none => rfl
        | some lv =>
          simp only
          rw [ih]
          cases chainPairs h fuel lv.forward with
          | none => rfl
          | some r => rfl

/-- The level-0 sequence of pairs is the same in both models. -/
theorem level0Pairs_ofList (l : SkipList) :
    F64.level0Pairs (F64.ofList l) =
      (level0Pairs l).map (List.map F64.ofPair) := by
  obtain ⟨lheap, llen, lhdr, ltail, llvl⟩ := l
  unfold F64.level0Pairs level0Pairs
  simp only [F64.ofList]
  cases lhdr with
  | none => rfl
  | some hd =>
    simp only
    rw [getLevel_ofNode]
    cases getLevel lheap hd 0 with
    | none => rfl
    | some lv =>
      simp only [List.length_map]
      exact chainPairs_ofNode lheap lheap.length lv.forward

theorem chainAddrs_ofNode (h : List Node) (j : Nat) :
    ∀ (fuel : Nat) (p : Option Nat),
      F64.chainAddrs (h.map F64.ofNode) j fuel p = chainAddrs h j fuel p := by
  intro fuel
  induction fuel with
  | zero => intro p; cases p <;> rfl
  | succ fuel ih =>
    intro p
    cases p with
    | none => rfl
    | some a =>
      unfold F64.chainAddrs chainAddrs
      rw [getLevel_ofNode]
      cases getLevel h a j with
      | none => rfl
      | some lv =>
        simp only
        rw [ih]

/-- The level-`j` chain of addresses is the same in both models. -/
theorem levelAddrs_ofList (l : SkipList) (j : Nat) :
    F64.levelAddrs (F64.ofList l) j = levelAddrs l j := by
  obtain ⟨lheap, llen, lhdr, ltail, llvl⟩ := l
  unfold F64.levelAddrs levelAddrs
  simp only [F64.ofList]
  cases lhdr with
  | none => rfl
  | some hd =>
    simp only
    rw [getLevel_ofNode]
    cases getLevel lheap hd j with
    | none => rfl
    | some lv =>
      simp only [List.length_map]
      exact chainAddrs_ofNode lheap j lheap.length lv.forward

theorem ofPair_injective : Function.Injective F64.ofPair := by
  intro a b h
  unfold F64.ofPair at h
  simp only [Prod.mk.injEq, Option.some.injEq] at h
  exact Prod.ext h.1 h.2

theorem mem_map_ofPair {q : Int × String} {ps : List (Int × String)} :
    F64.ofPair q ∈ ps.map F64.ofPair ↔ q ∈ ps :=
  List.mem_map_of_injective ofPair_injective

theorem map_erase_ofPair (a : Int × String) :
    ∀ l : List (Int × String),
      (l.erase a).map F64.ofPair = (l.map F64.ofPair).erase (F64.ofPair a) := by
  intro l
  induction l with
  | nil => rfl
  | cons b l ih =>
    simp only [List.map_cons, List.erase_cons]
    by_cases h : b = a
    · subst h
      simp
    · have h1 : (b == a) = false := by simpa using h
      have h2 : (F64.ofPair b == F64.ofPair a) = false := by
        simpa using fun e => h (ofPair_injective e)
      rw [h1, h2]
      simp [ih]

theorem pairLt_ofPair (p q : Int × String) :
    F64.pairLt (F64.ofPair p) (F64.ofPair q) ↔ pairLt p q := Iff.rfl

/-- Successive `Insert`s of pairs whose scores are not NaN give the same list in
both models. -/
theorem insertAll_ofList :
    ∀ (ps : List (Int × String)) (hs : List Nat) (l : SkipList),
      F64.insertAll (F64.ofList l) (ps.map F64.ofPair) hs =
        (insertAll l ps hs).map F64.ofList := by
  intro ps
  induction ps with
  | nil => intro hs l; cases hs <;> rfl
  | cons p ps ih =>
    intro hs l
    cases hs with
    | nil => rfl
    | cons h hs =>
      simp only [List.map_cons]
      unfold F64.insertAll insertAll
      have hI := Insert_ofList l p.1 p.2 h
      simp only [F64.ofPair]
      rw [hI]
      cases Insert l p.1 p.2 h with
      | none => rfl
      | some r =>
        simp only [Option.map_some']
        exact ih hs r.1

/-- The lists of the model with `float64` scores reachable without a NaN score
are the lists reachable in the model with `Int` scores. -/
theorem reachable_ofList (lF : F64.SkipList) :
    F64.Reachable lF ↔ ∃ l, Reachable l ∧ lF = F64.ofList l := by
  constructor
  · intro h
    induction h with
    | create => exact ⟨Create, Reachable.create, Create_ofList.symm⟩
    | insert score obj level _ h1 h2 hroom hins ih =>
      obtain ⟨l, hr, rfl⟩ := ih
      rw [Insert_ofList] at hins
      cases hrun : Insert l score obj level with
      | none => rw [hrun] at hins; cases hins
      | some r =>
        rw [hrun] at hins
        simp only [Option.map_some', Option.some.injEq, Prod.mk.injEq] at hins
        exact ⟨r.1, Reachable.insert score obj level hr h1 h2 hroom
          (show Insert l score obj level = some (r.1, r.2) from hrun), hins.1.symm⟩
    | delete score obj _ hdel ih =>
      obtain ⟨l, hr, rfl⟩ := ih
      rw [Delete_ofList] at hdel
      cases hrun : Delete l score obj with
      | none => rw [hrun] at hdel; cases hdel
      | some r =>
        rw [hrun] at hdel
        simp only [Option.map_some', Option.some.injEq, Prod.mk.injEq] at hdel
        exact ⟨r.1, Reachable.delete score obj hr
          (show Delete l score obj = some (r.1, r.2) from hrun), hdel.1.symm⟩
  · rintro ⟨l, hr, rfl⟩
    induction hr with
    | create => rw [Create_ofList]; exact F64.Reachable.create
    | insert score obj level _ h1 h2 hroom hins ih =>
      exact F64.Reachable.insert score obj level ih h1 h2 hroom
        (by rw [Insert_ofList, hins]; rfl)
    | delete score obj _ hdel ih =>
      exact F64.Reachable.delete score obj ih (by rw [Delete_ofList, hdel]; rfl)

/-- A list of the model with `float64` scores reachable without a NaN score and
with the caller keeping the pairs unique is such a list of the model with `Int`
scores. -/
theorem reachableUnique_ofList (lF : F64.SkipList) (h : F64.ReachableUnique lF) :
    ∃ l, ReachableUnique l ∧ lF = F64.ofList l := by
  induction h with
  | create => exact ⟨Create, ReachableUnique.create, Create_ofList.symm⟩
  | insert score obj level _ h1 h2 hroom hp hnot hins ih =>
    obtain ⟨l, hr, rfl⟩ := ih
    rw [Insert_ofList] at hins
    rw [level0Pairs_ofList] at hp
    cases hp0 : level0Pairs l with
    | none => rw [hp0] at hp; cases hp
    | some pairs0 =>
      rw [hp0] at hp
      simp only [Option.map_some', Option.some.injEq] at hp
      cases hrun : Insert l score obj level with
      | none => rw [hrun] at hins; cases hins
      | some r =>
        rw [hrun] at hins
        simp only [Option.map_some', Option.some.injEq, Prod.mk.injEq] at hins
        refine ⟨r.1, ReachableUnique.insert score obj level hr h1 h2 hroom hp0 ?_
          (show Insert l score obj level = some (r.1, r.2) from hrun), hins.1.symm⟩
        intro hmem
        apply hnot
        rw [← hp]
        exact mem_map_ofPair.mpr hmem
  | delete score obj _ hdel ih =>
    obtain ⟨l, hr, rfl⟩ := ih
    rw [Delete_ofList] at hdel
    cases hrun : Delete l score obj with
    | none => rw [hrun] at hdel; cases hdel
    | some r =>
      rw [hrun] at hdel
      simp only [Option.map_some', Option.some.injEq, Prod.mk.injEq] at hdel
      exact ⟨r.1, ReachableUnique.delete score obj hr
        (show Delete l score obj = some (r.1, r.2) from hrun), hdel.1.symm⟩

/-- In the other direction: the lists of the model with `Int` scores that the
caller keeps free of duplicates. -/
theorem ofList_reachableUnique (l : SkipList) (h : ReachableUnique l) :
    F64.ReachableUnique (F64.ofList l) := by
  induction h with
  | create => rw [Create_ofList]; exact F64.ReachableUnique.create
  | insert score obj level _ h1 h2 hroom hp hnot hins ih =>
    refine F64.ReachableUnique.insert score obj level ih h1 h2 hroom
      (by rw [level0Pairs_ofList, hp]; rfl) ?_ (by rw [Insert_ofList, hins]; rfl)
    intro hmem
    exact hnot (mem_map_ofPair.mp hmem)
  | delete score obj _ hdel ih =>
    exact F64.ReachableUnique.delete score obj ih (by rw [Delete_ofList, hdel]; rfl)

/-! ## `Delete` of a NaN score on a list without NaN -/

theorem scoreLt_nan (a : float64) : ¬ scoreLt a none := by
  cases a <;> exact fun h => h

theorem scoreEq_nan (a : float64) : ¬ scoreEq a none := by
  cases a <;> exact fun h => h

theorem deleteAdvance_nan {h : List Node} {x j : Nat} {lv : Level} (obj : String)
    (hlv : getLevel h x j = some lv) (hfw : ∀ f, lv.forward = some f → ∃ n, h[f]? = some n)
    (fuel : Nat) :
    F64.deleteAdvance (h.map F64.ofNode) none obj j (fuel + 1) x = some x := by
  unfold F64.deleteAdvance
  rw [getLevel_ofNode, hlv]
  simp only
  cases hf : lv.forward with
  | none => rfl
  | some f =>
    obtain ⟨n, hn⟩ := hfw f hf
    simp only
    rw [List.getElem?_map, hn]
    simp only [Option.map_some']
    rw [if_neg (by
      rintro (h1 | ⟨h1, _⟩)
      · exact scoreLt_nan _ h1
      · exact scoreEq_nan _ h1)]

theorem deleteSearch_nan {h : List Node} (obj : String) (hpos : 0 < h.length) {L : Nat}
    (hhdr : ∀ j, j < L → ∃ lv, getLevel h 0 j = some lv ∧
      ∀ f, lv.forward = some f → ∃ n, h[f]? = some n) :
    ∀ (i : Nat) (update : List (Option Nat)), i ≤ L → L ≤ update.length →
      ∃ update1, F64.deleteSearch (h.map F64.ofNode) none obj i 0 update =
        some (0, update1) := by
  intro i
  induction i with
  | zero => intro update _ _; exact ⟨update, rfl⟩
  | succ j ih =>
    intro update hi hL
    obtain ⟨lv, hlv, hfw⟩ := hhdr j (by omega)
    obtain ⟨k, hk⟩ : ∃ k, (h.map F64.ofNode).length = k + 1 :=
      ⟨h.length - 1, by rw [List.length_map]; omega⟩
    unfold F64.deleteSearch
    rw [hk, deleteAdvance_nan obj hlv hfw k]
    simp only
    rw [setArr_some (some 0) (show j < update.length by omega)]
    simp only
    exact ih _ (by omega) (by rw [List.length_set]; exact hL)

/-- On a represented list, `Delete` of a NaN score finds nothing and leaves the
list as it is. -/
theorem Delete_nan {l : SkipList} {cells : List Cell} (hR : Rep l cells) (obj : String) :
    F64.Delete (F64.ofList l) none obj =
      some (F64.ofList l, DeleteResult.ErrNodeNotFound) := by
  have hfw : ∀ j, j < l.level → ∃ lv, getLevel l.heap 0 j = some lv ∧
      ∀ f, lv.forward = some f → ∃ n, l.heap[f]? = some n := by
    intro j hj
    refine ⟨_, hR.shape.hdr_link j hj, ?_⟩
    intro f hf
    obtain ⟨c, hc, hca⟩ := expLink_forward_mem hf
    obtain ⟨n, hn, _⟩ := hR.readCell hc
    exact ⟨n, by rw [← hca]; exact hn⟩
  have hpos : 0 < l.heap.length := by
    have := hR.shape.heap_gt
    omega
  obtain ⟨update1, hsearch⟩ := deleteSearch_nan obj hpos hfw l.level
    (List.replicate MaxLevel none) (Nat.le_refl _) (by
      rw [List.length_replicate]; exact hR.level_le)
  obtain ⟨lv, hlv, hfw0⟩ := hfw 0 hR.level_pos
  have hhd := hR.header
  obtain ⟨lheap, llen, lhdr, ltail, llvl⟩ := l
  simp only at hhd hsearch hlv hfw0
  subst hhd
  unfold F64.Delete
  simp only [F64.ofList]
  rw [hsearch]
  simp only
  rw [getLevel_ofNode, hlv]
  simp only
  cases hf : lv.forward with
  | none => rfl
  | some x =>
    obtain ⟨n, hn⟩ := hfw0 x hf
    simp only
    rw [List.getElem?_map, hn]
    simp only [Option.map_some']
    rw [if_neg (fun hc => scoreEq_nan _ hc.1)]

/-! ## Lists that hold a NaN score

Every comparison with NaN is false, so a node with a NaN score stops every
search walk that meets it, and the level-0 chain is no longer sorted. -/

set_option maxRecDepth 100000 in
/-- C3, as stated, fails: after `Create` and the `Insert` of `(1, "a")`,
`(NaN, "n")`, `(2, "b")`, each with a tower of height 1, the level-0 sequence is
`(2, "b")`, `(NaN, "n")`, `(1, "a")`; the pair `(1, "a")` is stored, and
`Delete(1, "a")` returns `ErrNodeNotFound` and leaves the list as it is. -/
theorem C3_counterexample :
    (∀ h ∈ [1, 1, 1], 1 ≤ h ∧ h ≤ MaxLevel) ∧
    F64.insertAll F64.Create F64.nanPairs [1, 1, 1] = some F64.nanList ∧
    F64.level0Pairs F64.nanList = some [(some 2, "b"), (none, "n"), (some 1, "a")] ∧
    ((some 1, "a") : float64 × String) ∈
      [((some 2 : float64), "b"), (none, "n"), (some 1, "a")] ∧
    F64.Delete F64.nanList (some 1) "a" =
      some (F64.nanList, DeleteResult.ErrNodeNotFound) := by
  decide

set_option maxRecDepth 100000 in
/-- C4, as stated, fails: after `Create` and the `Insert` of `(1, "a")` then
`(NaN, "n")`, each with a tower of height 1, the level-0 sequence is `(NaN, "n")`,
`(1, "a")`, and `Delete(1, "a")` returns `ErrNodeNotFound` although `(1, "a")` is
stored. -/
theorem C4_counterexample :
    (∀ h ∈ [1, 1], 1 ≤ h ∧ h ≤ MaxLevel) ∧
    (F64.insertAll F64.Create [(some 1, "a"), (none, "n")] [1, 1]).bind F64.level0Pairs =
      some [(none, "n"), (some 1, "a")] ∧
    ((some 1, "a") : float64 × String) ∈ [((none : float64), "n"), (some 1, "a")] ∧
    (F64.insertAll F64.Create [(some 1, "a"), (none, "n")] [1, 1]).bind
      (fun l => (F64.Delete l (some 1) "a").map Prod.snd) =
        some DeleteResult.ErrNodeNotFound := by
  decide

set_option maxRecDepth 100000 in
/-- C5, as stated, fails: on the list with the level-0 sequence `(NaN, "n")`,
`(1, "a")` (after `Create` and the `Insert` of `(1, "a")` then `(NaN, "n")`),
`Insert(2, "b")` with a tower of height 1 gives the sequence `(2, "b")`,
`(NaN, "n")`, `(1, "a")`: the new pair comes before `(1, "a")`, which is strictly
smaller than it.  And the node returned by `Insert(NaN, "n")` on the list made by
`Create` has a `Score` that does not compare equal (`==`) to the argument. -/
theorem C5_counterexample :
    (∀ h ∈ [1, 1], 1 ≤ h ∧ h ≤ MaxLevel) ∧ 1 ≤ 1 ∧ 1 ≤ MaxLevel ∧
    (F64.insertAll F64.Create [(some 1, "a"), (none, "n")] [1, 1]).bind F64.level0Pairs =
      some [(none, "n"), (some 1, "a")] ∧
    (F64.insertAll F64.Create [(some 1, "a"), (none, "n")] [1, 1]).bind
      (fun l => (F64.Insert l (some 2) "b" 1).bind (fun r => F64.level0Pairs r.1)) =
        some [(some 2, "b"), (none, "n"), (some 1, "a")] ∧
    F64.pairLt (some 1, "a") (some 2, "b") ∧
    (F64.Insert F64.Create none "n" 1).bind
      (fun r => (r.1.heap[r.2]?).map (fun n => decide (scoreEq n.Score none))) =
        some false := by
  decide

set_option maxRecDepth 100000 in
/-- C6, as stated, fails: on the list made by `Create`, `Insert(NaN, "n")` with a
tower of height 1 followed by `Delete(NaN, "n")` returns `ErrNodeNotFound`;
`Length` stays 1 and the pair stays in the level-0 sequence, where both were 0
and empty before the `Insert`. -/
theorem C6_counterexample :
    1 ≤ 1 ∧ 1 ≤ MaxLevel ∧
    F64.Create.Length = 0 ∧ F64.level0Pairs F64.Create = some [] ∧
    (F64.Insert F64.Create none "n" 1).bind
      (fun r => (F64.Delete r.1 none "n").map
        (fun d => (d.2, d.1.Length, F64.level0Pairs d.1))) =
      some (DeleteResult.ErrNodeNotFound, 1, some [(none, "n")]) := by
  decide

set_option maxRecDepth 100000 in
/-- C16, as stated, fails: the pairs `(1, "a")`, `(NaN, "n")`, `(2, "b")` are
pairwise distinct, so no pair is inserted while an equal pair is stored; in the
list made of them with towers of height 1 the level-0 forward link of the node
`(2, "b")`, at address 3, leads to the node `(NaN, "n")`, at address 2, whose
link leads to the node `(1, "a")`, at address 1, and neither target is strictly
greater than its source. -/
theorem C16_counterexample :
    F64.nanPairs.Nodup ∧ (∀ h ∈ [1, 1, 1], 1 ≤ h ∧ h ≤ MaxLevel) ∧
    F64.insertAll F64.Create F64.nanPairs [1, 1, 1] = some F64.nanList ∧
    0 < F64.nanList.level ∧
    (F64.nanList.heap[3]?).map (fun n => (n.Score, n.Obj)) = some (some 2, "b") ∧
    (F64.nanList.heap[2]?).map (fun n => (n.Score, n.Obj)) = some (none, "n") ∧
    (F64.nanList.heap[1]?).map (fun n => (n.Score, n.Obj)) = some (some 1, "a") ∧
    F64.getLevel F64.nanList.heap 3 0 = some ⟨some 2, 1⟩ ∧
    F64.getLevel F64.nanList.heap 2 0 = some ⟨some 1, 1⟩ ∧
    ¬ F64.pairLt (some 2, "b") (none, "n") ∧ ¬ F64.pairLt (none, "n") (some 1, "a") := by
  decide

/-! ## The amended properties, on the model with `float64` scores -/

theorem testList_reachableF : F64.Reachable (F64.ofList testList) :=
  (reachable_ofList _).mpr ⟨testList, testList_reachable, rfl⟩

theorem testList_reachableUniqueF : F64.ReachableUnique (F64.ofList testList) :=
  ofList_reachableUnique testList testList_reachableUnique

/-- C2, amended: for pairwise distinct pairs `ps` whose scores are not NaN,
inserted into a list made by `Create`, for every choice of tower heights, and for
every inserted pair `(s, m)` whose member is not empty and is not the member of
an inserted pair with a smaller score, `GetRank(s, m)` is the 1-based position
of `(s, m)` in the pairs sorted ascending by score and then by member.  The same
member may occur with other, larger scores. -/
theorem C2_rank_of_inserted (ps : List (Int × String)) (hs : List Nat)
    (hlen : hs.length = ps.length) (hh : ∀ h ∈ hs, 1 ≤ h ∧ h ≤ MaxLevel)
    (hN : ps.length < U64) (hnd : ps.Nodup) (p : Int × String) (hp : p ∈ ps)
    (hne : p.2 ≠ "") (hfirst : ∀ q ∈ ps, q.2 = p.2 → p.1 ≤ q.1) :
    ∃ l, F64.insertAll F64.Create (ps.map F64.ofPair) hs = some l ∧
      F64.GetRank l (some p.1) p.2 = some (rankIn p (sortPairs ps)) := by
  obtain ⟨l, hrun, hrank⟩ := rank_of_inserted ps hs hlen hh hN hnd p hp hne hfirst
  refine ⟨F64.ofList l, ?_, ?_⟩
  · rw [← Create_ofList, insertAll_ofList, hrun]
    rfl
  · rw [GetRank_ofList]
    exact hrank

set_option maxRecDepth 100000 in
/-- Witness of C2 (amended): the pairs and the towers of the counterexample, where
the member `"a"` occurs twice; `GetRank(1, "a")` is 1. -/
theorem C2_witness :
    [2, 1, 1].length = [((1 : Int), "a"), (2, "b"), (3, "a")].length ∧
    (∀ h ∈ [2, 1, 1], 1 ≤ h ∧ h ≤ MaxLevel) ∧
    [((1 : Int), "a"), (2, "b"), (3, "a")].length < U64 ∧
    [((1 : Int), "a"), (2, "b"), (3, "a")].Nodup ∧
    ((1 : Int), "a") ∈ [((1 : Int), "a"), (2, "b"), (3, "a")] ∧
    ((1 : Int), "a").2 ≠ "" ∧
    (∀ q ∈ [((1 : Int), "a"), (2, "b"), (3, "a")], q.2 = ((1 : Int), "a").2 →
      ((1 : Int), "a").1 ≤ q.1) ∧
    ∃ l, F64.insertAll F64.Create
        ([((1 : Int), "a"), (2, "b"), (3, "a")].map F64.ofPair) [2, 1, 1] = some l ∧
      F64.GetRank l (some ((1 : Int), "a").1) ((1 : Int), "a").2 =
        some (rankIn (1, "a") (sortPairs [(1, "a"), (2, "b"), (3, "a")])) :=
  ⟨by decide, by decide, by decide, by decide, by decide, by decide, by decide,
    C2_rank_of_inserted [(1, "a"), (2, "b"), (3, "a")] [2, 1, 1]
      (by decide) (by decide) (by decide) (by decide) (1, "a") (by decide) (by decide)
      (by decide)⟩

/-- C3, amended: on a list reachable from `Create` by `Insert` and `Delete` with
scores that are not NaN, whose level-0 sequence is `pairs`, `Delete(s, m)` of a
stored pair returns `nil`, decreases `Length` by exactly 1 and leaves the level-0
sequence with one occurrence of `(s, m)`, the first, removed (`List.erase`) and
the other pairs in their order. -/
theorem C3_delete_stored (l : F64.SkipList) (hr : F64.Reachable l) (s : Int) (m : String)
    (pairs : List (float64 × String)) (hp : F64.level0Pairs l = some pairs)
    (hmem : F64.ofPair (s, m) ∈ pairs) :
    ∃ l1, F64.Delete l (some s) m = some (l1, DeleteResult.ok) ∧
      l1.Length + 1 = l.Length ∧
      F64.level0Pairs l1 = some (pairs.erase (F64.ofPair (s, m))) := by
  obtain ⟨l0, hr0, rfl⟩ := (reachable_ofList l).mp hr
  rw [level0Pairs_ofList] at hp
  cases hp0 : level0Pairs l0 with
  | none => rw [hp0] at hp; cases hp
  | some pairs0 =>
    rw [hp0] at hp
    simp only [Option.map_some', Option.some.injEq] at hp
    subst hp
    obtain ⟨l1, hdel, hlen, hpairs⟩ :=
      delete_stored l0 hr0 s m pairs0 hp0 (mem_map_ofPair.mp hmem)
    refine ⟨F64.ofList l1, by rw [Delete_ofList, hdel]; rfl, hlen, ?_⟩
    rw [level0Pairs_ofList, hpairs, Option.map_some']
    exact congrArg some (map_erase_ofPair (s, m) pairs0)

set_option maxRecDepth 100000 in
/-- Witness of C3: deleting `(400, "e")` from the list of the test. -/
theorem C3_witness :
    F64.Reachable (F64.ofList testList) ∧
    F64.level0Pairs (F64.ofList testList) = some (testPairs.map F64.ofPair) ∧
    F64.ofPair (400, "e") ∈ testPairs.map F64.ofPair ∧
    ∃ l1, F64.Delete (F64.ofList testList) (some 400) "e" = some (l1, DeleteResult.ok) ∧
      l1.Length + 1 = (F64.ofList testList).Length ∧
      F64.level0Pairs l1 = some ((testPairs.map F64.ofPair).erase (F64.ofPair (400, "e"))) :=
  ⟨testList_reachableF, by decide, by decide,
    C3_delete_stored (F64.ofList testList) testList_reachableF 400 "e"
      (testPairs.map F64.ofPair) (by decide) (by decide)⟩

/-- C4, amended: on a list reachable from `Create` by `Insert` and `Delete` with
scores that are not NaN, `Delete(s, m)`, for every `s`, NaN included, returns
`ErrNodeNotFound` exactly when `(s, m)` is not stored, and then the whole list
state (heap, `Length`, `header`, `tail`, `level`) is unchanged. -/
theorem C4_delete_absent (l : F64.SkipList) (hr : F64.Reachable l) (s : float64)
    (m : String) :
    ∃ pairs l1 e, F64.level0Pairs l = some pairs ∧ F64.Delete l s m = some (l1, e) ∧
      (e = DeleteResult.ErrNodeNotFound ↔ (s, m) ∉ pairs) ∧ ((s, m) ∉ pairs → l1 = l) := by
  obtain ⟨l0, hr0, rfl⟩ := (reachable_ofList l).mp hr
  cases s with
  | none =>
    obtain ⟨cells, hR⟩ := hr0.rep
    have hnot : ((none : float64), m) ∉ (cells.map Cell.key).map F64.ofPair := by
      intro h
      obtain ⟨q, _, hq⟩ := List.mem_map.mp h
      simp [F64.ofPair] at hq
    exact ⟨(cells.map Cell.key).map F64.ofPair, F64.ofList l0,
      DeleteResult.ErrNodeNotFound, by rw [level0Pairs_ofList, hR.level0Pairs]; rfl,
      Delete_nan hR m, ⟨fun _ => hnot, fun _ => rfl⟩, fun _ => rfl⟩
  | some z =>
    obtain ⟨pairs0, l1, e, hp0, hdel, hiff, hsame⟩ := delete_absent l0 hr0 z m
    refine ⟨pairs0.map F64.ofPair, F64.ofList l1, e,
      by rw [level0Pairs_ofList, hp0]; rfl, by rw [Delete_ofList, hdel]; rfl, ?_, ?_⟩
    · rw [hiff]
      exact not_congr (mem_map_ofPair (q := (z, m))).symm
    · intro h
      rw [hsame (fun hm => h (mem_map_ofPair (q := (z, m)) |>.mpr hm))]

set_option maxRecDepth 100000 in
/-- Witness of C4: deleting the absent pair `(400, "d")`, and a pair with a NaN
score, from the list of the test. -/
theorem C4_witness :
    F64.Reachable (F64.ofList testList) ∧
    (∃ pairs l1 e, F64.level0Pairs (F64.ofList testList) = some pairs ∧
      F64.Delete (F64.ofList testList) (some 400) "d" = some (l1, e) ∧
      (e = DeleteResult.ErrNodeNotFound ↔ ((some 400 : float64), "d") ∉ pairs) ∧
      (((some 400 : float64), "d") ∉ pairs → l1 = F64.ofList testList)) ∧
    (∃ pairs l1 e, F64.level0Pairs (F64.ofList testList) = some pairs ∧
      F64.Delete (F64.ofList testList) none "e" = some (l1, e) ∧
      (e = DeleteResult.ErrNodeNotFound ↔ ((none : float64), "e") ∉ pairs) ∧
      (((none : float64), "e") ∉ pairs → l1 = F64.ofList testList)) :=
  ⟨testList_reachableF,
    C4_delete_absent (F64.ofList testList) testList_reachableF (some 400) "d",
    C4_delete_absent (F64.ofList testList) testList_reachableF none "e"⟩

/-- C5, amended: on a list reachable from `Create` by `Insert` and `Delete` with
scores that are not NaN, with room for one more node, `Insert(score, member)`
with a score that is not NaN and a tower height in `[1, MaxLevel]` returns a
non-nil node holding the arguments, increases `Length` by exactly 1, and the
level-0 sequence becomes `pre ++ (score, member) :: post` where `pre ++ post` is
the previous sequence, every pair of `pre` is strictly smaller than the new pair
and no pair of `post` is. -/
theorem C5_insert (l : F64.SkipList) (hr : F64.Reachable l) (s : Int) (m : String)
    (level : Nat) (h1 : 1 ≤ level) (h2 : level ≤ MaxLevel) (hroom : l.Length + 1 < U64) :
    ∃ l1 x n pre post, F64.Insert l (some s) m level = some (l1, x) ∧
      l1.heap[x]? = some n ∧ n.Score = some s ∧ n.Obj = m ∧
      l1.Length = l.Length + 1 ∧
      F64.level0Pairs l = some (pre ++ post) ∧
      (∀ p ∈ pre, F64.pairLt p (F64.ofPair (s, m))) ∧
      (∀ p ∈ post, ¬ F64.pairLt p (F64.ofPair (s, m))) ∧
      F64.level0Pairs l1 = some (pre ++ F64.ofPair (s, m) :: post) := by
  obtain ⟨l0, hr0, rfl⟩ := (reachable_ofList l).mp hr
  obtain ⟨l1, x, n, pre, post, hins, hn, hsc, hobj, hlen, hp0, hpre, hpost, hp1⟩ :=
    insert_sorted l0 hr0 s m level h1 h2 hroom
  refine ⟨F64.ofList l1, x, F64.ofNode n, pre.map F64.ofPair, post.map F64.ofPair,
    by rw [Insert_ofList, hins]; rfl, ?_, ?_, hobj, hlen, ?_, ?_, ?_, ?_⟩
  · show (l1.heap.map F64.ofNode)[x]? = some (F64.ofNode n)
    rw [List.getElem?_map, hn]
    rfl
  · show some n.Score = some s
    rw [hsc]
  · rw [level0Pairs_ofList, hp0, Option.map_some', List.map_append]
  · intro p hp
    obtain ⟨q, hq, rfl⟩ := List.mem_map.mp hp
    exact (pairLt_ofPair q (s, m)).mpr (hpre q hq)
  · intro p hp
    obtain ⟨q, hq, rfl⟩ := List.mem_map.mp hp
    exact fun h => hpost q hq ((pairLt_ofPair q (s, m)).mp h)
  · rw [level0Pairs_ofList, hp1, Option.map_some', List.map_append, List.map_cons]

set_option maxRecDepth 100000 in
/-- Witness of C5: inserting a second `(400, "e")` into the list of the test. -/
theorem C5_witness :
    F64.Reachable (F64.ofList testList) ∧ 1 ≤ 3 ∧ 3 ≤ MaxLevel ∧
    (F64.ofList testList).Length + 1 < U64 ∧
    ∃ l1 x n pre post, F64.Insert (F64.ofList testList) (some 400) "e" 3 = some (l1, x) ∧
      l1.heap[x]? = some n ∧ n.Score = some 400 ∧ n.Obj = "e" ∧
      l1.Length = (F64.ofList testList).Length + 1 ∧
      F64.level0Pairs (F64.ofList testList) = some (pre ++ post) ∧
      (∀ p ∈ pre, F64.pairLt p (F64.ofPair (400, "e"))) ∧
      (∀ p ∈ post, ¬ F64.pairLt p (F64.ofPair (400, "e"))) ∧
      F64.level0Pairs l1 = some (pre ++ F64.ofPair (400, "e") :: post) :=
  ⟨testList_reachableF, by decide, by decide, by decide,
    C5_insert (F64.ofList testList) testList_reachableF 400 "e" 3 (by decide) (by decide)
      (by decide)⟩

/-- C6, amended: on a list reachable from `Create` by `Insert` and `Delete` with
scores that are not NaN, with room for one more node, `Insert(s, m)` with `s` not
NaN followed by `Delete(s, m)` succeeds and restores `Length` and the level-0
sequence. -/
theorem C6_insert_delete (l : F64.SkipList) (hr : F64.Reachable l) (s : Int) (m : String)
    (level : Nat) (h1 : 1 ≤ level) (h2 : level ≤ MaxLevel) (hroom : l.Length + 1 < U64) :
    ∃ l1 x l2 pairs, F64.Insert l (some s) m level = some (l1, x) ∧
      F64.Delete l1 (some s) m = some (l2, DeleteResult.ok) ∧ l2.Length = l.Length ∧
      F64.level0Pairs l = some pairs ∧ F64.level0Pairs l2 = some pairs := by
  obtain ⟨l0, hr0, rfl⟩ := (reachable_ofList l).mp hr
  obtain ⟨l1, x, l2, pairs, hins, hdel, hlen, hp0, hp2⟩ :=
    insert_then_delete l0 hr0 s m level h1 h2 hroom
  exact ⟨F64.ofList l1, x, F64.ofList l2, pairs.map F64.ofPair,
    by rw [Insert_ofList, hins]; rfl, by rw [Delete_ofList, hdel]; rfl, hlen,
    by rw [level0Pairs_ofList, hp0]; rfl, by rw [level0Pairs_ofList, hp2]; rfl⟩

set_option maxRecDepth 100000 in
/-- Witness of C6: inserting and deleting `(400, "e")` (a duplicate) on the list
of the test. -/
theorem C6_witness :
    F64.Reachable (F64.ofList testList) ∧ 1 ≤ 2 ∧ 2 ≤ MaxLevel ∧
    (F64.ofList testList).Length + 1 < U64 ∧
    ∃ l1 x l2 pairs, F64.Insert (F64.ofList testList) (some 400) "e" 2 = some (l1, x) ∧
      F64.Delete l1 (some 400) "e" = some (l2, DeleteResult.ok) ∧
      l2.Length = (F64.ofList testList).Length ∧
      F64.level0Pairs (F64.ofList testList) = some pairs ∧
      F64.level0Pairs l2 = some pairs :=
  ⟨testList_reachableF, by decide, by decide, by decide,
    C6_insert_delete (F64.ofList testList) testList_reachableF 400 "e" 2 (by decide)
      (by decide) (by decide)⟩

/-- C16, amended: in every list reachable from `Create` by `Insert` and `Delete`
with scores that are not NaN and no pair inserted while an equal pair is stored,
for every level `L` below the list level and every real node `X` whose tower
reaches level `L`, the node reached by the level-`L` forward link of `X`, if
present, is strictly greater than `X` in the (score, then member) order. -/
theorem C16_forward_strict (l : F64.SkipList) (hr : F64.ReachableUnique l)
    (addrs : List Nat) (ha : F64.levelAddrs l 0 = some addrs) (X : Nat) (hX : X ∈ addrs)
    (L : Nat) (hL : L < l.level) (lv : Level) (hlv : F64.getLevel l.heap X L = some lv)
    (f : Nat) (hf : lv.forward = some f) :
    ∃ nX nf, l.heap[X]? = some nX ∧ l.heap[f]? = some nf ∧
      F64.pairLt (nX.Score, nX.Obj) (nf.Score, nf.Obj) := by
  obtain ⟨l0, hr0, rfl⟩ := reachableUnique_ofList l hr
  rw [levelAddrs_ofList] at ha
  have hlv0 : getLevel l0.heap X L = some lv := by
    rw [← getLevel_ofNode]
    exact hlv
  obtain ⟨nX, nf, hnX, hnf, hlt⟩ := forward_strict l0 hr0 addrs ha X hX L hL lv hlv0 f hf
  refine ⟨F64.ofNode nX, F64.ofNode nf, ?_, ?_, hlt⟩
  · show (l0.heap.map F64.ofNode)[X]? = some (F64.ofNode nX)
    rw [List.getElem?_map, hnX]
    rfl
  · show (l0.heap.map F64.ofNode)[f]? = some (F64.ofNode nf)
    rw [List.getElem?_map, hnf]
    rfl

set_option maxRecDepth 100000 in
/-- Witness of C16: in the list of the test, the node `(200, "b")` at address 2
and its level-2 link to the node `(600, "g")` at address 6. -/
theorem C16_witness :
    F64.ReachableUnique (F64.ofList testList) ∧
    F64.levelAddrs (F64.ofList testList) 0 = some [1, 2, 3, 4, 5, 6, 7] ∧
    2 ∈ [1, 2, 3, 4, 5, 6, 7] ∧ 2 < (F64.ofList testList).level ∧
    F64.getLevel (F64.ofList testList).heap 2 2 = some ⟨some 6, 4⟩ ∧
    (⟨some 6, 4⟩ : Level).forward = some 6 ∧
    ∃ nX nf, (F64.ofList testList).heap[2]? = some nX ∧
      (F64.ofList testList).heap[6]? = some nf ∧
      F64.pairLt (nX.Score, nX.Obj) (nf.Score, nf.Obj) :=
  ⟨testList_reachableUniqueF, by decide, by decide, by decide, by decide, rfl,
    C16_forward_strict (F64.ofList testList) testList_reachableUniqueF [1, 2, 3, 4, 5, 6, 7]
      (by decide) 2 (by decide) 2 (by decide) ⟨some 6, 4⟩ (by decide) 6 rfl⟩

end skiplist
